import Mathlib

/-!
# Admission gate of `P5/disco.c`

A shallow embedding of the discotheque admission gate: the three shared
counters, the critical sections of `enter_vip_client`, `enter_normal_client`
and `disco_exit`, the `client` lifecycle, and an interleaving semantics in
which each step is one critical section executed under the single mutex.

The C counters are `int`; every counter is bounded by the number of client
threads, so they are modelled as unbounded integers.  A second model of the same
program, statement by statement with the mutex as part of the state (`Prog`,
`exec_stmt`), is used for the locking discipline; there the increments and
decrements wrap as `int` does.

The later sections embed smaller parts of the other exercises: the size conversion
of `P3/ejercicio4/espacio.c`, the string file of `P2/ejercicio2`, the fixed-offset
writer of `P4/ejercicio4`, `parse_command` of `P4/ejercicio1/run_commands.c`, and
the cook and savages of `P6`.  Where the width of a C integer can matter there, the
wrap-around is explicit (`int32`, `size_t`, the width parameter of `kbytes`).
-/

namespace Disco

/-! ## Data model -/

/-- The three `printf` lines issued inside the critical sections. -/
inductive EventKind where
  | wants
  | entering
  | leaving
deriving DecidableEq, Repr

/-- One line of the log: client id, its class, the kind of line and the counter
value printed on it. -/
structure Event where
  id : Nat
  isvip : Bool
  kind : EventKind
  value : Int
deriving DecidableEq, Repr

/-- The global state protected by `mutex`. -/
structure Gate where
  inside_count : Int
  waiting_vip : Int
  waiting_normal : Int
deriving DecidableEq, Repr

/-- The two condition variables. -/
inductive Cond where
  | vip_cond
  | normal_cond
deriving DecidableEq, Repr

/-- Control point of a client thread between critical sections.
`start`: has not yet locked the mutex in its enter function;
`blocked`: suspended inside `pthread_cond_wait`;
`woken`: released from `pthread_cond_wait`, has not yet re-tested its loop condition;
`inside`: its enter function has returned (dancing);
`done`: `disco_exit` has returned. -/
inductive Pc where
  | start
  | blocked
  | woken
  | inside
  | done
deriving DecidableEq, Repr

/-- A client thread: the `isvip` field of `client_arg_t` and its control point.
The `id` field is the position of the thread in the thread list. -/
structure Thread where
  isvip : Bool
  pc : Pc
deriving DecidableEq, Repr

/-- What one critical section does: the new counters, the lines printed, the
condition variables signalled, and where the thread stands afterwards. -/
structure Outcome where
  gate : Gate
  events : List Event
  signals : List Cond
  pc : Pc
deriving DecidableEq, Repr

/-! ## The critical sections -/

/-- Loop of `enter_vip_client` from its test on: `while (inside_count >= CAPACITY)`
waits on `vip_cond`; otherwise `waiting_vip--; inside_count++`, print and unlock. -/
def vip_loop (CAPACITY : Int) (id : Nat) (g : Gate) : Outcome :=
  if g.inside_count ≥ CAPACITY then
    { gate := g, events := [], signals := [], pc := Pc.blocked }
  else
    let g1 : Gate := { g with waiting_vip := g.waiting_vip - 1 }
    let g2 : Gate := { g1 with inside_count := g1.inside_count + 1 }
    { gate := g2, events := [⟨id, true, EventKind.entering, g2.inside_count⟩],
      signals := [], pc := Pc.inside }

/-- First critical section of `enter_vip_client`: lock, `waiting_vip++`, print,
then the loop. -/
def enter_vip_client (CAPACITY : Int) (id : Nat) (g : Gate) : Outcome :=
  let g1 : Gate := { g with waiting_vip := g.waiting_vip + 1 }
  let r := vip_loop CAPACITY id g1
  { r with events := ⟨id, true, EventKind.wants, g1.waiting_vip⟩ :: r.events }

/-- Loop of `enter_normal_client` from its test on:
`while (inside_count >= CAPACITY || waiting_vip > 0)` waits on `normal_cond`;
otherwise `waiting_normal--; inside_count++`, print and unlock. -/
def normal_loop (CAPACITY : Int) (id : Nat) (g : Gate) : Outcome :=
  if g.inside_count ≥ CAPACITY ∨ g.waiting_vip > 0 then
    { gate := g, events := [], signals := [], pc := Pc.blocked }
  else
    let g1 : Gate := { g with waiting_normal := g.waiting_normal - 1 }
    let g2 : Gate := { g1 with inside_count := g1.inside_count + 1 }
    { gate := g2, events := [⟨id, false, EventKind.entering, g2.inside_count⟩],
      signals := [], pc := Pc.inside }

/-- First critical section of `enter_normal_client`: lock, `waiting_normal++`,
print, then the loop. -/
def enter_normal_client (CAPACITY : Int) (id : Nat) (g : Gate) : Outcome :=
  let g1 : Gate := { g with waiting_normal := g.waiting_normal + 1 }
  let r := normal_loop CAPACITY id g1
  { r with events := ⟨id, false, EventKind.wants, g1.waiting_normal⟩ :: r.events }

/-- The critical section of `disco_exit`: `inside_count--`, print, then
`if (waiting_vip > 0) signal(vip_cond) else if (waiting_normal > 0) signal(normal_cond)`. -/
def disco_exit (id : Nat) (isvip : Bool) (g : Gate) : Outcome :=
  let g1 : Gate := { g with inside_count := g.inside_count - 1 }
  { gate := g1, events := [⟨id, isvip, EventKind.leaving, g1.inside_count⟩],
    signals :=
      if g1.waiting_vip > 0 then [Cond.vip_cond]
      else if g1.waiting_normal > 0 then [Cond.normal_cond]
      else [],
    pc := Pc.done }

/-- The thread body `client`, cut at its critical sections: from `start` it calls
the enter function of its class; when `woken` it re-tests the loop of that
function; once `inside` (after `dance`) it calls `disco_exit`.  A `blocked` or
finished thread has no critical section to run. -/
def client (CAPACITY : Int) (id : Nat) (isvip : Bool) (pc : Pc) (g : Gate) : Option Outcome :=
  match pc with
  | Pc.start =>
    some (if isvip then enter_vip_client CAPACITY id g else enter_normal_client CAPACITY id g)
  | Pc.woken =>
    some (if isvip then vip_loop CAPACITY id g else normal_loop CAPACITY id g)
  | Pc.inside => some (disco_exit id isvip g)
  | Pc.blocked => none
  | Pc.done => none

/-! ## Threads, condition variables and interleavings -/

/-- VIP threads only ever wait on `vip_cond`, normal threads only on `normal_cond`. -/
def blockedOn (c : Cond) (t : Thread) : Bool :=
  t.pc == Pc.blocked && (t.isvip == (c == Cond.vip_cond))

/-- The call `pthread_cond_signal(c)`: if some thread is blocked on `c`, the chosen
thread `w` must be one of them and becomes runnable; if none is, the signal has
no effect. -/
def pthread_cond_signal (c : Cond) (w : Nat) (ts : List Thread) : Option (List Thread) :=
  if ts.any (blockedOn c) then
    match ts[w]? with
    | some t => if blockedOn c t then some (ts.set w { t with pc := Pc.woken }) else none
    | none => none
  else some ts

/-- Deliver the signals of one critical section, in order. -/
def deliver (w : Nat) : List Cond → List Thread → Option (List Thread)
  | [], ts => some ts
  | c :: cs, ts =>
    match pthread_cond_signal c w ts with
    | some ts1 => deliver w cs ts1
    | none => none

/-- The whole system: counters, threads (thread `i` is the client with id `i`) and
the lines printed so far, oldest first. -/
structure Sys where
  gate : Gate
  threads : List Thread
  log : List Event
deriving DecidableEq, Repr

/-- A scheduling decision.  `run i w`: thread `i` executes its next critical
section, and `w` is the thread released by a signal issued in it (ignored when
no signal is issued or nobody is blocked on the condition).  `spurious i`:
blocked thread `i` returns from `pthread_cond_wait` without a signal. -/
inductive Act where
  | run (i w : Nat)
  | spurious (i : Nat)
deriving DecidableEq, Repr

/-- One step of the system; `none` when the decision is not enabled. -/
def step (CAPACITY : Int) (s : Sys) : Act → Option Sys
  | Act.run i w =>
    match s.threads[i]? with
    | none => none
    | some t =>
      match client CAPACITY i t.isvip t.pc s.gate with
      | none => none
      | some r =>
        match deliver w r.signals (s.threads.set i { t with pc := r.pc }) with
        | none => none
        | some ts => some { gate := r.gate, threads := ts, log := s.log ++ r.events }
  | Act.spurious i =>
    match s.threads[i]? with
    | none => none
    | some t =>
      if t.pc = Pc.blocked then
        some { s with threads := s.threads.set i { t with pc := Pc.woken } }
      else none

/-- The state at process start: all counters zero, one thread per manifest entry. -/
def init (manifest : List Bool) : Sys :=
  { gate := ⟨0, 0, 0⟩, threads := manifest.map (fun v => ⟨v, Pc.start⟩), log := [] }

/-- Run a schedule from a state. -/
def exec (CAPACITY : Int) : Sys → List Act → Option Sys
  | s, [] => some s
  | s, a :: as =>
    match step CAPACITY s a with
    | some s1 => exec CAPACITY s1 as
    | none => none

/-- State `s` is reached from the empty gate by some schedule of the manifest's clients. -/
def Reachable (CAPACITY : Int) (manifest : List Bool) (s : Sys) : Prop :=
  ∃ sched : List Act, exec CAPACITY (init manifest) sched = some s

/-- Number of threads of class `v` standing at control point `p`. -/
def cnt (ts : List Thread) (v : Bool) (p : Pc) : Nat :=
  ts.count ⟨v, p⟩

/-- Replacing thread `a` by `b` shifts one unit of the tally from `a` to `b`. -/
def Moved (ts ts1 : List Thread) (a b : Thread) : Prop :=
  0 < ts.count a ∧ ts1.length = ts.length ∧
    ts1.map Thread.isvip = ts.map Thread.isvip ∧ a.isvip = b.isvip ∧
    ∀ v p, cnt ts1 v p + (if a = ⟨v, p⟩ then 1 else 0) = cnt ts v p + (if b = ⟨v, p⟩ then 1 else 0)

/-- Thread `i`, which was `a`, is replaced by `b`; nothing else changes. -/
def MovedAt (i : Nat) (ts ts1 : List Thread) (a b : Thread) : Prop :=
  ts[i]? = some a ∧ ts1 = ts.set i b ∧ a.isvip = b.isvip

/-! ## The gate invariant -/

/-- The facts that hold in every reachable state: the counters agree with the
tally of the threads, occupancy is within capacity, and a blocked thread is
never left without somebody who will eventually signal it. -/
structure Inv (CAPACITY : Int) (manifest : List Bool) (s : Sys) : Prop where
  classes : s.threads.map Thread.isvip = manifest
  inside_eq : s.gate.inside_count
      = (cnt s.threads true Pc.inside : Int) + cnt s.threads false Pc.inside
  wvip_eq : s.gate.waiting_vip
      = (cnt s.threads true Pc.blocked : Int) + cnt s.threads true Pc.woken
  wnorm_eq : s.gate.waiting_normal
      = (cnt s.threads false Pc.blocked : Int) + cnt s.threads false Pc.woken
  le_cap : 0 ≤ CAPACITY → s.gate.inside_count ≤ CAPACITY
  vip_live : 0 < cnt s.threads true Pc.blocked →
      CAPACITY ≤ s.gate.inside_count + cnt s.threads true Pc.woken
  norm_live : 1 ≤ CAPACITY → 0 < cnt s.threads false Pc.blocked →
      0 < s.gate.inside_count + s.gate.waiting_vip + cnt s.threads false Pc.woken

/-! ## Derived quantities used in the statements -/

/-- Clients of class `v` that have registered (passed the increment of their waiting
counter) and have not yet been admitted. -/
def registered_waiting (v : Bool) (ts : List Thread) : Nat :=
  ts.countP (fun t => t.isvip == v && (t.pc == Pc.blocked || t.pc == Pc.woken))

/-- Clients admitted and not yet departed. -/
def present (ts : List Thread) : Nat :=
  ts.countP (fun t => t.pc == Pc.inside)

/-- Every client has completed `client()`. -/
def all_done (s : Sys) : Bool :=
  s.threads.all (fun t => t.pc == Pc.done)

/-- The state reached by a schedule (the initial state if the schedule is not runnable). -/
def outcome (CAPACITY : Int) (manifest : List Bool) (sched : List Act) : Sys :=
  (exec CAPACITY (init manifest) sched).getD (init manifest)

/-- Manifest of scenario A: one VIP followed by two normal clients. -/
def scenarioA : List Bool := [true, false, false]

/-- Both normal clients enter, then the VIP arrives and has to wait. -/
def sched_normals_first : List Act := [Act.run 1 0, Act.run 2 0, Act.run 0 0]

/-- A complete run of scenario A: the normals enter, the VIP waits, client 1 leaves
and wakes the VIP, the VIP enters, then clients 2 and 0 leave. -/
def sched_complete : List Act :=
  [Act.run 1 0, Act.run 2 0, Act.run 0 0, Act.run 1 0, Act.run 0 0, Act.run 2 0, Act.run 0 0]

/-- The thread has not yet returned from `client()`. -/
def unfinished (t : Thread) : Bool :=
  t.pc != Pc.done

/-- The thread can take a step on its own: it is inside, or woken and not yet
re-checked, or not yet arrived. -/
def runnable (t : Thread) : Bool :=
  t.pc == Pc.inside || t.pc == Pc.woken || t.pc == Pc.start

/-- Some client is unfinished and every unfinished client is blocked in
`pthread_cond_wait`. -/
def stuck (s : Sys) : Bool :=
  s.threads.any unfinished && s.threads.all (fun t => !unfinished t || t.pc == Pc.blocked)

/-! ## The log of admissions and departures -/

/-- The `entering` lines of a log, in order. -/
def admissions (log : List Event) : List Event :=
  log.filter (fun e => e.kind == EventKind.entering)

/-- The `leaving` lines of a log, in order. -/
def departures (log : List Event) : List Event :=
  log.filter (fun e => e.kind == EventKind.leaving)

/-- Every `entering` line finds fewer than `CAPACITY` more admissions than departures
before it. -/
def AdmissionsBounded (CAPACITY : Int) (log : List Event) : Prop :=
  ∀ pre ev post, log = pre ++ ev :: post → ev.kind = EventKind.entering →
    ((admissions pre).length : Int) + 1 ≤ (departures pre).length + CAPACITY

/-- The log agrees with the occupancy counter. -/
structure LogInv (CAPACITY : Int) (s : Sys) : Prop where
  balance : ((admissions s.log).length : Int)
      = s.gate.inside_count + (departures s.log).length
  bounded : AdmissionsBounded CAPACITY s.log

/-- Scenario A, both normal clients run their enter function before the VIP does. -/
def sched_two_normals : List Act := [Act.run 1 0, Act.run 2 0]

/-- Scenario A, the VIP runs first, then both normal clients. -/
def sched_vip_first : List Act := [Act.run 0 0, Act.run 1 0, Act.run 2 0]

/-! ## Scenarios B and C -/

/-- Manifest of scenario B: a normal client followed by a VIP. -/
def scenarioB : List Bool := [false, true]

/-- Scenario B: the normal client enters, the VIP arrives and waits, the normal client
leaves and its signal releases the VIP, the VIP re-tests and enters. -/
def sched_handoff : List Act := [Act.run 0 0, Act.run 1 0, Act.run 0 1, Act.run 1 0]

/-- Counters and threads of a state, without the log. -/
def view (s : Sys) : Gate × List Thread := (s.gate, s.threads)

/-- Manifest of scenario C: five VIP clients. -/
def scenarioC : List Bool := [true, true, true, true, true]

/-- Scenario C: the five VIPs call `enter_vip_client` one after the other. -/
def sched_five_vips : List Act :=
  [Act.run 0 0, Act.run 1 0, Act.run 2 0, Act.run 3 0, Act.run 4 0]

/-- While nobody has left, a client can only be waiting if the place is full. -/
def FullWhileWaiting (CAPACITY : Int) (s : Sys) : Prop :=
  cnt s.threads true Pc.done + cnt s.threads false Pc.done = 0 →
  0 < cnt s.threads true Pc.blocked + cnt s.threads true Pc.woken
      + cnt s.threads false Pc.blocked + cnt s.threads false Pc.woken →
  CAPACITY ≤ s.gate.inside_count

/-! ## The events of one client -/

/-- The kinds of the log lines of client `i`, in log order. -/
def client_events (i : Nat) (log : List Event) : List EventKind :=
  (log.filter (fun e => e.id == i)).map Event.kind

/-- The lines a client has printed by the time it stands at a control point. -/
def expected_events : Pc → List EventKind
  | Pc.start => []
  | Pc.blocked => [EventKind.wants]
  | Pc.woken => [EventKind.wants]
  | Pc.inside => [EventKind.wants, EventKind.entering]
  | Pc.done => [EventKind.wants, EventKind.entering, EventKind.leaving]

/-- The lines expected of the thread found at some position of the thread list. -/
def events_of : Option Thread → List EventKind
  | some t => expected_events t.pc
  | none => []

/-- The log of every client matches its control point. -/
def LifecycleInv (s : Sys) : Prop :=
  ∀ i, client_events i s.log = events_of s.threads[i]?

/-! ## Arrival order against admission order -/

/-- The 'wants to enter' lines of a log, in order. -/
def registrations (log : List Event) : List Event :=
  log.filter (fun e => e.kind == EventKind.wants)

/-- Seven clients of one class, for the capacity 5 of the source. -/
def seven (isvip : Bool) : List Bool := List.replicate 7 isvip

/-- Clients 0 to 4 enter and fill the place; client 5 arrives and waits; client 0
leaves and its signal releases client 5; before client 5 gets the mutex back,
client 6 arrives, finds room and enters; client 5 re-tests, finds the place full and
waits again; client 1 leaves and releases client 5, which now enters. -/
def sched_overtake : List Act :=
  [Act.run 0 0, Act.run 1 0, Act.run 2 0, Act.run 3 0, Act.run 4 0, Act.run 5 0,
   Act.run 0 5, Act.run 6 0, Act.run 5 0, Act.run 1 5, Act.run 5 0]

/-! ## `main`: reading the manifest and creating the clients -/

/-- What `fscanf(fp, "%d\n", ...)` finds next in the input file: an integer, or text
that is not one. -/
inductive Token where
  | int (n : Int)
  | junk
deriving DecidableEq, Repr

/-- Conversion to `int` (32 bits, two's complement). -/
def int32 (x : Int) : Int :=
  (x + 2147483648) % 4294967296 - 2147483648

/-- The value `strtol` gives for the integer written in the text: the integer itself,
or the nearest `long` (64 bits) when it is out of range. -/
def strtol (n : Int) : Int :=
  if n < -9223372036854775808 then -9223372036854775808
  else if 9223372036854775807 < n then 9223372036854775807
  else n

/-- What the conversion `%d` stores in an `int` for the integer `n` written in the
file: the `long` that `strtol` gives, cut to 32 bits.  For an integer in the range of
`int` this is `n`; outside it the C standard leaves the result open, and this is what
the C library does. -/
def scanf_d (n : Int) : Int :=
  int32 (strtol n)

/-- The call `fscanf(fp, "%d\n", &x) == 1`: it succeeds exactly when the next item of the
file is an integer, which it converts, stores in the `int` and consumes; at the end of
the file or in front of other text it fails. -/
def fscanf_int : List Token → Option (Int × List Token)
  | Token.int n :: rest => some (scanf_d n, rest)
  | _ => none

/-- The argument block handed to a new thread. -/
structure client_arg_t where
  id : Nat
  isvip : Int
deriving DecidableEq, Repr

/-- Exit status of `main`. -/
inductive ExitCode where
  | EXIT_SUCCESS
  | EXIT_FAILURE
deriving DecidableEq, Repr

/-- The messages `main` writes to `stderr`. -/
inductive Report where
  | usage
  | fopen_failed
  | bad_format
  | malloc_threads
  | missing_entry (i : Nat)
  | malloc_client_arg
  | pthread_create_failed
deriving DecidableEq, Repr

/-- Answers of the C library that do not depend on the manifest: whether the array of
`pthread_t` can be allocated, whether the argument block of client `i` can, and whether
`pthread_create` succeeds for client `i`. -/
structure Env where
  malloc_threads_ok : Bool
  malloc_arg_ok : Nat → Bool
  pthread_create_ok : Nat → Bool

/-- What a run of `main` amounts to: its exit status, the clients whose thread was
created (in creation order), the messages reported, and whether the `pthread_join`
loop was reached. -/
structure MainResult where
  status : ExitCode
  spawned : List client_arg_t
  reports : List Report
  joined : Bool
deriving DecidableEq, Repr

/-- The loop `for (int i = 0; i < M; i++)` of `main`, with `n = M - i` iterations still
to go: read a flag, allocate the argument block, set `id = i` and
`isvip = vipflag ? 1 : 0`, create the thread (a failed `pthread_create` is reported and
the loop goes on).  After the loop the threads are joined and `main` succeeds. -/
def spawn_loop (env : Env) : Nat → Nat → List Token → List client_arg_t → List Report →
    MainResult
  | 0, _, _, spawned, reports =>
    { status := ExitCode.EXIT_SUCCESS, spawned := spawned, reports := reports, joined := true }
  | n + 1, i, file, spawned, reports =>
    match fscanf_int file with
    | none =>
      { status := ExitCode.EXIT_FAILURE, spawned := spawned,
        reports := reports ++ [Report.missing_entry i], joined := false }
    | some (vipflag, rest) =>
      if env.malloc_arg_ok i then
        let ca : client_arg_t := { id := i, isvip := if vipflag ≠ 0 then 1 else 0 }
        if env.pthread_create_ok i then
          spawn_loop env n (i + 1) rest (spawned ++ [ca]) reports
        else
          spawn_loop env n (i + 1) rest spawned (reports ++ [Report.pthread_create_failed])
      else
        { status := ExitCode.EXIT_FAILURE, spawned := spawned,
          reports := reports ++ [Report.malloc_client_arg], joined := false }

/-- The function `main`: `argc` as given, `fp` the content of the input file if `fopen`
succeeds. -/
def main (env : Env) (argc : Int) (fp : Option (List Token)) : MainResult :=
  if argc ≠ 2 then
    { status := ExitCode.EXIT_FAILURE, spawned := [], reports := [Report.usage],
      joined := false }
  else
    match fp with
    | none =>
      { status := ExitCode.EXIT_FAILURE, spawned := [], reports := [Report.fopen_failed],
        joined := false }
    | some file =>
      match fscanf_int file with
      | none =>
        { status := ExitCode.EXIT_FAILURE, spawned := [], reports := [Report.bad_format],
          joined := false }
      | some (M, rest) =>
        if env.malloc_threads_ok then
          spawn_loop env M.toNat 0 rest [] []
        else
          { status := ExitCode.EXIT_FAILURE, spawned := [],
            reports := [Report.malloc_threads], joined := false }

/-- A C library in which every allocation and every `pthread_create` succeeds. -/
def env_ok : Env :=
  { malloc_threads_ok := true, malloc_arg_ok := fun _ => true,
    pthread_create_ok := fun _ => true }

/-- The client created for the flag written at position `i` of the manifest. -/
def client_of_flag (i : Nat) (flag : Int) : client_arg_t :=
  { id := i, isvip := if scanf_d flag ≠ 0 then 1 else 0 }

/-- The clients created for a list of flags read from position `i` on. -/
def clients_from : Nat → List Int → List client_arg_t
  | _, [] => []
  | i, f :: fs => client_of_flag i f :: clients_from (i + 1) fs

/-- A manifest file: the count `M` followed by the flags and by whatever else the file
holds, each integer as it is written in the file. -/
def manifest_file (M : Int) (flags : List Int) (rest : List Token) : List Token :=
  Token.int M :: (flags.map Token.int ++ rest)

/-! ## Unbounded executions and fairness -/

/-- One instant of an execution: a scheduling decision is taken, or nothing happens. -/
def Next (CAPACITY : Int) (s : Sys) (a : Option Act) (s1 : Sys) : Prop :=
  match a with
  | some a => step CAPACITY s a = some s1
  | none => s1 = s

/-- An execution without end from the empty gate: `state n` is the state at instant
`n` and `act n` what happens then. -/
structure Execution (CAPACITY : Int) (manifest : List Bool) (state : Nat → Sys)
    (act : Nat → Option Act) : Prop where
  start : state 0 = init manifest
  next : ∀ n, Next CAPACITY (state n) (act n) (state (n + 1))

/-- Fairness: every client that is inside eventually calls `disco_exit`, and every
client released from `pthread_cond_wait` eventually gets the mutex back and re-tests
its loop condition. -/
def Fair (state : Nat → Sys) (act : Nat → Option Act) : Prop :=
  ∀ n i t, (state n).threads[i]? = some t → (t.pc = Pc.inside ∨ t.pc = Pc.woken) →
    ∃ m w, n ≤ m ∧ act m = some (Act.run i w)

/-- Number of clients that have not yet finished. -/
def pending (ts : List Thread) : Nat :=
  ts.countP unfinished

/-- Scenario B to its end: after the hand-off the VIP leaves too. -/
def sched_handoff_full : List Act :=
  [Act.run 0 0, Act.run 1 0, Act.run 0 1, Act.run 1 0, Act.run 1 0]

/-- The execution of scenario B that follows `sched_handoff_full` and then rests. -/
def handoff_state (n : Nat) : Sys :=
  outcome 1 scenarioB (sched_handoff_full.take n)

/-- The decisions of that execution. -/
def handoff_act (n : Nat) : Option Act :=
  sched_handoff_full[n]?

/-! ## `dance` -/

/-- The argument `(rand() % 3) + 1` that `dance` passes to `sleep`, for the value `r`
returned by `rand()`; `%` is C's remainder, truncating towards zero. -/
def dance (r : Int) : Int :=
  Int.tmod r 3 + 1

/-! ## The occupancy values printed in the log -/

/-- The 'entering' and 'leaving' lines of a log, in order. -/
def occupancy_events (log : List Event) : List Event :=
  log.filter (fun e => e.kind == EventKind.entering || e.kind == EventKind.leaving)

/-- Line `b` follows line `a`: an 'entering' line reports one more than `a`, a
'leaving' line one less. -/
def Follows (a b : Event) : Prop :=
  (b.kind = EventKind.entering ∧ b.value = a.value + 1) ∨
  (b.kind = EventKind.leaving ∧ b.value = a.value - 1)

/-- The values printed agree with the occupancy counter. -/
structure ValueInv (CAPACITY : Int) (s : Sys) : Prop where
  range : ∀ e ∈ occupancy_events s.log,
    (e.kind = EventKind.entering → 1 ≤ e.value ∧ e.value ≤ CAPACITY) ∧
    (e.kind = EventKind.leaving → 0 ≤ e.value ∧ e.value ≤ CAPACITY - 1)
  chain : List.Chain' Follows (occupancy_events s.log)
  last : ∀ e ∈ (occupancy_events s.log).getLast?, e.value = s.gate.inside_count

/-! ## Schedules for any capacity -/

/-- Threads `b, b+1, ..., b+n-1` run their next critical section, in this order. -/
def run_each (b n : Nat) : List Act :=
  (List.range' b n).map (fun j => Act.run j 0)

/-- A VIP (thread 0), a normal client (thread 1) and `c` more VIPs (threads 2 to
`c+1`) that will fill the place. -/
def lost_signal_manifest (c : Nat) : List Bool :=
  true :: false :: List.replicate c true

/-- The `c` VIPs fill the place; the VIP 0 and the normal client 1 arrive and wait;
threads 2 and 3 leave, each signalling `vip_cond` for the same waiting VIP: the first
signal releases it, the second is lost; the VIP re-tests and enters. -/
def lost_signal_sched (c : Nat) : List Act :=
  run_each 2 c ++
    [Act.run 0 0, Act.run 1 0, Act.run 2 0, Act.run 3 0, Act.run 0 0]

/-- A normal client (thread 0) and `c + k` VIPs (threads 1 to `c + k`). -/
def overtake_manifest (c k : Nat) : List Bool :=
  false :: List.replicate (c + k) true

/-- The first `c` VIPs fill the place, then the normal client arrives and waits. -/
def overtake_start (c : Nat) : List Act :=
  run_each 1 c ++ [Act.run 0 0]

/-- Round `j`: VIP `c + j` arrives and waits, client `j` leaves and releases it, and
it enters. -/
def overtake_round (c j : Nat) : List Act :=
  [Act.run (c + j) 0, Act.run j (c + j), Act.run (c + j) 0]

/-- Rounds 1 to `j`. -/
def overtake_rounds (c : Nat) : Nat → List Act
  | 0 => []
  | j + 1 => overtake_rounds c j ++ overtake_round c (j + 1)

/-- Where the threads stand after `j` rounds: the normal client still waits, clients
1 to `j` have left, clients `j+1` to `c+j` are inside, the others have not arrived. -/
def overtake_threads (c k j i : Nat) : Option Thread :=
  if i = 0 then some ⟨false, Pc.blocked⟩
  else if i ≤ j then some ⟨true, Pc.done⟩
  else if i ≤ c + j then some ⟨true, Pc.inside⟩
  else if i ≤ c + k then some ⟨true, Pc.start⟩
  else none

/-! ## `espacio`: blocks to kilobytes -/

/-- The value `espacio` prints (`src/P3/ejercicio4/espacio.c`, `main`):
`size_t kbytes = (blocks + 1) / 2`, in `size_t` arithmetic of `w` bits. -/
def kbytes (w blocks : Nat) : Nat :=
  ((blocks + 1) % 2 ^ w) / 2

/-- What the header comment of `espacio.c` promises: the kilobytes of `blocks` blocks
of 512 bytes, rounded up. -/
def ceil_kilobytes (blocks : Nat) : Nat :=
  ⌈((blocks : ℚ) * 512) / 1024⌉₊

/-! ## `write_strings` and `read_strings`: the string file -/

/-- A stream over a byte file: the file's contents and the read position. -/
structure FILE where
  data : List Nat
  pos : Nat
  deriving DecidableEq, Repr

def ftell (file : FILE) : Nat := file.pos

/-- The next byte, or `none` at end of file (`EOF`). -/
def fgetc (file : FILE) : Option Nat × FILE :=
  match file.data[file.pos]? with
  | some ch => (some ch, { file with pos := file.pos + 1 })
  | none => (none, file)

/-- Pushing back the byte that was just read steps the position back by one. -/
def ungetc (_ch : Nat) (file : FILE) : FILE :=
  { file with pos := file.pos - 1 }

def fseek (file : FILE) (offset : Nat) : FILE :=
  { file with pos := offset }

/-- Reading `size` bytes returns what is there (fewer at end of file). -/
def fread (size : Nat) (file : FILE) : List Nat × FILE :=
  let buffer := (file.data.drop file.pos).take size
  (buffer, { file with pos := file.pos + buffer.length })

/-- The length of the C string that starts a region of memory. -/
def strlen (mem : List Nat) : Nat :=
  (mem.takeWhile (fun c => c != 0)).length

/-- The memory of a program argument: its bytes and the terminator. -/
def c_string (s : List Nat) : List Nat := s ++ [0]

/-- The file written by `write_strings` (`src/P2/ejercicio2/write_strings.c`, `main`)
when every library call succeeds; `none` is the usage error. -/
def write_strings (argv : List (List Nat)) : Option (List Nat) :=
  if argv.length < 2 then none
  else some ((argv.drop 2).foldl
    (fun out arg =>
      let len := strlen (c_string arg) + 1
      out ++ (c_string arg).take len) [])

/-- The counting loop of `loadstr` over the bytes that remain:
`while ((ch = fgetc(file)) != EOF) { length++; if (ch == 0) break; }`.
`none` when `EOF` comes first. -/
def count_loop : List Nat → Nat → Option Nat
  | [], _ => none
  | ch :: rest, length => if ch = 0 then some (length + 1) else count_loop rest (length + 1)

/-- What `loadstr` returns. -/
inductive Loaded where
  | null
  | buffer (bytes : List Nat)
  | err (code : Nat)
  deriving DecidableEq, Repr

/-- The function `loadstr` of `src/P2/ejercicio2/read_strings.c`. -/
def loadstr (file : FILE) : Loaded × FILE :=
  let start_pos := ftell file
  match fgetc file with
  | (none, f1) => (Loaded.null, f1)
  | (some ch, f1) =>
    let f2 := ungetc ch f1
    match count_loop (f2.data.drop f2.pos) 0 with
    | none => (Loaded.err 8, { f2 with pos := f2.data.length })
    | some length =>
      let f4 := fseek { f2 with pos := f2.pos + length } start_pos
      let r := fread length f4
      if r.1.length < length then (Loaded.err 11, r.2) else (Loaded.buffer r.1, r.2)

/-- What `printf("%s\n", str)` writes: the bytes before the first NUL and a newline. -/
def printf_line (str : List Nat) : List Nat :=
  str.takeWhile (fun c => c != 0) ++ [10]

/-- The loop of `main` in `read_strings.c`: exit status and standard output. -/
def read_loop : Nat → FILE → List Nat → Option (Nat × List Nat)
  | 0, _, _ => none
  | fuel + 1, file, out =>
    match loadstr file with
    | (Loaded.null, _) => some (0, out)
    | (Loaded.err code, _) => some (code, out)
    | (Loaded.buffer str, f) => read_loop fuel f (out ++ printf_line str)

def read_strings (fuel : Nat) (data : List Nat) : Option (Nat × List Nat) :=
  read_loop fuel ⟨data, 0⟩ []

/-- The file format in words: each string followed by one NUL byte. -/
def string_file (strs : List (List Nat)) : List Nat :=
  (strs.map (fun s => s ++ [0])).flatten

/-- Each string on a line of its own. -/
def lines_of (strs : List (List Nat)) : List Nat :=
  (strs.map (fun s => s ++ [10])).flatten

/-! ## Mode B of the fixed-offset writer -/

/-- The byte of a file at a position; a position that was never written reads as 0. -/
def byte_at (file : List Nat) (k : Nat) : Nat :=
  file[k]?.getD 0

/-- The call `pwrite(fd, buf, count, offset)` when it writes all of `buf`: the bytes
of `buf` land at `offset`, the file grows to hold them, a gap reads as zero bytes, and
a write of no bytes leaves the file as it was. -/
def pwrite (file buf : List Nat) (offset : Nat) : List Nat :=
  if buf.length = 0 then file
  else (List.range (max file.length (offset + buf.length))).map
    (fun k => if offset ≤ k ∧ k < offset + buf.length then byte_at buf (k - offset)
      else byte_at file k)

def memset (c n : Nat) : List Nat := List.replicate n c

/-- One call of `pwrite`: the offset and the buffer. -/
structure Write where
  offset : Nat
  buf : List Nat
  deriving DecidableEq, Repr

/-- The writes of the parent in `modo_B` (`src/P4/ejercicio4/inicial.c`): zeros at
offset 0, then for `i = 1..9` zeros at offset `(2*i)*5`, only if `i < 9`. -/
def parent_writes : List Write :=
  ⟨0, memset 48 5⟩ ::
    ((List.range' 1 9).filter (fun i => i < 9)).map (fun i => ⟨(2 * i) * 5, memset 48 5⟩)

/-- Child `i` writes five copies of `'0' + i` at offset `(2*i - 1)*5`. -/
def child_write (i : Nat) : Write :=
  ⟨(2 * i - 1) * 5, memset (48 + i) 5⟩

def child_writes : List Write :=
  (List.range' 1 9).map child_write

/-- All the writes of one run of mode B. -/
def modo_B_writes : List Write :=
  parent_writes ++ child_writes

/-- The file after the writes have happened in the given order, from the empty file
that `open` with `O_TRUNC` leaves. -/
def run_writes (order : List Write) : List Nat :=
  order.foldl (fun file w => pwrite file w.buf w.offset) []

/-- Two writes touch no common byte. -/
def disjoint_writes (a b : Write) : Prop :=
  a.offset + a.buf.length ≤ b.offset ∨ b.offset + b.buf.length ≤ a.offset

instance (a b : Write) : Decidable (disjoint_writes a b) := by
  unfold disjoint_writes; infer_instance

/-- The blocks 0,1,0,2,...,0,9 of five bytes each. -/
def modo_B_expected : List Nat :=
  (List.range 9).flatMap (fun j => List.replicate 5 48 ++ List.replicate 5 (48 + (j + 1)))

/-! ## `parse_command` -/

/-- The function `isspace` of the C locale: space, and `\t \n \v \f \r`. -/
def isspace (c : Nat) : Bool :=
  c == 32 || (decide (9 ≤ c) && decide (c ≤ 13))

/-- Reduction to `size_t` (64 bits). -/
def size_t (x : Nat) : Nat :=
  x % 18446744073709551616

/-- An entry of the `argv` array: not yet written, `NULL`, or a pointer to a buffer
with the given bytes. -/
inductive Slot where
  | garbage
  | null
  | str (bytes : List Nat)
  deriving DecidableEq, Repr

/-- The call `realloc(argv, n * sizeof(char *))`: the first entries are kept. -/
def realloc (argv : List Slot) (n : Nat) : List Slot :=
  (argv ++ List.replicate (n - argv.length) Slot.garbage).take n

/-- The assignment `argv[i] = x`; `none` when `i` is outside the array. -/
def store (argv : List Slot) (i : Int) (x : Slot) : Option (List Slot) :=
  if 0 ≤ i ∧ i.toNat < argv.length then some (argv.set i.toNat x) else none

/-- The loop `while (*start && isspace((unsigned char)*start)) start++`, on the bytes
from `start` to the terminator. -/
def skip_spaces : List Nat → List Nat
  | [] => []
  | c :: rest => if c ≠ 0 ∧ isspace c = true then skip_spaces rest else c :: rest

/-- The loop `while (*end && !isspace((unsigned char)*end)) end++`: the bytes passed
over and the bytes from `end` on. -/
def token_end : List Nat → List Nat × List Nat
  | [] => ([], [])
  | c :: rest =>
    if c ≠ 0 ∧ isspace c = false then ((c :: (token_end rest).1), (token_end rest).2)
    else ([], c :: rest)

/-- What `parse_command` hands back: the array, `*argc`, and for every assignment to
the array the index written and `argv_size` at that moment; or the first assignment
that fell outside the array. -/
inductive Parsed where
  | out_of_bounds (index : Int) (argv_size : Nat)
  | ok (argv : List Slot) (argc : Int) (writes : List (Int × Nat))
  deriving DecidableEq, Repr

/-- The main loop of `parse_command` (`src/P4/ejercicio1/run_commands.c`), with
successful allocations. -/
def parse_loop : Nat → List Nat → Nat → List Slot → Int → List (Int × Nat) → Option Parsed
  | 0, _, _, _, _, _ => none
  | fuel + 1, start, argv_size, argv, count, writes =>
    if start.headD 0 = 0 then
      match store argv count Slot.null with
      | none => some (Parsed.out_of_bounds count argv_size)
      | some argv1 => some (Parsed.ok argv1 count (writes ++ [(count, argv_size)]))
    else
      let grow : Bool := decide (count ≥ int32 (int32 argv_size - 1))
      let argv_size1 := if grow then size_t (argv_size * 2) else argv_size
      let argv1 := if grow then realloc argv argv_size1 else argv
      let te := token_end start
      match store argv1 count (Slot.str (te.1 ++ [0])) with
      | none => some (Parsed.out_of_bounds count argv_size1)
      | some argv2 =>
        parse_loop fuel (skip_spaces te.2) argv_size1 argv2 (int32 (count + 1))
          (writes ++ [(count, argv_size1)])

/-- The function `parse_command`. -/
def parse_command (fuel : Nat) (cmd : List Nat) : Option Parsed :=
  parse_loop fuel (skip_spaces cmd) 10 (List.replicate 10 Slot.garbage) 0 []

/-- The maximal runs of non-whitespace characters: the pieces between whitespace
characters that are not empty. -/
def maximal_runs (cmd : List Nat) : List (List Nat) :=
  (cmd.splitOnP isspace).filter (fun t => !t.isEmpty)

/-! ## The cook and the savages -/

/-- Where the cook is in `cook` and `putServingsInPot` (`src/P6/cocinero.c`): the
statement it executes next. -/
inductive CookPc where
  | loop_test
  | wait_empty
  | check_finish
  | wait_mutex
  | set_servings
  | post_mutex
  | post_full (i : Int)
  | terminated
  deriving DecidableEq, Repr

/-- Where a savage is in `getServingsFromPot` (`src/P6/salvajes.c`): the statement it
executes next.  A savage that is eating, or has eaten for the last time, is at
`wait_full` and takes no step. -/
inductive SavagePc where
  | wait_full
  | wait_mutex
  | decrement
  | test_empty
  | post_empty
  | post_mutex
  deriving DecidableEq, Repr

/-- The shared counter, the three semaphores, the cook's flag, and where every
process is. -/
structure Pot where
  servings : Int
  mutex_sem : Nat
  full_sem : Nat
  empty_sem : Nat
  finish : Bool
  cook : CookPc
  savages : List SavagePc
  deriving DecidableEq, Repr

/-- One statement of the cook; `none` when it is blocked in `sem_wait` or has
terminated.  `M` is the argument of `putServingsInPot`. -/
def cook_step (M : Int) (s : Pot) : Option Pot :=
  match s.cook with
  | CookPc.loop_test =>
    some { s with cook := if s.finish then CookPc.terminated else CookPc.wait_empty }
  | CookPc.wait_empty =>
    if 0 < s.empty_sem then
      some { s with empty_sem := s.empty_sem - 1, cook := CookPc.check_finish }
    else none
  | CookPc.check_finish =>
    some { s with cook := if s.finish then CookPc.loop_test else CookPc.wait_mutex }
  | CookPc.wait_mutex =>
    if 0 < s.mutex_sem then
      some { s with mutex_sem := s.mutex_sem - 1, cook := CookPc.set_servings }
    else none
  | CookPc.set_servings => some { s with servings := M, cook := CookPc.post_mutex }
  | CookPc.post_mutex =>
    some { s with mutex_sem := s.mutex_sem + 1, cook := CookPc.post_full 0 }
  | CookPc.post_full i =>
    if i < M then
      some { s with full_sem := s.full_sem + 1, cook := CookPc.post_full (int32 (i + 1)) }
    else some { s with cook := CookPc.loop_test }
  | CookPc.terminated => none

/-- One statement of savage `i`; `none` when it is blocked in `sem_wait`. -/
def savage_step (s : Pot) (i : Nat) : Option Pot :=
  match s.savages[i]? with
  | none => none
  | some SavagePc.wait_full =>
    if 0 < s.full_sem then
      some { s with full_sem := s.full_sem - 1,
                    savages := s.savages.set i SavagePc.wait_mutex }
    else none
  | some SavagePc.wait_mutex =>
    if 0 < s.mutex_sem then
      some { s with mutex_sem := s.mutex_sem - 1,
                    savages := s.savages.set i SavagePc.decrement }
    else none
  | some SavagePc.decrement =>
    some { s with servings := int32 (s.servings - 1),
                  savages := s.savages.set i SavagePc.test_empty }
  | some SavagePc.test_empty =>
    if s.servings = 0 then some { s with savages := s.savages.set i SavagePc.post_empty }
    else some { s with savages := s.savages.set i SavagePc.post_mutex }
  | some SavagePc.post_empty =>
    some { s with empty_sem := s.empty_sem + 1,
                  savages := s.savages.set i SavagePc.post_mutex }
  | some SavagePc.post_mutex =>
    some { s with mutex_sem := s.mutex_sem + 1,
                  savages := s.savages.set i SavagePc.wait_full }

/-- The signal handler of the cook: `finish = 1; sem_post(empty_sem)`. -/
def handler (s : Pot) : Pot :=
  { s with finish := true, empty_sem := s.empty_sem + 1 }

/-- What can happen next: a statement of the cook, a statement of a savage, a signal
to the cook, or a signal that interrupts a `sem_wait` of the cook (the handler is
installed without `SA_RESTART`, so the call returns without the semaphore). -/
inductive PotAct where
  | cook
  | savage (i : Nat)
  | signal
  | interrupt
  deriving DecidableEq, Repr

def pot_step (M : Int) (s : Pot) : PotAct → Option Pot
  | PotAct.cook => cook_step M s
  | PotAct.savage i => savage_step s i
  | PotAct.signal => some (handler s)
  | PotAct.interrupt =>
    match s.cook with
    | CookPc.wait_empty => some { handler s with cook := CookPc.check_finish }
    | CookPc.wait_mutex => some { handler s with cook := CookPc.set_servings }
    | _ => none

/-- The state `main` of `cocinero.c` sets up, with `n` savages about to start. -/
def pot_init (n : Nat) : Pot :=
  ⟨0, 1, 0, 1, false, CookPc.loop_test, List.replicate n SavagePc.wait_full⟩

def pot_exec (M : Int) : Pot → List PotAct → Option Pot
  | s, [] => some s
  | s, a :: as =>
    match pot_step M s a with
    | none => none
    | some s1 => pot_exec M s1 as

/-- The states the protocol can reach with `n` savages. -/
def PotReachable (M : Int) (n : Nat) (s : Pot) : Prop :=
  ∃ sched, pot_exec M (pot_init n) sched = some s

/-- The number of savages at a statement. -/
def at_pc (s : Pot) (p : SavagePc) : Nat :=
  s.savages.count p

/-- The `sem_post(full_sem)` calls of the current refill that are still to come. -/
def to_post (M : Int) : CookPc → Int
  | CookPc.post_mutex => M
  | CookPc.post_full i => M - i
  | _ => 0

/-- Whether the cook is between its `sem_wait(mutex_sem)` and `sem_post(mutex_sem)`. -/
def cook_holds : CookPc → Nat
  | CookPc.set_servings => 1
  | CookPc.post_mutex => 1
  | _ => 0

/-- Whether the cook has taken the wake-up and not yet refilled. -/
def cook_woken : CookPc → Nat
  | CookPc.check_finish => 1
  | CookPc.wait_mutex => 1
  | CookPc.set_servings => 1
  | _ => 0

/-- The invariant of the protocol. -/
structure PotInv (M : Int) (s : Pot) : Prop where
  tokens : s.servings =
    (s.full_sem : Int) + (at_pc s SavagePc.wait_mutex : Int) + (at_pc s SavagePc.decrement : Int)
      + to_post M s.cook
  iter : ∀ i, s.cook = CookPc.post_full i → 0 ≤ i ∧ i ≤ M
  empty_pot : s.cook = CookPc.wait_mutex ∨ s.cook = CookPc.set_servings → s.servings = 0
  mutex : s.finish = false →
    s.mutex_sem + at_pc s SavagePc.decrement + at_pc s SavagePc.test_empty
      + at_pc s SavagePc.post_empty + at_pc s SavagePc.post_mutex + cook_holds s.cook = 1
  wake_once : s.finish = false →
    s.empty_sem + cook_woken s.cook + at_pc s SavagePc.post_empty
      + (if s.servings = 0 then at_pc s SavagePc.test_empty else 0) ≤ 1
  wake_empty : s.finish = false →
    1 ≤ s.empty_sem + cook_woken s.cook + at_pc s SavagePc.post_empty → s.servings = 0
  le_M : s.servings ≤ M

/-! ## The program statement by statement, with the mutex as state -/

theorem count_set_add (ts : List Thread) (i : Nat) (a b x : Thread) (h : ts[i]? = some a) :
    (ts.set i b).count x + (if a = x then 1 else 0) = ts.count x + (if b = x then 1 else 0) := by
  induction ts generalizing i with
  | nil => simp at h
  | cons y ys ih =>
    cases i with
    | zero =>
      simp at h
      subst h
      simp only [List.set_cons_zero, List.count_cons, beq_iff_eq]
      omega
    | succ j =>
      simp at h
      have := ih j h
      simp only [List.set_cons_succ, List.count_cons, beq_iff_eq]
      omega

theorem count_pos_of_get (ts : List Thread) (i : Nat) (a : Thread) (h : ts[i]? = some a) :
    0 < ts.count a := by
  have hm : a ∈ ts := List.mem_iff_getElem?.mpr ⟨i, h⟩
  exact List.count_pos_iff.mpr hm

theorem map_isvip_set (ts : List Thread) (i : Nat) (a b : Thread) (h : ts[i]? = some a)
    (hv : a.isvip = b.isvip) : (ts.set i b).map Thread.isvip = ts.map Thread.isvip := by
  induction ts generalizing i with
  | nil => simp
  | cons y ys ih =>
    cases i with
    | zero =>
      simp at h
      subst h
      simp [hv]
    | succ j =>
      simp at h
      simp [ih j h]

theorem moved_set (ts : List Thread) (i : Nat) (a b : Thread) (h : ts[i]? = some a)
    (hv : a.isvip = b.isvip) : Moved ts (ts.set i b) a b :=
  ⟨count_pos_of_get ts i a h, by simp, map_isvip_set ts i a b h hv, hv,
    fun v p => count_set_add ts i a b ⟨v, p⟩ h⟩

theorem MovedAt.moved {i : Nat} {ts ts1 : List Thread} {a b : Thread}
    (h : MovedAt i ts ts1 a b) : Moved ts ts1 a b := by
  obtain ⟨h1, h2, h3⟩ := h
  subst h2
  exact moved_set ts i a b h1 h3

theorem MovedAt.get_same {i : Nat} {ts ts1 : List Thread} {a b : Thread}
    (h : MovedAt i ts ts1 a b) : ts1[i]? = some b := by
  obtain ⟨h1, h2, _⟩ := h
  subst h2
  have hlt : i < ts.length := by
    rcases Nat.lt_or_ge i ts.length with hl | hl
    · exact hl
    · rw [List.getElem?_eq_none hl] at h1
      exact Option.noConfusion h1
  simp [List.getElem?_set, hlt]

theorem MovedAt.get_other {i k : Nat} {ts ts1 : List Thread} {a b : Thread}
    (h : MovedAt i ts ts1 a b) (hk : i ≠ k) : ts1[k]? = ts[k]? := by
  obtain ⟨_, h2, _⟩ := h
  subst h2
  simp [List.getElem?_set, hk]

theorem moved_length {ts ts1 : List Thread} {a b : Thread} (h : Moved ts ts1 a b) :
    ts1.length = ts.length := h.2.1

theorem cnt_zero_of_not_any (c : Cond) (ts : List Thread)
    (h : ts.any (blockedOn c) = false) : cnt ts (c == Cond.vip_cond) Pc.blocked = 0 := by
  unfold cnt
  rw [List.count_eq_zero]
  intro hm
  have : ts.any (blockedOn c) = true := by
    rw [List.any_eq_true]
    exact ⟨_, hm, by simp [blockedOn]⟩
  rw [h] at this
  exact Bool.noConfusion this

/-- Effect of `pthread_cond_signal`: either nobody is blocked on the condition and
nothing changes, or the chosen thread, blocked on it, becomes woken. -/
theorem signal_cases (c : Cond) (w : Nat) (ts ts1 : List Thread)
    (h : pthread_cond_signal c w ts = some ts1) :
    (ts1 = ts ∧ cnt ts (c == Cond.vip_cond) Pc.blocked = 0) ∨
      MovedAt w ts ts1 ⟨c == Cond.vip_cond, Pc.blocked⟩ ⟨c == Cond.vip_cond, Pc.woken⟩ := by
  unfold pthread_cond_signal at h
  split at h
  · right
    split at h
    · rename_i t ht
      split at h
      · rename_i hb
        simp only [Option.some.injEq] at h
        subst h
        have ht2 : t = ⟨c == Cond.vip_cond, Pc.blocked⟩ := by
          cases t with
          | mk v p =>
            simp only [blockedOn, Bool.and_eq_true, beq_iff_eq] at hb
            simp only [Thread.mk.injEq]
            exact ⟨hb.2, hb.1⟩
        subst ht2
        exact ⟨ht, rfl, rfl⟩
      · exact Option.noConfusion h
    · exact Option.noConfusion h
  · left
    rename_i hn
    simp only [Option.some.injEq] at h
    exact ⟨h.symm, cnt_zero_of_not_any c ts (by simpa using hn)⟩

theorem signal_vip_cases (w : Nat) (ts ts1 : List Thread)
    (h : pthread_cond_signal Cond.vip_cond w ts = some ts1) :
    (ts1 = ts ∧ cnt ts true Pc.blocked = 0) ∨
      MovedAt w ts ts1 ⟨true, Pc.blocked⟩ ⟨true, Pc.woken⟩ :=
  signal_cases Cond.vip_cond w ts ts1 h

theorem signal_normal_cases (w : Nat) (ts ts1 : List Thread)
    (h : pthread_cond_signal Cond.normal_cond w ts = some ts1) :
    (ts1 = ts ∧ cnt ts false Pc.blocked = 0) ∨
      MovedAt w ts ts1 ⟨false, Pc.blocked⟩ ⟨false, Pc.woken⟩ :=
  signal_cases Cond.normal_cond w ts ts1 h

/-- Inversion of a `run` step. -/
theorem step_run_inv (CAPACITY : Int) (s s1 : Sys) (i w : Nat)
    (h : step CAPACITY s (Act.run i w) = some s1) :
    ∃ t r mid, s.threads[i]? = some t ∧ client CAPACITY i t.isvip t.pc s.gate = some r ∧
      MovedAt i s.threads mid t ⟨t.isvip, r.pc⟩ ∧ deliver w r.signals mid = some s1.threads ∧
      s1.gate = r.gate ∧ s1.log = s.log ++ r.events := by
  simp only [step] at h
  split at h
  · exact Option.noConfusion h
  · rename_i t ht
    split at h
    · exact Option.noConfusion h
    · rename_i r hr
      split at h
      · exact Option.noConfusion h
      · rename_i ts hts
        simp only [Option.some.injEq] at h
        subst h
        exact ⟨t, r, _, ht, hr, ⟨ht, rfl, rfl⟩, hts, rfl, rfl⟩

/-- Inversion of a spurious wake-up. -/
theorem step_spurious_inv (CAPACITY : Int) (s s1 : Sys) (i : Nat)
    (h : step CAPACITY s (Act.spurious i) = some s1) :
    ∃ v, s.threads[i]? = some ⟨v, Pc.blocked⟩ ∧
      MovedAt i s.threads s1.threads ⟨v, Pc.blocked⟩ ⟨v, Pc.woken⟩ ∧
      s1.gate = s.gate ∧ s1.log = s.log := by
  simp only [step] at h
  split at h
  · exact Option.noConfusion h
  · rename_i t ht
    split at h
    · rename_i hb
      simp only [Option.some.injEq] at h
      subst h
      cases t with
      | mk v p =>
        simp only at hb
        subst hb
        exact ⟨v, ht, ⟨ht, rfl, rfl⟩, rfl, rfl⟩
    · exact Option.noConfusion h

theorem moved_all {ts ts1 : List Thread} {a b : Thread} (h : Moved ts ts1 a b) :
    (cnt ts1 true Pc.start + (if a = ⟨true, Pc.start⟩ then 1 else 0)
        = cnt ts true Pc.start + (if b = ⟨true, Pc.start⟩ then 1 else 0)) ∧
    (cnt ts1 true Pc.blocked + (if a = ⟨true, Pc.blocked⟩ then 1 else 0)
        = cnt ts true Pc.blocked + (if b = ⟨true, Pc.blocked⟩ then 1 else 0)) ∧
    (cnt ts1 true Pc.woken + (if a = ⟨true, Pc.woken⟩ then 1 else 0)
        = cnt ts true Pc.woken + (if b = ⟨true, Pc.woken⟩ then 1 else 0)) ∧
    (cnt ts1 true Pc.inside + (if a = ⟨true, Pc.inside⟩ then 1 else 0)
        = cnt ts true Pc.inside + (if b = ⟨true, Pc.inside⟩ then 1 else 0)) ∧
    (cnt ts1 true Pc.done + (if a = ⟨true, Pc.done⟩ then 1 else 0)
        = cnt ts true Pc.done + (if b = ⟨true, Pc.done⟩ then 1 else 0)) ∧
    (cnt ts1 false Pc.start + (if a = ⟨false, Pc.start⟩ then 1 else 0)
        = cnt ts false Pc.start + (if b = ⟨false, Pc.start⟩ then 1 else 0)) ∧
    (cnt ts1 false Pc.blocked + (if a = ⟨false, Pc.blocked⟩ then 1 else 0)
        = cnt ts false Pc.blocked + (if b = ⟨false, Pc.blocked⟩ then 1 else 0)) ∧
    (cnt ts1 false Pc.woken + (if a = ⟨false, Pc.woken⟩ then 1 else 0)
        = cnt ts false Pc.woken + (if b = ⟨false, Pc.woken⟩ then 1 else 0)) ∧
    (cnt ts1 false Pc.inside + (if a = ⟨false, Pc.inside⟩ then 1 else 0)
        = cnt ts false Pc.inside + (if b = ⟨false, Pc.inside⟩ then 1 else 0)) ∧
    (cnt ts1 false Pc.done + (if a = ⟨false, Pc.done⟩ then 1 else 0)
        = cnt ts false Pc.done + (if b = ⟨false, Pc.done⟩ then 1 else 0)) :=
  ⟨h.2.2.2.2 _ _, h.2.2.2.2 _ _, h.2.2.2.2 _ _, h.2.2.2.2 _ _, h.2.2.2.2 _ _,
   h.2.2.2.2 _ _, h.2.2.2.2 _ _, h.2.2.2.2 _ _, h.2.2.2.2 _ _, h.2.2.2.2 _ _⟩

theorem moved_pos {ts ts1 : List Thread} {v : Bool} {p : Pc} {b : Thread}
    (h : Moved ts ts1 ⟨v, p⟩ b) : 0 < cnt ts v p := h.1

theorem deliver_nil (w : Nat) (ts : List Thread) : deliver w [] ts = some ts := rfl

theorem deliver_single (w : Nat) (c : Cond) (ts : List Thread) :
    deliver w [c] ts = pthread_cond_signal c w ts := by
  simp only [deliver]
  cases pthread_cond_signal c w ts <;> rfl

theorem cnt_init (manifest : List Bool) (v : Bool) (p : Pc) (hp : p ≠ Pc.start) :
    cnt (init manifest).threads v p = 0 := by
  unfold cnt init
  rw [List.count_eq_zero]
  intro hm
  simp only [List.mem_map, Thread.mk.injEq] at hm
  obtain ⟨_, _, _, h⟩ := hm
  exact hp h.symm

theorem inv_init (CAPACITY : Int) (manifest : List Bool) :
    Inv CAPACITY manifest (init manifest) := by
  have c1 := fun v => cnt_init manifest v Pc.blocked (by decide)
  have c2 := fun v => cnt_init manifest v Pc.woken (by decide)
  have c3 := fun v => cnt_init manifest v Pc.inside (by decide)
  constructor
  · simp [init, Function.comp_def]
  · rw [c3, c3]; simp [init]
  · rw [c1, c2]; simp [init]
  · rw [c1, c2]; simp [init]
  · intro h0; simpa [init] using h0
  · rw [c1]; intro h; exact absurd h (by decide)
  · rw [c1]; intro _ h; exact absurd h (by decide)

theorem inv_step {CAPACITY : Int} {manifest : List Bool} {s s1 : Sys} {a : Act}
    (hI : Inv CAPACITY manifest s) (h : step CAPACITY s a = some s1) :
    Inv CAPACITY manifest s1 := by
  obtain ⟨hc, hin, hwv, hwn, hle, hvl, hnl⟩ := hI
  cases a with
  | spurious i =>
    obtain ⟨v, _, hm, hg, _⟩ := step_spurious_inv CAPACITY s s1 i h
    replace hm := hm.moved
    have hcl := hm.2.2.1
    obtain ⟨e1, e2, e3, e4, e5, e6, e7, e8, e9, e10⟩ := moved_all hm
    have hp := moved_pos hm
    rw [← hc]
    cases v <;> simp at e1 e2 e3 e4 e5 e6 e7 e8 e9 e10 <;>
      refine ⟨hcl, ?_, ?_, ?_, ?_, ?_, ?_⟩ <;> rw [hg] <;> omega
  | run i w =>
    obtain ⟨t, r, mid, ht, hr, hm, hd, hg, _⟩ := step_run_inv CAPACITY s s1 i w h
    replace hm := hm.moved
    have hcl := hm.2.2.1
    obtain ⟨e1, e2, e3, e4, e5, e6, e7, e8, e9, e10⟩ := moved_all hm
    have hp : 0 < cnt s.threads t.isvip t.pc := hm.1
    rw [← hc]
    rcases t with ⟨v, p⟩
    cases p
    · -- first critical section of the enter function
      cases v
      · simp only [client, enter_normal_client, normal_loop, Option.some.injEq,
          Bool.false_eq_true, if_false] at hr
        split_ifs at hr with hcond <;> subst hr <;>
          simp only [deliver_nil, Option.some.injEq] at hd hg <;> subst hd <;>
          simp at e1 e2 e3 e4 e5 e6 e7 e8 e9 e10 hp <;>
          refine ⟨hcl, ?_, ?_, ?_, ?_, ?_, ?_⟩ <;> rw [hg] <;> (try simp only) <;> omega
      · simp only [client, enter_vip_client, vip_loop, Option.some.injEq, if_true] at hr
        split_ifs at hr with hcond <;> subst hr <;>
          simp only [deliver_nil, Option.some.injEq] at hd hg <;> subst hd <;>
          simp at e1 e2 e3 e4 e5 e6 e7 e8 e9 e10 hp <;>
          refine ⟨hcl, ?_, ?_, ?_, ?_, ?_, ?_⟩ <;> rw [hg] <;> (try simp only) <;> omega
    · -- a blocked thread has nothing to run
      simp only [client] at hr
      exact Option.noConfusion hr
    · -- re-test after a wake-up
      cases v
      · simp only [client, normal_loop, Option.some.injEq, Bool.false_eq_true, if_false] at hr
        split_ifs at hr with hcond <;> subst hr <;>
          simp only [deliver_nil, Option.some.injEq] at hd hg <;> subst hd <;>
          simp at e1 e2 e3 e4 e5 e6 e7 e8 e9 e10 hp <;>
          refine ⟨hcl, ?_, ?_, ?_, ?_, ?_, ?_⟩ <;> rw [hg] <;> (try simp only) <;> omega
      · simp only [client, vip_loop, Option.some.injEq, if_true] at hr
        split_ifs at hr with hcond <;> subst hr <;>
          simp only [deliver_nil, Option.some.injEq] at hd hg <;> subst hd <;>
          simp at e1 e2 e3 e4 e5 e6 e7 e8 e9 e10 hp <;>
          refine ⟨hcl, ?_, ?_, ?_, ?_, ?_, ?_⟩ <;> rw [hg] <;> (try simp only) <;> omega
    · -- disco_exit
      simp only [client, disco_exit, Option.some.injEq] at hr
      subst hr
      simp only at hd hg
      split_ifs at hd with h1 h2
      · rw [deliver_single] at hd
        rcases signal_vip_cases _ _ _ hd with ⟨hsame, hz⟩ | hm2
        · subst hsame
          cases v <;> simp at e1 e2 e3 e4 e5 e6 e7 e8 e9 e10 hp <;>
            refine ⟨hcl, ?_, ?_, ?_, ?_, ?_, ?_⟩ <;> rw [hg] <;> (try simp only) <;> omega
        · replace hm2 := hm2.moved
          have hcl2 := hm2.2.2.1.trans hcl
          obtain ⟨f1, f2, f3, f4, f5, f6, f7, f8, f9, f10⟩ := moved_all hm2
          have hp2 := moved_pos hm2
          cases v <;> simp at e1 e2 e3 e4 e5 e6 e7 e8 e9 e10 hp f1 f2 f3 f4 f5 f6 f7 f8 f9 f10 <;>
            refine ⟨hcl2, ?_, ?_, ?_, ?_, ?_, ?_⟩ <;> rw [hg] <;> (try simp only) <;> omega
      · rw [deliver_single] at hd
        rcases signal_normal_cases _ _ _ hd with ⟨hsame, hz⟩ | hm2
        · subst hsame
          cases v <;> simp at e1 e2 e3 e4 e5 e6 e7 e8 e9 e10 hp <;>
            refine ⟨hcl, ?_, ?_, ?_, ?_, ?_, ?_⟩ <;> rw [hg] <;> (try simp only) <;> omega
        · replace hm2 := hm2.moved
          have hcl2 := hm2.2.2.1.trans hcl
          obtain ⟨f1, f2, f3, f4, f5, f6, f7, f8, f9, f10⟩ := moved_all hm2
          have hp2 := moved_pos hm2
          cases v <;> simp at e1 e2 e3 e4 e5 e6 e7 e8 e9 e10 hp f1 f2 f3 f4 f5 f6 f7 f8 f9 f10 <;>
            refine ⟨hcl2, ?_, ?_, ?_, ?_, ?_, ?_⟩ <;> rw [hg] <;> (try simp only) <;> omega
      · simp only [deliver_nil, Option.some.injEq] at hd
        subst hd
        cases v <;> simp at e1 e2 e3 e4 e5 e6 e7 e8 e9 e10 hp <;>
          refine ⟨hcl, ?_, ?_, ?_, ?_, ?_, ?_⟩ <;> rw [hg] <;> (try simp only) <;> omega
    · -- a finished thread has nothing to run
      simp only [client] at hr
      exact Option.noConfusion hr

theorem exec_inv {CAPACITY : Int} {manifest : List Bool} (sched : List Act) :
    ∀ s s1 : Sys, Inv CAPACITY manifest s → exec CAPACITY s sched = some s1 →
      Inv CAPACITY manifest s1 := by
  induction sched with
  | nil =>
    intro s s1 hI h
    simp only [exec, Option.some.injEq] at h
    exact h ▸ hI
  | cons a as ih =>
    intro s s1 hI h
    simp only [exec] at h
    split at h
    · rename_i s2 hs2
      exact ih s2 s1 (inv_step hI hs2) h
    · exact Option.noConfusion h

theorem reachable_inv {CAPACITY : Int} {manifest : List Bool} {s : Sys}
    (h : Reachable CAPACITY manifest s) : Inv CAPACITY manifest s := by
  obtain ⟨sched, hs⟩ := h
  exact exec_inv sched _ _ (inv_init CAPACITY manifest) hs

/-! ## Following one thread through a step -/

theorem signal_thread (c : Cond) (w k : Nat) (ts ts1 : List Thread)
    (h : pthread_cond_signal c w ts = some ts1) :
    ts1[k]? = ts[k]? ∨ ∃ v, ts[k]? = some ⟨v, Pc.blocked⟩ ∧ ts1[k]? = some ⟨v, Pc.woken⟩ := by
  rcases signal_cases c w ts ts1 h with ⟨hsame, _⟩ | hm
  · left; rw [hsame]
  · by_cases hk : w = k
    · subst hk
      right
      exact ⟨_, hm.1, hm.get_same⟩
    · left
      exact hm.get_other hk

theorem deliver_thread (w k : Nat) (cs : List Cond) :
    ∀ ts ts1 : List Thread, deliver w cs ts = some ts1 →
      ts1[k]? = ts[k]? ∨ ∃ v, ts[k]? = some ⟨v, Pc.blocked⟩ ∧ ts1[k]? = some ⟨v, Pc.woken⟩ := by
  induction cs with
  | nil =>
    intro ts ts1 h
    simp only [deliver, Option.some.injEq] at h
    left; rw [h]
  | cons c cs ih =>
    intro ts ts1 h
    simp only [deliver] at h
    split at h
    · rename_i ts2 h2
      rcases signal_thread c w k ts ts2 h2 with e1 | ⟨v, e1, e2⟩
      · rw [← e1]
        exact ih ts2 ts1 h
      · rcases ih ts2 ts1 h with e3 | ⟨v2, e3, _⟩
        · right
          exact ⟨v, e1, e3.trans e2⟩
        · rw [e2] at e3
          simp at e3
    · exact Option.noConfusion h

theorem client_signals {CAPACITY : Int} {id : Nat} {v : Bool} {p : Pc} {g : Gate} {r : Outcome}
    (h : client CAPACITY id v p g = some r) : r.signals = [] ∨ r.pc = Pc.done := by
  cases p <;> cases v <;>
    simp only [client, enter_vip_client, enter_normal_client, vip_loop, normal_loop, disco_exit,
      Option.some.injEq, Bool.false_eq_true, if_false, if_true] at h <;>
    first
      | exact Option.noConfusion h
      | (subst h; right; rfl)
      | (split_ifs at h <;> subst h <;> left <;> rfl)

/-- What a step does to thread `k`: nothing; or it is released from its wait; or it
is the thread that ran, and then it stands where its critical section left it. -/
theorem step_thread_cases {CAPACITY : Int} {s s1 : Sys} {a : Act}
    (h : step CAPACITY s a = some s1) (k : Nat) :
    s1.threads[k]? = s.threads[k]? ∨
    (∃ v, s.threads[k]? = some ⟨v, Pc.blocked⟩ ∧ s1.threads[k]? = some ⟨v, Pc.woken⟩) ∨
    (∃ w t r, a = Act.run k w ∧ s.threads[k]? = some t ∧
      client CAPACITY k t.isvip t.pc s.gate = some r ∧ s1.gate = r.gate ∧
      s1.threads[k]? = some ⟨t.isvip, r.pc⟩) := by
  cases a with
  | spurious i =>
    obtain ⟨v, ht, hm, _, _⟩ := step_spurious_inv CAPACITY s s1 i h
    by_cases hk : i = k
    · subst hk
      right; left
      exact ⟨v, ht, hm.get_same⟩
    · left
      exact hm.get_other hk
  | run i w =>
    obtain ⟨t, r, mid, ht, hr, hm, hd, hg, _⟩ := step_run_inv CAPACITY s s1 i w h
    by_cases hk : i = k
    · subst hk
      right; right
      refine ⟨w, t, r, rfl, ht, hr, hg, ?_⟩
      rcases client_signals hr with hs | hs
      · rw [hs, deliver_nil, Option.some.injEq] at hd
        rw [← hd]
        exact hm.get_same
      · rcases deliver_thread w i r.signals mid s1.threads hd with e | ⟨v, e, _⟩
        · rw [e]
          exact hm.get_same
        · rw [hm.get_same, hs] at e
          simp at e
    · have hmid := hm.get_other hk
      rcases deliver_thread w k r.signals mid s1.threads hd with e | ⟨v, e1, e2⟩
      · left
        rw [e, hmid]
      · right; left
        exact ⟨v, hmid ▸ e1, e2⟩

theorem reach_normals_first :
    Reachable 2 scenarioA (outcome 2 scenarioA sched_normals_first) :=
  ⟨sched_normals_first, rfl⟩

theorem reach_complete :
    Reachable 2 scenarioA (outcome 2 scenarioA sched_complete) :=
  ⟨sched_complete, rfl⟩

theorem registered_waiting_eq (v : Bool) (ts : List Thread) :
    registered_waiting v ts = cnt ts v Pc.blocked + cnt ts v Pc.woken := by
  unfold registered_waiting cnt
  induction ts with
  | nil => rfl
  | cons t ts ih =>
    rcases t with ⟨tv, tp⟩
    simp only [List.countP_cons, List.count_cons, ih]
    cases tv <;> cases tp <;> cases v <;> simp <;> omega

theorem present_eq (ts : List Thread) :
    present ts = cnt ts true Pc.inside + cnt ts false Pc.inside := by
  unfold present cnt
  induction ts with
  | nil => rfl
  | cons t ts ih =>
    rcases t with ⟨tv, tp⟩
    simp only [List.countP_cons, List.count_cons, ih]
    cases tv <;> cases tp <;> simp <;> omega

theorem cnt_pos_iff (ts : List Thread) (v : Bool) (p : Pc) :
    0 < cnt ts v p ↔ (⟨v, p⟩ : Thread) ∈ ts := by
  unfold cnt
  exact List.count_pos_iff

theorem cnt_eq_zero_of_all_done {s : Sys} (h : all_done s = true) (v : Bool) (p : Pc)
    (hp : p ≠ Pc.done) : cnt s.threads v p = 0 := by
  unfold cnt
  rw [List.count_eq_zero]
  intro hm
  simp only [all_done, List.all_eq_true, beq_iff_eq] at h
  exact hp (h _ hm)

/-! ## Claims -/

/-- C1: for every capacity `CAPACITY ≥ 1`, every manifest of clients and every
interleaving of their critical sections from the empty gate, every reachable
state has `0 ≤ inside_count ≤ CAPACITY`. -/
theorem occupancy_within_capacity (CAPACITY : Int) (hcap : 1 ≤ CAPACITY)
    (manifest : List Bool) (s : Sys) (h : Reachable CAPACITY manifest s) :
    0 ≤ s.gate.inside_count ∧ s.gate.inside_count ≤ CAPACITY := by
  have hI := reachable_inv h
  refine ⟨?_, hI.le_cap (by omega)⟩
  rw [hI.inside_eq]
  omega

theorem occupancy_within_capacity_witness :
    (outcome 2 scenarioA sched_normals_first).gate.inside_count = 2 ∧
    0 ≤ (outcome 2 scenarioA sched_normals_first).gate.inside_count ∧
    (outcome 2 scenarioA sched_normals_first).gate.inside_count ≤ 2 :=
  ⟨rfl, occupancy_within_capacity 2 (by decide) scenarioA _ reach_normals_first⟩

/-- C2: in every execution, a step that admits a normal client (takes it from
`start` or `woken` to `inside`, whether the wake-up was signalled or spurious) is
taken in a state with `waiting_vip = 0` and `inside_count < CAPACITY`; no VIP is
registered and waiting at that moment. -/
theorem normal_admitted_only_without_vip (CAPACITY : Int) (manifest : List Bool)
    (s s1 : Sys) (a : Act) (i : Nat) (p : Pc)
    (h : Reachable CAPACITY manifest s) (hs : step CAPACITY s a = some s1)
    (hb : s.threads[i]? = some ⟨false, p⟩) (hp : p ≠ Pc.inside)
    (ha : s1.threads[i]? = some ⟨false, Pc.inside⟩) :
    s.gate.waiting_vip = 0 ∧ s.gate.inside_count < CAPACITY ∧
      registered_waiting true s.threads = 0 := by
  have hI := reachable_inv h
  have hwv := hI.wvip_eq
  have hreg := registered_waiting_eq true s.threads
  rcases step_thread_cases hs i with e | ⟨v, _, e⟩ | ⟨w, t, r, _, ht, hr, _, e⟩
  · rw [e, hb] at ha
    simp only [Option.some.injEq, Thread.mk.injEq, true_and] at ha
    exact absurd ha hp
  · rw [e] at ha
    simp at ha
  · rw [hb, Option.some.injEq] at ht
    subst ht
    rw [e] at ha
    simp only [Option.some.injEq, Thread.mk.injEq, true_and] at ha
    cases p <;>
      simp only [client, enter_normal_client, normal_loop, Option.some.injEq,
        Bool.false_eq_true, if_false] at hr
    · split_ifs at hr with hc
      · rw [← hr] at ha; simp at ha
      · push_neg at hc
        refine ⟨?_, ?_, ?_⟩ <;> omega
    · exact Option.noConfusion hr
    · split_ifs at hr with hc
      · rw [← hr] at ha; simp at ha
      · push_neg at hc
        refine ⟨?_, ?_, ?_⟩ <;> omega
    · exact absurd rfl hp
    · exact Option.noConfusion hr

theorem normal_admitted_only_without_vip_witness :
    (init scenarioA).gate.waiting_vip = 0 ∧ (init scenarioA).gate.inside_count < 2 ∧
      registered_waiting true (init scenarioA).threads = 0 :=
  normal_admitted_only_without_vip 2 scenarioA (init scenarioA)
    (outcome 2 scenarioA [Act.run 1 0]) (Act.run 1 0) 1 Pc.start
    ⟨[], rfl⟩ rfl rfl (by decide) rfl

/-- C3: in every reachable state of the gate, `waiting_vip ≥ 0`, `waiting_normal ≥ 0`
and `inside_count ≥ 0`: no decrement takes a counter below zero. -/
theorem counters_nonneg (CAPACITY : Int) (manifest : List Bool) (s : Sys)
    (h : Reachable CAPACITY manifest s) :
    0 ≤ s.gate.waiting_vip ∧ 0 ≤ s.gate.waiting_normal ∧ 0 ≤ s.gate.inside_count := by
  have hI := reachable_inv h
  rw [hI.inside_eq, hI.wvip_eq, hI.wnorm_eq]
  omega

theorem counters_nonneg_witness :
    (outcome 2 scenarioA sched_complete).gate = ⟨0, 0, 0⟩ ∧
    0 ≤ (outcome 2 scenarioA sched_complete).gate.waiting_vip ∧
    0 ≤ (outcome 2 scenarioA sched_complete).gate.waiting_normal ∧
    0 ≤ (outcome 2 scenarioA sched_complete).gate.inside_count :=
  ⟨rfl, counters_nonneg 2 scenarioA _ reach_complete⟩

/-- C4: in every state in which `disco_exit` runs, after decrementing `inside_count` it
signals `vip_cond` exactly when `waiting_vip > 0`, signals `normal_cond` exactly when
`waiting_vip = 0` and `waiting_normal > 0`, signals nothing when both are zero, never
signals both condition variables, and issues at most one signal. -/
theorem disco_exit_signals (CAPACITY : Int) (manifest : List Bool) (s : Sys)
    (h : Reachable CAPACITY manifest s) (id : Nat) (isvip : Bool) :
    (disco_exit id isvip s.gate).gate.inside_count = s.gate.inside_count - 1 ∧
    (Cond.vip_cond ∈ (disco_exit id isvip s.gate).signals ↔ 0 < s.gate.waiting_vip) ∧
    (Cond.normal_cond ∈ (disco_exit id isvip s.gate).signals ↔
      s.gate.waiting_vip = 0 ∧ 0 < s.gate.waiting_normal) ∧
    (s.gate.waiting_vip = 0 ∧ s.gate.waiting_normal = 0 →
      (disco_exit id isvip s.gate).signals = []) ∧
    ¬ (Cond.vip_cond ∈ (disco_exit id isvip s.gate).signals ∧
        Cond.normal_cond ∈ (disco_exit id isvip s.gate).signals) ∧
    (disco_exit id isvip s.gate).signals.length ≤ 1 := by
  have hI := reachable_inv h
  have h1 : 0 ≤ s.gate.waiting_vip := by rw [hI.wvip_eq]; omega
  simp only [disco_exit]
  refine ⟨trivial, ?_, ?_, ?_, ?_, ?_⟩
  · split_ifs <;> simp <;> omega
  · split_ifs <;> simp <;> omega
  · intro ⟨hv, hn⟩
    split_ifs <;> first | rfl | omega
  · split_ifs <;> simp
  · split_ifs <;> simp

theorem disco_exit_signals_witness :
    (disco_exit 1 false (outcome 2 scenarioA sched_normals_first).gate).signals
      = [Cond.vip_cond] ∧
    (disco_exit 1 false (outcome 2 scenarioA sched_normals_first).gate).signals.length ≤ 1 :=
  ⟨rfl, (disco_exit_signals 2 scenarioA _ reach_normals_first 1 false).2.2.2.2.2⟩

/-- C5: for every gate state, a VIP client proceeds to admission, on its first check in
`enter_vip_client` and on every re-check, if and only if `inside_count < CAPACITY`;
otherwise it waits.  The decision is the same in any two states with equal
`inside_count`, whatever `waiting_vip` and `waiting_normal` are. -/
theorem vip_admission_predicate (CAPACITY : Int) (id : Nat) (g : Gate) :
    ((enter_vip_client CAPACITY id g).pc = Pc.inside ↔ g.inside_count < CAPACITY) ∧
    ((vip_loop CAPACITY id g).pc = Pc.inside ↔ g.inside_count < CAPACITY) ∧
    ((enter_vip_client CAPACITY id g).pc = Pc.blocked ↔ ¬ g.inside_count < CAPACITY) ∧
    ((vip_loop CAPACITY id g).pc = Pc.blocked ↔ ¬ g.inside_count < CAPACITY) ∧
    ∀ wv wn : Int,
      (enter_vip_client CAPACITY id ⟨g.inside_count, wv, wn⟩).pc
          = (enter_vip_client CAPACITY id g).pc ∧
      (vip_loop CAPACITY id ⟨g.inside_count, wv, wn⟩).pc = (vip_loop CAPACITY id g).pc := by
  simp only [enter_vip_client, vip_loop]
  refine ⟨?_, ?_, ?_, ?_, ?_⟩
  · split_ifs <;> simp <;> omega
  · split_ifs <;> simp <;> omega
  · split_ifs <;> simp <;> omega
  · split_ifs <;> simp <;> omega
  · intro wv wn
    constructor <;> split_ifs <;> rfl

/-- C6: for every gate state (counters non-negative, as in every reachable state), a
normal client proceeds to admission, on its first check in `enter_normal_client` and
on every re-check after a wake-up, if and only if `inside_count < CAPACITY` and
`waiting_vip = 0`; otherwise it waits.  `waiting_normal` plays no part. -/
theorem normal_admission_predicate (CAPACITY : Int) (id : Nat) (g : Gate)
    (hv : 0 ≤ g.waiting_vip) :
    ((enter_normal_client CAPACITY id g).pc = Pc.inside ↔
      g.inside_count < CAPACITY ∧ g.waiting_vip = 0) ∧
    ((normal_loop CAPACITY id g).pc = Pc.inside ↔
      g.inside_count < CAPACITY ∧ g.waiting_vip = 0) ∧
    ((enter_normal_client CAPACITY id g).pc = Pc.blocked ↔
      ¬ (g.inside_count < CAPACITY ∧ g.waiting_vip = 0)) ∧
    ((normal_loop CAPACITY id g).pc = Pc.blocked ↔
      ¬ (g.inside_count < CAPACITY ∧ g.waiting_vip = 0)) ∧
    ∀ wn : Int,
      (enter_normal_client CAPACITY id ⟨g.inside_count, g.waiting_vip, wn⟩).pc
          = (enter_normal_client CAPACITY id g).pc ∧
      (normal_loop CAPACITY id ⟨g.inside_count, g.waiting_vip, wn⟩).pc
          = (normal_loop CAPACITY id g).pc := by
  simp only [enter_normal_client, normal_loop]
  refine ⟨?_, ?_, ?_, ?_, ?_⟩
  · split_ifs <;> simp <;> omega
  · split_ifs <;> simp <;> omega
  · split_ifs <;> simp <;> omega
  · split_ifs <;> simp <;> omega
  · intro wn
    constructor <;> split_ifs <;> rfl

theorem normal_admission_predicate_witness :
    (normal_loop 2 1 ⟨1, 0, 1⟩).pc = Pc.inside ∧
    ((normal_loop 2 1 ⟨1, 0, 1⟩).pc = Pc.inside ↔ (1 : Int) < 2 ∧ (0 : Int) = 0) :=
  ⟨rfl, (normal_admission_predicate 2 1 ⟨1, 0, 1⟩ (by decide)).2.1⟩

/-- C7: in every reachable state, `waiting_vip` is the number of VIP clients that have
registered and not yet been admitted, `waiting_normal` is the same number for normal
clients, and `inside_count` is the number of clients admitted and not yet departed. -/
theorem counters_track_clients (CAPACITY : Int) (manifest : List Bool) (s : Sys)
    (h : Reachable CAPACITY manifest s) :
    s.gate.waiting_vip = registered_waiting true s.threads ∧
    s.gate.waiting_normal = registered_waiting false s.threads ∧
    s.gate.inside_count = present s.threads := by
  have hI := reachable_inv h
  rw [registered_waiting_eq, registered_waiting_eq, present_eq, hI.inside_eq, hI.wvip_eq,
    hI.wnorm_eq]
  refine ⟨?_, ?_, ?_⟩ <;> push_cast <;> rfl

theorem counters_track_clients_witness :
    registered_waiting true (outcome 2 scenarioA sched_normals_first).threads = 1 ∧
    present (outcome 2 scenarioA sched_normals_first).threads = 2 ∧
    (outcome 2 scenarioA sched_normals_first).gate.waiting_vip
      = registered_waiting true (outcome 2 scenarioA sched_normals_first).threads ∧
    (outcome 2 scenarioA sched_normals_first).gate.waiting_normal
      = registered_waiting false (outcome 2 scenarioA sched_normals_first).threads ∧
    (outcome 2 scenarioA sched_normals_first).gate.inside_count
      = present (outcome 2 scenarioA sched_normals_first).threads :=
  ⟨rfl, rfl, counters_track_clients 2 scenarioA _ reach_normals_first⟩

/-- C8: for every manifest and every execution in which all clients have completed
`client()`, the final gate state is `inside_count = 0`, `waiting_vip = 0`,
`waiting_normal = 0`. -/
theorem all_done_gate_empty (CAPACITY : Int) (manifest : List Bool) (s : Sys)
    (h : Reachable CAPACITY manifest s) (hd : all_done s = true) :
    s.gate = ⟨0, 0, 0⟩ := by
  have hI := reachable_inv h
  have z := fun v p hp => cnt_eq_zero_of_all_done hd v p hp
  have e1 := hI.inside_eq
  have e2 := hI.wvip_eq
  have e3 := hI.wnorm_eq
  rw [z _ _ (by decide), z _ _ (by decide)] at e1 e2 e3
  rcases hg : s.gate with ⟨a, b, c⟩
  rw [hg] at e1 e2 e3
  simp only [Nat.cast_zero, add_zero] at e1 e2 e3
  rw [e1, e2, e3]

theorem all_done_gate_empty_witness :
    all_done (outcome 2 scenarioA sched_complete) = true ∧
    (outcome 2 scenarioA sched_complete).gate = ⟨0, 0, 0⟩ :=
  ⟨rfl, all_done_gate_empty 2 scenarioA _ reach_complete rfl⟩

theorem any_runnable_of_cnt {ts : List Thread} {v : Bool} {p : Pc}
    (h : 0 < cnt ts v p) (hr : runnable ⟨v, p⟩ = true) : ts.any runnable = true := by
  rw [List.any_eq_true]
  exact ⟨_, (cnt_pos_iff ts v p).mp h, hr⟩

theorem blocked_has_runnable {CAPACITY : Int} {manifest : List Bool} {s : Sys}
    (hcap : 1 ≤ CAPACITY) (hI : Inv CAPACITY manifest s)
    (hb : s.threads.any (fun t => t.pc == Pc.blocked) = true) :
    s.threads.any runnable = true := by
  rw [List.any_eq_true] at hb
  obtain ⟨⟨v, p⟩, hm, hp⟩ := hb
  simp only [beq_iff_eq] at hp
  subst hp
  have hpos := (cnt_pos_iff _ _ _).mpr hm
  have e1 := hI.inside_eq
  have e2 := hI.wvip_eq
  have hv := hI.vip_live
  have hn := hI.norm_live hcap
  have key : 0 < cnt s.threads true Pc.inside ∨ 0 < cnt s.threads false Pc.inside ∨
      0 < cnt s.threads true Pc.woken ∨ 0 < cnt s.threads false Pc.woken := by
    cases v
    · have h2 := hn hpos
      by_cases hvb : 0 < cnt s.threads true Pc.blocked
      · have h3 := hv hvb
        omega
      · omega
    · have h3 := hv hpos
      omega
  rcases key with k | k | k | k <;> exact any_runnable_of_cnt k rfl

theorem signal_enabled (c : Cond) (ts : List Thread) :
    ∃ w ts1, pthread_cond_signal c w ts = some ts1 := by
  by_cases h : ts.any (blockedOn c) = true
  · obtain ⟨t, hm, hb⟩ := List.any_eq_true.mp h
    obtain ⟨w, hw⟩ := List.mem_iff_getElem?.mp hm
    refine ⟨w, ts.set w { t with pc := Pc.woken }, ?_⟩
    simp only [pthread_cond_signal, h, hw, hb, if_true]
  · refine ⟨0, ts, ?_⟩
    simp only [pthread_cond_signal, h, Bool.false_eq_true, if_false]

theorem deliver_enabled (cs : List Cond) (hl : cs.length ≤ 1) (ts : List Thread) :
    ∃ w ts1, deliver w cs ts = some ts1 := by
  match cs, hl with
  | [], _ => exact ⟨0, ts, rfl⟩
  | [c], _ =>
    obtain ⟨w, ts1, h⟩ := signal_enabled c ts
    exact ⟨w, ts1, by rw [deliver_single, h]⟩
  | _ :: _ :: _, hl => simp at hl

theorem client_signals_length {CAPACITY : Int} {id : Nat} {v : Bool} {p : Pc} {g : Gate}
    {r : Outcome} (h : client CAPACITY id v p g = some r) : r.signals.length ≤ 1 := by
  rcases client_signals h with hs | hd
  · rw [hs]; exact Nat.zero_le 1
  · cases p <;> cases v <;>
      simp only [client, enter_vip_client, enter_normal_client, vip_loop, normal_loop,
        disco_exit, Option.some.injEq, Bool.false_eq_true, if_false, if_true] at h <;>
      first
        | exact Option.noConfusion h
        | (subst h; simp only; split_ifs <;> simp)
        | (split_ifs at h <;> subst h <;> simp)

/-- A runnable thread always has an enabled step. -/
theorem run_enabled (CAPACITY : Int) (s : Sys) (i : Nat) (t : Thread)
    (ht : s.threads[i]? = some t) (hr : runnable t = true) :
    ∃ w s1, step CAPACITY s (Act.run i w) = some s1 := by
  have hc : ∃ r, client CAPACITY i t.isvip t.pc s.gate = some r := by
    rcases t with ⟨v, p⟩
    cases p <;> simp [runnable] at hr <;> exact ⟨_, rfl⟩
  obtain ⟨r, hr2⟩ := hc
  obtain ⟨w, ts1, hd⟩ := deliver_enabled r.signals (client_signals_length hr2)
    (s.threads.set i { t with pc := r.pc })
  exact ⟨w, { gate := r.gate, threads := ts1, log := s.log ++ r.events },
    by simp only [step, ht, hr2, hd]⟩

/-- C9: for `CAPACITY ≥ 1` the gate never reaches a stuck state: in every reachable
state in which some client is blocked in `pthread_cond_wait`, some client is inside,
or woken and not yet re-checked, or not yet arrived; so no reachable state has every
unfinished client blocked, and while a client is unfinished some client can run its
next critical section. -/
theorem no_stuck_state (CAPACITY : Int) (hcap : 1 ≤ CAPACITY) (manifest : List Bool)
    (s : Sys) (h : Reachable CAPACITY manifest s) :
    (s.threads.any (fun t => t.pc == Pc.blocked) = true → s.threads.any runnable = true) ∧
    stuck s = false ∧
    (s.threads.any unfinished = true → ∃ i w s1, step CAPACITY s (Act.run i w) = some s1) := by
  have hI := reachable_inv h
  have part1 := blocked_has_runnable hcap hI
  have part3 : s.threads.any unfinished = true → s.threads.any runnable = true := by
    intro hu
    obtain ⟨⟨v, p⟩, hm, hp⟩ := List.any_eq_true.mp hu
    cases p
    · exact List.any_eq_true.mpr ⟨_, hm, rfl⟩
    · exact part1 (List.any_eq_true.mpr ⟨_, hm, rfl⟩)
    · exact List.any_eq_true.mpr ⟨_, hm, rfl⟩
    · exact List.any_eq_true.mpr ⟨_, hm, rfl⟩
    · simp [unfinished] at hp
  refine ⟨part1, ?_, ?_⟩
  · cases hst : stuck s with
    | false => rfl
    | true =>
      simp only [stuck, Bool.and_eq_true] at hst
      obtain ⟨t, hm, hrun⟩ := List.any_eq_true.mp (part3 hst.1)
      have hall := List.all_eq_true.mp hst.2 t hm
      rcases t with ⟨v, p⟩
      cases p <;> simp [runnable, unfinished] at hrun hall
  · intro hu
    obtain ⟨t, hm, hrun⟩ := List.any_eq_true.mp (part3 hu)
    obtain ⟨i, hi⟩ := List.mem_iff_getElem?.mp hm
    obtain ⟨w, s1, hs⟩ := run_enabled CAPACITY s i t hi hrun
    exact ⟨i, w, s1, hs⟩

theorem no_stuck_state_witness :
    (outcome 2 scenarioA sched_normals_first).threads.any (fun t => t.pc == Pc.blocked) = true ∧
    (outcome 2 scenarioA sched_normals_first).threads.any runnable = true ∧
    stuck (outcome 2 scenarioA sched_normals_first) = false :=
  ⟨rfl,
    (no_stuck_state 2 (by decide) scenarioA _ reach_normals_first).1 rfl,
    (no_stuck_state 2 (by decide) scenarioA _ reach_normals_first).2.1⟩

theorem admissions_snoc (log : List Event) (e : Event) :
    admissions (log ++ [e])
      = if e.kind = EventKind.entering then admissions log ++ [e] else admissions log := by
  unfold admissions
  rw [List.filter_append]
  by_cases h : e.kind = EventKind.entering <;> simp [h, List.filter_cons]

theorem departures_snoc (log : List Event) (e : Event) :
    departures (log ++ [e])
      = if e.kind = EventKind.leaving then departures log ++ [e] else departures log := by
  unfold departures
  rw [List.filter_append]
  by_cases h : e.kind = EventKind.leaving <;> simp [h, List.filter_cons]

theorem bounded_snoc {CAPACITY : Int} {log : List Event} (e : Event)
    (hb : AdmissionsBounded CAPACITY log)
    (he : e.kind = EventKind.entering →
      ((admissions log).length : Int) + 1 ≤ (departures log).length + CAPACITY) :
    AdmissionsBounded CAPACITY (log ++ [e]) := by
  intro pre ev post hsplit hk
  rcases List.eq_nil_or_concat post with hp | ⟨post1, x, hp⟩
  · subst hp
    have hinj := List.append_inj' hsplit rfl
    obtain ⟨h1, h2⟩ := hinj
    simp only [List.cons.injEq, and_true] at h2
    subst h1 h2
    exact he hk
  · subst hp
    have hre : pre ++ ev :: post1.concat x = (pre ++ ev :: post1) ++ [x] := by simp
    rw [hre] at hsplit
    have hinj := List.append_inj' hsplit rfl
    exact hb pre ev post1 hinj.1 hk

/-- The lines a critical section prints, with what it does to `inside_count`. -/
theorem client_log_cases {CAPACITY : Int} {id : Nat} {v : Bool} {p : Pc} {g : Gate}
    {r : Outcome} (h : client CAPACITY id v p g = some r) :
    (r.events = [] ∧ r.gate.inside_count = g.inside_count) ∨
    (∃ e, e.kind = EventKind.wants ∧ r.events = [e] ∧
      r.gate.inside_count = g.inside_count) ∨
    (∃ e, e.kind = EventKind.entering ∧ r.events = [e] ∧ g.inside_count < CAPACITY ∧
      r.gate.inside_count = g.inside_count + 1) ∨
    (∃ e1 e2, e1.kind = EventKind.wants ∧ e2.kind = EventKind.entering ∧
      r.events = [e1, e2] ∧ g.inside_count < CAPACITY ∧
      r.gate.inside_count = g.inside_count + 1) ∨
    (∃ e, e.kind = EventKind.leaving ∧ r.events = [e] ∧
      r.gate.inside_count = g.inside_count - 1) := by
  cases p <;> cases v <;>
    simp only [client, enter_vip_client, enter_normal_client, vip_loop, normal_loop,
      disco_exit, Option.some.injEq, Bool.false_eq_true, if_false, if_true] at h
  · split_ifs at h with hc <;> subst h
    · right; left; exact ⟨_, rfl, rfl, rfl⟩
    · right; right; right; left
      push_neg at hc
      exact ⟨_, _, rfl, rfl, rfl, hc.1, rfl⟩
  · split_ifs at h with hc <;> subst h
    · right; left; exact ⟨_, rfl, rfl, rfl⟩
    · right; right; right; left
      exact ⟨_, _, rfl, rfl, rfl, not_le.mp hc, rfl⟩
  · exact Option.noConfusion h
  · exact Option.noConfusion h
  · split_ifs at h with hc <;> subst h
    · left; exact ⟨rfl, rfl⟩
    · right; right; left
      push_neg at hc
      exact ⟨_, rfl, rfl, hc.1, rfl⟩
  · split_ifs at h with hc <;> subst h
    · left; exact ⟨rfl, rfl⟩
    · right; right; left
      exact ⟨_, rfl, rfl, not_le.mp hc, rfl⟩
  · subst h
    right; right; right; right
    exact ⟨_, rfl, rfl, rfl⟩
  · subst h
    right; right; right; right
    exact ⟨_, rfl, rfl, rfl⟩
  · exact Option.noConfusion h
  · exact Option.noConfusion h

theorem logInv_init (CAPACITY : Int) (manifest : List Bool) :
    LogInv CAPACITY (init manifest) := by
  constructor
  · simp [init, admissions, departures]
  · intro pre ev post h _
    simp [init] at h

theorem logInv_step {CAPACITY : Int} {s s1 : Sys} {a : Act}
    (hL : LogInv CAPACITY s) (h : step CAPACITY s a = some s1) : LogInv CAPACITY s1 := by
  obtain ⟨hbal, hbd⟩ := hL
  cases a with
  | spurious i =>
    obtain ⟨_, _, _, hg, hl⟩ := step_spurious_inv CAPACITY s s1 i h
    constructor
    · rw [hl, hg]; exact hbal
    · rw [hl]; exact hbd
  | run i w =>
    obtain ⟨t, r, mid, _, hr, _, _, hg, hl⟩ := step_run_inv CAPACITY s s1 i w h
    rcases client_log_cases hr with ⟨he, hic⟩ | ⟨e, hk, he, hic⟩ | ⟨e, hk, he, hlt, hic⟩ |
        ⟨e1, e2, hk1, hk2, he, hlt, hic⟩ | ⟨e, hk, he, hic⟩
    · rw [he, List.append_nil] at hl
      constructor
      · rw [hl, hg, hic]; exact hbal
      · rw [hl]; exact hbd
    · rw [he] at hl
      constructor
      · rw [hl, hg, hic, admissions_snoc, departures_snoc]
        simp only [hk, reduceCtorEq, if_false]
        exact hbal
      · rw [hl]
        exact bounded_snoc e hbd (fun hk2 => by rw [hk] at hk2; cases hk2)
    · rw [he] at hl
      constructor
      · rw [hl, hg, hic, admissions_snoc, departures_snoc]
        simp only [hk, reduceCtorEq, if_false, if_true, List.length_append,
          List.length_singleton]
        push_cast
        omega
      · rw [hl]
        exact bounded_snoc e hbd (fun _ => by omega)
    · have hsplit : s.log ++ [e1, e2] = (s.log ++ [e1]) ++ [e2] := by simp
      rw [he, hsplit] at hl
      constructor
      · rw [hl, hg, hic, admissions_snoc, departures_snoc, admissions_snoc, departures_snoc]
        simp only [hk1, hk2, reduceCtorEq, if_false, if_true, List.length_append,
          List.length_singleton]
        push_cast
        omega
      · rw [hl]
        refine bounded_snoc e2 (bounded_snoc e1 hbd ?_) ?_
        · intro hk; rw [hk1] at hk; cases hk
        · intro _
          rw [admissions_snoc, departures_snoc]
          simp only [hk1, reduceCtorEq, if_false]
          omega
    · rw [he] at hl
      constructor
      · rw [hl, hg, hic, admissions_snoc, departures_snoc]
        simp only [hk, reduceCtorEq, if_false, if_true, List.length_append,
          List.length_singleton]
        push_cast
        omega
      · rw [hl]
        exact bounded_snoc e hbd (fun hk2 => by rw [hk] at hk2; cases hk2)

theorem exec_logInv {CAPACITY : Int} (sched : List Act) :
    ∀ s s1 : Sys, LogInv CAPACITY s → exec CAPACITY s sched = some s1 →
      LogInv CAPACITY s1 := by
  induction sched with
  | nil =>
    intro s s1 hL h
    simp only [exec, Option.some.injEq] at h
    exact h ▸ hL
  | cons a as ih =>
    intro s s1 hL h
    simp only [exec] at h
    split at h
    · rename_i s2 hs2
      exact ih s2 s1 (logInv_step hL hs2) h
    · exact Option.noConfusion h

theorem reachable_logInv {CAPACITY : Int} {manifest : List Bool} {s : Sys}
    (h : Reachable CAPACITY manifest s) : LogInv CAPACITY s := by
  obtain ⟨sched, hs⟩ := h
  exact exec_logInv sched _ _ (logInv_init CAPACITY manifest) hs

/-- C10, as stated, fails: with capacity 2 and clients [VIP, NORMAL, NORMAL], when both
normal clients run `enter_normal_client` before the VIP has registered, the first two
clients admitted are the two normal clients (ids 1 and 2), both admitted without any
departure, and the VIP has not been admitted. -/
theorem scenarioA_both_normals_first :
    exec 2 (init scenarioA) sched_two_normals = some (outcome 2 scenarioA sched_two_normals) ∧
    (admissions (outcome 2 scenarioA sched_two_normals).log).map (fun e => (e.id, e.isvip))
      = [(1, false), (2, false)] ∧
    departures (outcome 2 scenarioA sched_two_normals).log = [] ∧
    (outcome 2 scenarioA sched_two_normals).threads
      = [⟨true, Pc.start⟩, ⟨false, Pc.inside⟩, ⟨false, Pc.inside⟩] :=
  ⟨rfl, rfl, rfl, rfl⟩

/-- C10, amended: with capacity 2 and clients [VIP, NORMAL, NORMAL] from the empty gate,
in every execution at most two clients are inside at once; every admission that
follows two earlier admissions comes after a departure (so the client admitted third,
whichever it is, waits for a departure); and when the VIP registers while fewer than
two clients have been admitted, it is admitted in that same critical section and is
therefore among the first two admitted. -/
theorem scenarioA_admissions (s : Sys) (h : Reachable 2 scenarioA s) :
    s.gate.inside_count ≤ 2 ∧
    (∀ pre ev post, s.log = pre ++ ev :: post → ev.kind = EventKind.entering →
      2 ≤ (admissions pre).length → 1 ≤ (departures pre).length) ∧
    (∀ w s1, s.threads[0]? = some ⟨true, Pc.start⟩ → (admissions s.log).length < 2 →
      step 2 s (Act.run 0 w) = some s1 →
      s1.threads[0]? = some ⟨true, Pc.inside⟩ ∧
      ∃ e ∈ (admissions s1.log).take 2, e.id = 0 ∧ e.isvip = true) := by
  have hI := reachable_inv h
  have hL := reachable_logInv h
  refine ⟨hI.le_cap (by decide), ?_, ?_⟩
  · intro pre ev post hsplit hk h2
    have := hL.bounded pre ev post hsplit hk
    omega
  · intro w s1 ht hlen hs
    obtain ⟨t, r, mid, ht2, hr, hm, hd, _, hl⟩ := step_run_inv 2 s s1 0 w hs
    rw [ht, Option.some.injEq] at ht2
    subst ht2
    have hbal := hL.balance
    have hlt : s.gate.inside_count < 2 := by omega
    simp only [client, enter_vip_client, vip_loop, Option.some.injEq, if_true, ge_iff_le,
      not_le.mpr hlt, if_false] at hr
    subst hr
    simp only [deliver_nil, Option.some.injEq] at hd
    subst hd
    refine ⟨hm.get_same, ⟨0, true, EventKind.entering, s.gate.inside_count + 1⟩, ?_, rfl, rfl⟩
    have hsplit : ∀ e1 e2 : Event, s.log ++ [e1, e2] = (s.log ++ [e1]) ++ [e2] := by
      intro e1 e2; simp
    rw [hl]
    simp only
    rw [hsplit, admissions_snoc, admissions_snoc]
    simp only [reduceCtorEq, if_false, if_true]
    rw [List.take_append_eq_append_take]
    apply List.mem_append_right
    have h1 : 2 - (admissions s.log).length = 1 ∨ 2 - (admissions s.log).length = 2 := by
      omega
    rcases h1 with h1 | h1 <;> rw [h1] <;> simp

theorem scenarioA_admissions_witness :
    (outcome 2 scenarioA sched_vip_first).threads
      = [⟨true, Pc.inside⟩, ⟨false, Pc.inside⟩, ⟨false, Pc.blocked⟩] ∧
    (outcome 2 scenarioA sched_vip_first).gate.inside_count ≤ 2 :=
  ⟨rfl, (scenarioA_admissions _ ⟨sched_vip_first, rfl⟩).1⟩

/-- C11: scenario B with capacity 1, from the empty gate.  The normal client's
`enter_normal_client` is admitted without waiting (counters 1, 0, 0); the VIP's
`enter_vip_client` called next blocks with `waiting_vip = 1`; the normal client's
`disco_exit` then sets `inside_count` to 0 and signals `vip_cond` and not
`normal_cond`, and whichever thread the signal is offered to, it is the VIP that is
released; the woken VIP is then admitted, giving `inside_count = 1`, `waiting_vip = 0`. -/
theorem scenarioB_handoff :
    (exec 1 (init scenarioB) (sched_handoff.take 1)).map view
      = some (⟨1, 0, 0⟩, [⟨false, Pc.inside⟩, ⟨true, Pc.start⟩]) ∧
    (enter_normal_client 1 0 ⟨0, 0, 0⟩).pc = Pc.inside ∧
    (exec 1 (init scenarioB) (sched_handoff.take 2)).map view
      = some (⟨1, 1, 0⟩, [⟨false, Pc.inside⟩, ⟨true, Pc.blocked⟩]) ∧
    (enter_vip_client 1 1 ⟨1, 0, 0⟩).pc = Pc.blocked ∧
    (disco_exit 0 false ⟨1, 1, 0⟩).gate.inside_count = 0 ∧
    (disco_exit 0 false ⟨1, 1, 0⟩).signals = [Cond.vip_cond] ∧
    Cond.normal_cond ∉ (disco_exit 0 false ⟨1, 1, 0⟩).signals ∧
    (exec 1 (init scenarioB) (sched_handoff.take 3)).map view
      = some (⟨0, 1, 0⟩, [⟨false, Pc.done⟩, ⟨true, Pc.woken⟩]) ∧
    (∀ w s, step 1 (outcome 1 scenarioB (sched_handoff.take 2)) (Act.run 0 w) = some s →
      view s = (⟨0, 1, 0⟩, [⟨false, Pc.done⟩, ⟨true, Pc.woken⟩])) ∧
    (vip_loop 1 1 ⟨0, 1, 0⟩).pc = Pc.inside ∧
    (exec 1 (init scenarioB) sched_handoff).map view
      = some (⟨1, 0, 0⟩, [⟨false, Pc.done⟩, ⟨true, Pc.inside⟩]) := by
  refine ⟨rfl, rfl, rfl, rfl, rfl, rfl, by decide, rfl, ?_, rfl, rfl⟩
  intro w s hs
  obtain ⟨t, r, mid, ht, hr, hm, hd, hg, _⟩ := step_run_inv 1 _ s 0 w hs
  have ht0 : (outcome 1 scenarioB (sched_handoff.take 2)).threads[0]?
      = some ⟨false, Pc.inside⟩ := rfl
  rw [ht0, Option.some.injEq] at ht
  subst ht
  have hr2 : client 1 0 false Pc.inside (outcome 1 scenarioB (sched_handoff.take 2)).gate
      = some (disco_exit 0 false ⟨1, 1, 0⟩) := rfl
  rw [hr2, Option.some.injEq] at hr
  subst hr
  have hmid : mid = [⟨false, Pc.done⟩, ⟨true, Pc.blocked⟩] := hm.2.1
  subst hmid
  have hsig : (disco_exit 0 false ⟨1, 1, 0⟩).signals = [Cond.vip_cond] := rfl
  rw [hsig, deliver_single] at hd
  rcases signal_vip_cases _ _ _ hd with ⟨_, hz⟩ | hw
  · exact absurd hz (by decide)
  · have hw1 := hw.1
    have hw2 := hw.2.1
    match w, hw1, hw2 with
    | 0, hw1, _ => simp at hw1
    | 1, _, hw2 =>
      simp only [view, hg, hw2]
      rfl
    | n + 2, hw1, _ => simp at hw1

theorem scenarioB_handoff_witness :
    step 1 (outcome 1 scenarioB (sched_handoff.take 2)) (Act.run 0 1)
      = some (outcome 1 scenarioB (sched_handoff.take 3)) ∧
    view (outcome 1 scenarioB (sched_handoff.take 3))
      = (⟨0, 1, 0⟩, [⟨false, Pc.done⟩, ⟨true, Pc.woken⟩]) :=
  ⟨rfl, scenarioB_handoff.2.2.2.2.2.2.2.2.1 1 _ rfl⟩

theorem fullWhileWaiting_step {CAPACITY : Int} {manifest : List Bool} {s s1 : Sys} {a : Act}
    (hI : Inv CAPACITY manifest s) (hF : FullWhileWaiting CAPACITY s)
    (h : step CAPACITY s a = some s1) : FullWhileWaiting CAPACITY s1 := by
  obtain ⟨hc, hin, hwv, hwn, hle, hvl, hnl⟩ := hI
  unfold FullWhileWaiting at hF ⊢
  cases a with
  | spurious i =>
    obtain ⟨v, _, hm, hg, _⟩ := step_spurious_inv CAPACITY s s1 i h
    replace hm := hm.moved
    have hcl := hm.2.2.1
    obtain ⟨e1, e2, e3, e4, e5, e6, e7, e8, e9, e10⟩ := moved_all hm
    have hp := moved_pos hm
    cases v <;> simp at e1 e2 e3 e4 e5 e6 e7 e8 e9 e10 <;>
      rw [hg] <;> omega
  | run i w =>
    obtain ⟨t, r, mid, ht, hr, hm, hd, hg, _⟩ := step_run_inv CAPACITY s s1 i w h
    replace hm := hm.moved
    have hcl := hm.2.2.1
    obtain ⟨e1, e2, e3, e4, e5, e6, e7, e8, e9, e10⟩ := moved_all hm
    have hp : 0 < cnt s.threads t.isvip t.pc := hm.1
    rcases t with ⟨v, p⟩
    cases p
    · -- first critical section of the enter function
      cases v
      · simp only [client, enter_normal_client, normal_loop, Option.some.injEq,
          Bool.false_eq_true, if_false] at hr
        split_ifs at hr with hcond <;> subst hr <;>
          simp only [deliver_nil, Option.some.injEq] at hd hg <;> subst hd <;>
          simp at e1 e2 e3 e4 e5 e6 e7 e8 e9 e10 hp <;>
          rw [hg] <;> (try simp only) <;> omega
      · simp only [client, enter_vip_client, vip_loop, Option.some.injEq, if_true] at hr
        split_ifs at hr with hcond <;> subst hr <;>
          simp only [deliver_nil, Option.some.injEq] at hd hg <;> subst hd <;>
          simp at e1 e2 e3 e4 e5 e6 e7 e8 e9 e10 hp <;>
          rw [hg] <;> (try simp only) <;> omega
    · -- a blocked thread has nothing to run
      simp only [client] at hr
      exact Option.noConfusion hr
    · -- re-test after a wake-up
      cases v
      · simp only [client, normal_loop, Option.some.injEq, Bool.false_eq_true, if_false] at hr
        split_ifs at hr with hcond <;> subst hr <;>
          simp only [deliver_nil, Option.some.injEq] at hd hg <;> subst hd <;>
          simp at e1 e2 e3 e4 e5 e6 e7 e8 e9 e10 hp <;>
          rw [hg] <;> (try simp only) <;> omega
      · simp only [client, vip_loop, Option.some.injEq, if_true] at hr
        split_ifs at hr with hcond <;> subst hr <;>
          simp only [deliver_nil, Option.some.injEq] at hd hg <;> subst hd <;>
          simp at e1 e2 e3 e4 e5 e6 e7 e8 e9 e10 hp <;>
          rw [hg] <;> (try simp only) <;> omega
    · -- disco_exit
      simp only [client, disco_exit, Option.some.injEq] at hr
      subst hr
      simp only at hd hg
      split_ifs at hd with h1 h2
      · rw [deliver_single] at hd
        rcases signal_vip_cases _ _ _ hd with ⟨hsame, hz⟩ | hm2
        · subst hsame
          cases v <;> simp at e1 e2 e3 e4 e5 e6 e7 e8 e9 e10 hp <;>
            rw [hg] <;> (try simp only) <;> omega
        · replace hm2 := hm2.moved
          have hcl2 := hm2.2.2.1.trans hcl
          obtain ⟨f1, f2, f3, f4, f5, f6, f7, f8, f9, f10⟩ := moved_all hm2
          have hp2 := moved_pos hm2
          cases v <;> simp at e1 e2 e3 e4 e5 e6 e7 e8 e9 e10 hp f1 f2 f3 f4 f5 f6 f7 f8 f9 f10 <;>
            rw [hg] <;> (try simp only) <;> omega
      · rw [deliver_single] at hd
        rcases signal_normal_cases _ _ _ hd with ⟨hsame, hz⟩ | hm2
        · subst hsame
          cases v <;> simp at e1 e2 e3 e4 e5 e6 e7 e8 e9 e10 hp <;>
            rw [hg] <;> (try simp only) <;> omega
        · replace hm2 := hm2.moved
          have hcl2 := hm2.2.2.1.trans hcl
          obtain ⟨f1, f2, f3, f4, f5, f6, f7, f8, f9, f10⟩ := moved_all hm2
          have hp2 := moved_pos hm2
          cases v <;> simp at e1 e2 e3 e4 e5 e6 e7 e8 e9 e10 hp f1 f2 f3 f4 f5 f6 f7 f8 f9 f10 <;>
            rw [hg] <;> (try simp only) <;> omega
      · simp only [deliver_nil, Option.some.injEq] at hd
        subst hd
        cases v <;> simp at e1 e2 e3 e4 e5 e6 e7 e8 e9 e10 hp <;>
          rw [hg] <;> (try simp only) <;> omega
    · -- a finished thread has nothing to run
      simp only [client] at hr
      exact Option.noConfusion hr

theorem fullWhileWaiting_init (CAPACITY : Int) (manifest : List Bool) :
    FullWhileWaiting CAPACITY (init manifest) := by
  intro _ hw
  rw [cnt_init manifest _ Pc.blocked (by decide), cnt_init manifest _ Pc.woken (by decide),
    cnt_init manifest _ Pc.blocked (by decide), cnt_init manifest _ Pc.woken (by decide)] at hw
  exact absurd hw (by decide)

theorem exec_fullWhileWaiting {CAPACITY : Int} {manifest : List Bool} (sched : List Act) :
    ∀ s s1 : Sys, Inv CAPACITY manifest s → FullWhileWaiting CAPACITY s →
      exec CAPACITY s sched = some s1 → FullWhileWaiting CAPACITY s1 := by
  induction sched with
  | nil =>
    intro s s1 _ hF h
    simp only [exec, Option.some.injEq] at h
    exact h ▸ hF
  | cons a as ih =>
    intro s s1 hI hF h
    simp only [exec] at h
    split at h
    · rename_i s2 hs2
      exact ih s2 s1 (inv_step hI hs2) (fullWhileWaiting_step hI hF hs2) h
    · exact Option.noConfusion h

theorem reachable_fullWhileWaiting {CAPACITY : Int} {manifest : List Bool} {s : Sys}
    (h : Reachable CAPACITY manifest s) : FullWhileWaiting CAPACITY s := by
  obtain ⟨sched, hs⟩ := h
  exact exec_fullWhileWaiting sched _ _ (inv_init CAPACITY manifest)
    (fullWhileWaiting_init CAPACITY manifest) hs

theorem length_eq_sum_cnt (ts : List Thread) :
    ts.length = cnt ts true Pc.start + cnt ts true Pc.blocked + cnt ts true Pc.woken
      + cnt ts true Pc.inside + cnt ts true Pc.done + cnt ts false Pc.start
      + cnt ts false Pc.blocked + cnt ts false Pc.woken + cnt ts false Pc.inside
      + cnt ts false Pc.done := by
  unfold cnt
  induction ts with
  | nil => rfl
  | cons t ts ih =>
    rcases t with ⟨tv, tp⟩
    simp only [List.length_cons, List.count_cons, ih]
    cases tv <;> cases tp <;> simp <;> omega

theorem cnt_eq_zero_of_all (ts : List Thread) (q : Thread → Bool) (h : ts.all q = true)
    (v : Bool) (p : Pc) (hq : q ⟨v, p⟩ = false) : cnt ts v p = 0 := by
  unfold cnt
  rw [List.count_eq_zero]
  intro hm
  have := List.all_eq_true.mp h _ hm
  rw [hq] at this
  exact Bool.noConfusion this

theorem cnt_normal_zero_of_classes (ts : List Thread) (manifest : List Bool)
    (hc : ts.map Thread.isvip = manifest) (hall : manifest.all id = true) (p : Pc) :
    cnt ts false p = 0 := by
  unfold cnt
  rw [List.count_eq_zero]
  intro hm
  have h1 : false ∈ ts.map Thread.isvip := List.mem_map.mpr ⟨_, hm, rfl⟩
  rw [hc] at h1
  have := List.all_eq_true.mp hall _ h1
  exact Bool.noConfusion this

/-- C12: scenario C with capacity 3 and five VIP clients, from the empty gate.  In every
reachable state, whatever the interleaving and the spurious wake-ups, `inside_count ≤ 3`;
and once all five have called `enter_vip_client` and none has called `disco_exit`,
exactly three have been admitted and two are still waiting: `inside_count = 3` and
`waiting_vip = 2`. -/
theorem scenarioC_three_admitted (s : Sys) (h : Reachable 3 scenarioC s) :
    s.gate.inside_count ≤ 3 ∧
    (s.threads.all (fun t => t.pc != Pc.start && t.pc != Pc.done) = true →
      s.gate.inside_count = 3 ∧ s.gate.waiting_vip = 2 ∧
      present s.threads = 3 ∧ registered_waiting true s.threads = 2) := by
  have hI := reachable_inv h
  have hF := reachable_fullWhileWaiting h
  have hle := hI.le_cap (by decide)
  refine ⟨hle, ?_⟩
  intro hall
  have hlen : s.threads.length = 5 := by
    have := congrArg List.length hI.classes
    simpa [scenarioC] using this
  have hsum := length_eq_sum_cnt s.threads
  have n1 := cnt_normal_zero_of_classes s.threads scenarioC hI.classes rfl Pc.start
  have n2 := cnt_normal_zero_of_classes s.threads scenarioC hI.classes rfl Pc.blocked
  have n3 := cnt_normal_zero_of_classes s.threads scenarioC hI.classes rfl Pc.woken
  have n4 := cnt_normal_zero_of_classes s.threads scenarioC hI.classes rfl Pc.inside
  have n5 := cnt_normal_zero_of_classes s.threads scenarioC hI.classes rfl Pc.done
  have z1 := cnt_eq_zero_of_all s.threads _ hall true Pc.start rfl
  have z2 := cnt_eq_zero_of_all s.threads _ hall true Pc.done rfl
  have e1 := hI.inside_eq
  have e2 := hI.wvip_eq
  have hF2 := hF (by omega)
  rw [present_eq, registered_waiting_eq]
  by_cases hw : 0 < cnt s.threads true Pc.blocked + cnt s.threads true Pc.woken
      + cnt s.threads false Pc.blocked + cnt s.threads false Pc.woken
  · have := hF2 hw
    refine ⟨?_, ?_, ?_, ?_⟩ <;> omega
  · omega

theorem scenarioC_three_admitted_witness :
    view (outcome 3 scenarioC sched_five_vips)
      = (⟨3, 2, 0⟩, [⟨true, Pc.inside⟩, ⟨true, Pc.inside⟩, ⟨true, Pc.inside⟩,
          ⟨true, Pc.blocked⟩, ⟨true, Pc.blocked⟩]) ∧
    (outcome 3 scenarioC sched_five_vips).gate.inside_count = 3 ∧
    (outcome 3 scenarioC sched_five_vips).gate.waiting_vip = 2 ∧
    present (outcome 3 scenarioC sched_five_vips).threads = 3 ∧
    registered_waiting true (outcome 3 scenarioC sched_five_vips).threads = 2 :=
  ⟨rfl, (scenarioC_three_admitted _ ⟨sched_five_vips, rfl⟩).2 rfl⟩

theorem client_events_append (i : Nat) (l1 l2 : List Event) :
    client_events i (l1 ++ l2) = client_events i l1 ++ client_events i l2 := by
  simp [client_events, List.filter_append]

theorem client_events_same (i : Nat) (l : List Event) (h : ∀ e ∈ l, e.id = i) :
    client_events i l = l.map Event.kind := by
  unfold client_events
  rw [List.filter_eq_self.mpr]
  intro e he
  simp [h e he]

theorem client_events_other (i k : Nat) (l : List Event) (h : ∀ e ∈ l, e.id = k)
    (hik : k ≠ i) : client_events i l = [] := by
  unfold client_events
  rw [List.filter_eq_nil_iff.mpr]
  · rfl
  · intro e he
    simp [h e he, hik]

/-- The lines a critical section prints carry the client's id and extend its own
sequence of events to the one expected at its new control point. -/
theorem client_events_spec {CAPACITY : Int} {id : Nat} {v : Bool} {p : Pc} {g : Gate}
    {r : Outcome} (h : client CAPACITY id v p g = some r) :
    (∀ e ∈ r.events, e.id = id) ∧
      expected_events r.pc = expected_events p ++ r.events.map Event.kind := by
  cases p <;> cases v <;>
    simp only [client, enter_vip_client, enter_normal_client, vip_loop, normal_loop,
      disco_exit, Option.some.injEq, Bool.false_eq_true, if_false, if_true] at h <;>
    first
      | exact Option.noConfusion h
      | (split_ifs at h <;> subst h <;> simp [expected_events])

theorem deliver_events_of (w k : Nat) (cs : List Cond) (ts ts1 : List Thread)
    (h : deliver w cs ts = some ts1) : events_of ts1[k]? = events_of ts[k]? := by
  rcases deliver_thread w k cs ts ts1 h with e | ⟨v, e1, e2⟩
  · rw [e]
  · rw [e1, e2]
    rfl

theorem lifecycle_init (manifest : List Bool) : LifecycleInv (init manifest) := by
  intro i
  simp only [init, client_events, List.filter_nil, List.map_nil, List.getElem?_map]
  cases manifest[i]? <;> rfl

theorem lifecycle_step {CAPACITY : Int} {s s1 : Sys} {a : Act}
    (hL : LifecycleInv s) (h : step CAPACITY s a = some s1) : LifecycleInv s1 := by
  intro k
  cases a with
  | spurious i =>
    obtain ⟨v, ht, hm, _, hl⟩ := step_spurious_inv CAPACITY s s1 i h
    rw [hl, hL k]
    by_cases hk : i = k
    · subst hk
      rw [hm.get_same, ht]
      rfl
    · rw [hm.get_other hk]
  | run i w =>
    obtain ⟨t, r, mid, ht, hr, hm, hd, _, hl⟩ := step_run_inv CAPACITY s s1 i w h
    obtain ⟨hid, hexp⟩ := client_events_spec hr
    rw [hl, client_events_append, hL k, deliver_events_of w k _ _ _ hd]
    by_cases hk : i = k
    · subst hk
      rw [hm.get_same, ht, client_events_same i _ hid]
      exact hexp.symm
    · rw [hm.get_other hk, client_events_other k i _ hid hk, List.append_nil]

theorem exec_lifecycle {CAPACITY : Int} (sched : List Act) :
    ∀ s s1 : Sys, LifecycleInv s → exec CAPACITY s sched = some s1 → LifecycleInv s1 := by
  induction sched with
  | nil =>
    intro s s1 hL h
    simp only [exec, Option.some.injEq] at h
    exact h ▸ hL
  | cons a as ih =>
    intro s s1 hL h
    simp only [exec] at h
    split at h
    · rename_i s2 hs2
      exact ih s2 s1 (lifecycle_step hL hs2) h
    · exact Option.noConfusion h

theorem reachable_lifecycle {CAPACITY : Int} {manifest : List Bool} {s : Sys}
    (h : Reachable CAPACITY manifest s) : LifecycleInv s := by
  obtain ⟨sched, hs⟩ := h
  exact exec_lifecycle sched _ _ (lifecycle_init manifest) hs

/-- C13: for every client and every execution, the client's lines in the log are an
initial part of 'wants to enter', 'entering', 'leaving' (in this order, each at most
once, none skipped), and they match where the client stands: nothing before it
arrives, 'wants' while it waits, 'wants, entering' once its enter function has
returned and until it calls `disco_exit`, and all three once `client()` is done.  So
`disco_exit` runs only after the client's own admission, and the client does not finish
between admission and `disco_exit`. -/
theorem client_lifecycle_order (CAPACITY : Int) (manifest : List Bool) (s : Sys)
    (h : Reachable CAPACITY manifest s) (i : Nat) :
    (∃ rest, client_events i s.log ++ rest
        = [EventKind.wants, EventKind.entering, EventKind.leaving]) ∧
    client_events i s.log = events_of s.threads[i]? ∧
    (∀ v, s.threads[i]? = some ⟨v, Pc.done⟩ →
      client_events i s.log = [EventKind.wants, EventKind.entering, EventKind.leaving]) ∧
    (EventKind.leaving ∈ client_events i s.log → ∃ v, s.threads[i]? = some ⟨v, Pc.done⟩) ∧
    (EventKind.entering ∈ client_events i s.log →
      ∃ v p, s.threads[i]? = some ⟨v, p⟩ ∧ (p = Pc.inside ∨ p = Pc.done)) := by
  have hL := reachable_lifecycle h i
  rw [hL]
  refine ⟨?_, rfl, ?_, ?_, ?_⟩
  · cases ht : s.threads[i]? with
    | none => exact ⟨_, rfl⟩
    | some t =>
      rcases t with ⟨v, p⟩
      cases p
      · exact ⟨_, rfl⟩
      · exact ⟨[EventKind.entering, EventKind.leaving], rfl⟩
      · exact ⟨[EventKind.entering, EventKind.leaving], rfl⟩
      · exact ⟨[EventKind.leaving], rfl⟩
      · exact ⟨[], rfl⟩
  · intro v hv
    rw [hv]
    rfl
  · intro hm
    cases ht : s.threads[i]? with
    | none => rw [ht] at hm; simp [events_of] at hm
    | some t =>
      rcases t with ⟨v, p⟩
      rw [ht] at hm
      cases p <;> simp [events_of, expected_events] at hm
      exact ⟨v, rfl⟩
  · intro hm
    cases ht : s.threads[i]? with
    | none => rw [ht] at hm; simp [events_of] at hm
    | some t =>
      rcases t with ⟨v, p⟩
      rw [ht] at hm
      cases p <;> simp [events_of, expected_events] at hm
      · exact ⟨v, Pc.inside, rfl, Or.inl rfl⟩
      · exact ⟨v, Pc.done, rfl, Or.inr rfl⟩

theorem client_lifecycle_order_witness :
    client_events 0 (outcome 2 scenarioA sched_complete).log
      = [EventKind.wants, EventKind.entering, EventKind.leaving] ∧
    client_events 0 (outcome 2 scenarioA sched_normals_first).log = [EventKind.wants] ∧
    client_events 0 (outcome 2 scenarioA sched_normals_first).log
      = events_of (outcome 2 scenarioA sched_normals_first).threads[0]? :=
  ⟨rfl, rfl, (client_lifecycle_order 2 scenarioA _ reach_normals_first 0).2.1⟩

/-- C14: an admission changes exactly two counters.  A VIP admitted on a re-check takes
(inside, wvip, wnorm) to (inside+1, wvip-1, wnorm); a normal client admitted on a re-check
takes it to (inside+1, wvip, wnorm-1).  A call of `enter_vip_client` or
`enter_normal_client` admitted on its first check takes (inside, wvip, wnorm) to
(inside+1, wvip, wnorm), registration and admission being one critical section that
prints 'wants to enter' and then 'entering'. -/
theorem admission_frame (CAPACITY : Int) (id : Nat) (g : Gate) :
    ((vip_loop CAPACITY id g).pc = Pc.inside →
      (vip_loop CAPACITY id g).gate
        = ⟨g.inside_count + 1, g.waiting_vip - 1, g.waiting_normal⟩) ∧
    ((normal_loop CAPACITY id g).pc = Pc.inside →
      (normal_loop CAPACITY id g).gate
        = ⟨g.inside_count + 1, g.waiting_vip, g.waiting_normal - 1⟩) ∧
    ((enter_vip_client CAPACITY id g).pc = Pc.inside →
      (enter_vip_client CAPACITY id g).gate
        = ⟨g.inside_count + 1, g.waiting_vip, g.waiting_normal⟩ ∧
      (enter_vip_client CAPACITY id g).events.map Event.kind
        = [EventKind.wants, EventKind.entering]) ∧
    ((enter_normal_client CAPACITY id g).pc = Pc.inside →
      (enter_normal_client CAPACITY id g).gate
        = ⟨g.inside_count + 1, g.waiting_vip, g.waiting_normal⟩ ∧
      (enter_normal_client CAPACITY id g).events.map Event.kind
        = [EventKind.wants, EventKind.entering]) := by
  simp only [enter_vip_client, enter_normal_client, vip_loop, normal_loop]
  refine ⟨?_, ?_, ?_, ?_⟩
  · split_ifs <;> simp
  · split_ifs <;> simp
  · split_ifs <;> simp
  · split_ifs <;> simp

theorem admission_frame_witness :
    (enter_vip_client 5 3 ⟨4, 0, 2⟩).pc = Pc.inside ∧
    (enter_vip_client 5 3 ⟨4, 0, 2⟩).gate = ⟨5, 0, 2⟩ ∧
    (vip_loop 5 3 ⟨4, 1, 2⟩).gate = ⟨5, 0, 2⟩ ∧
    (normal_loop 5 3 ⟨4, 0, 2⟩).gate = ⟨5, 0, 1⟩ :=
  ⟨rfl, ((admission_frame 5 3 ⟨4, 0, 2⟩).2.2.1 rfl).1,
    (admission_frame 5 3 ⟨4, 1, 2⟩).1 rfl, (admission_frame 5 3 ⟨4, 0, 2⟩).2.1 rfl⟩

/-- C15: for every state and both values of the class argument, `disco_exit` takes
(inside, wvip, wnorm) to (inside-1, wvip, wnorm); the counters and the signalling
decision are the same for `isvip = 0` and `isvip = 1`; and the call never waits on a
condition variable: it always runs to its end. -/
theorem disco_exit_frame (id : Nat) (isvip : Bool) (g : Gate) :
    (disco_exit id isvip g).gate = ⟨g.inside_count - 1, g.waiting_vip, g.waiting_normal⟩ ∧
    (disco_exit id true g).gate = (disco_exit id false g).gate ∧
    (disco_exit id true g).signals = (disco_exit id false g).signals ∧
    (disco_exit id isvip g).pc = Pc.done ∧
    (disco_exit id isvip g).pc ≠ Pc.blocked ∧
    (∀ CAPACITY : Int, client CAPACITY id isvip Pc.inside g = some (disco_exit id isvip g)) :=
  ⟨rfl, rfl, rfl, rfl, by simp [disco_exit], fun _ => rfl⟩

/-- C16 does not hold of the code: with the capacity 5 of the source and seven VIP
clients (and equally with seven normal clients), client 5 registers before client 6,
yet client 6 is admitted before client 5: it takes the slot freed by client 0 while
client 5, already signalled, has not yet re-acquired the mutex. -/
theorem later_arrival_admitted_first :
    exec 5 (init (seven true)) sched_overtake
      = some (outcome 5 (seven true) sched_overtake) ∧
    (registrations (outcome 5 (seven true) sched_overtake).log).map Event.id
      = [0, 1, 2, 3, 4, 5, 6] ∧
    (admissions (outcome 5 (seven true) sched_overtake).log).map Event.id
      = [0, 1, 2, 3, 4, 6, 5] ∧
    exec 5 (init (seven false)) sched_overtake
      = some (outcome 5 (seven false) sched_overtake) ∧
    (registrations (outcome 5 (seven false) sched_overtake).log).map Event.id
      = [0, 1, 2, 3, 4, 5, 6] ∧
    (admissions (outcome 5 (seven false) sched_overtake).log).map Event.id
      = [0, 1, 2, 3, 4, 6, 5] :=
  ⟨rfl, rfl, rfl, rfl, rfl, rfl⟩

theorem spawn_loop_all (env : Env) (hm : ∀ i, env.malloc_arg_ok i = true)
    (hp : ∀ i, env.pthread_create_ok i = true) (flags : List Int) :
    ∀ (i : Nat) (rest : List Token) (spawned : List client_arg_t) (reports : List Report),
      spawn_loop env flags.length i (flags.map Token.int ++ rest) spawned reports
        = { status := ExitCode.EXIT_SUCCESS, spawned := spawned ++ clients_from i flags,
            reports := reports, joined := true } := by
  induction flags with
  | nil =>
    intro i rest spawned reports
    simp [spawn_loop, clients_from]
  | cons f fs ih =>
    intro i rest spawned reports
    simp only [List.length_cons, List.map_cons, List.cons_append, spawn_loop, fscanf_int,
      hm i, hp i, if_true]
    rw [ih]
    simp [clients_from, client_of_flag]

theorem spawn_loop_short (env : Env) (hm : ∀ i, env.malloc_arg_ok i = true)
    (hp : ∀ i, env.pthread_create_ok i = true) (flags : List Int) :
    ∀ (n i : Nat) (rest : List Token) (spawned : List client_arg_t) (reports : List Report),
      flags.length < n → fscanf_int rest = none →
      spawn_loop env n i (flags.map Token.int ++ rest) spawned reports
        = { status := ExitCode.EXIT_FAILURE, spawned := spawned ++ clients_from i flags,
            reports := reports ++ [Report.missing_entry (i + flags.length)],
            joined := false } := by
  induction flags with
  | nil =>
    intro n i rest spawned reports hn hr
    cases n with
    | zero => simp at hn
    | succ n => simp [spawn_loop, hr, clients_from]
  | cons f fs ih =>
    intro n i rest spawned reports hn hr
    cases n with
    | zero => simp at hn
    | succ n =>
      simp only [List.length_cons, Nat.add_lt_add_iff_right] at hn
      simp only [List.map_cons, List.cons_append, spawn_loop, fscanf_int, hm i, hp i, if_true]
      rw [ih n (i + 1) rest _ _ hn hr]
      simp [clients_from, client_of_flag, Nat.add_assoc, Nat.add_comm 1]

theorem clients_from_length (flags : List Int) : ∀ i, (clients_from i flags).length = flags.length := by
  induction flags with
  | nil => intro i; rfl
  | cons f fs ih => intro i; simp [clients_from, ih]

theorem clients_from_get (flags : List Int) :
    ∀ (i k : Nat) (f : Int), flags[k]? = some f →
      (clients_from i flags)[k]? = some (client_of_flag (i + k) f) := by
  induction flags with
  | nil => intro i k f h; simp at h
  | cons g gs ih =>
    intro i k f h
    cases k with
    | zero =>
      simp at h
      subst h
      simp [clients_from]
    | succ k =>
      simp at h
      simp only [clients_from, List.getElem?_cons_succ]
      rw [ih (i + 1) k f h]
      simp [Nat.add_assoc, Nat.add_comm 1]

theorem clients_from_ids (flags : List Int) :
    ∀ i, (clients_from i flags).map client_arg_t.id = List.range' i flags.length := by
  induction flags with
  | nil => intro i; rfl
  | cons f fs ih =>
    intro i
    simp [clients_from, client_of_flag, ih, List.range'_succ]

theorem scanf_d_of_int (n : Int) (h0 : -2147483648 ≤ n) (h1 : n < 2147483648) :
    scanf_d n = n := by
  unfold scanf_d strtol int32
  split_ifs <;> omega

theorem main_well_formed (env : Env) (ht : env.malloc_threads_ok = true)
    (hm : ∀ i, env.malloc_arg_ok i = true) (hp : ∀ i, env.pthread_create_ok i = true)
    (M : Int) (flags : List Int) (rest : List Token) (hlen : (flags.length : Int) = M)
    (hM : M < 2147483648) :
    main env 2 (some (manifest_file M flags rest))
      = { status := ExitCode.EXIT_SUCCESS, spawned := clients_from 0 flags, reports := [],
          joined := true } := by
  have hM1 : scanf_d M = M := scanf_d_of_int M (by omega) hM
  have hM2 : M.toNat = flags.length := by omega
  simp only [main, manifest_file, fscanf_int, ht, if_true, hM1, hM2, ne_eq,
    not_true_eq_false, if_false]
  rw [spawn_loop_all env hm hp]
  simp

/-- C17, as stated, fails: for the manifest `1 4294967296` (count 1 and one flag, an
integer that is not zero) `main` creates client 0 as a normal client, because the
flag does not fit the `int` it is read into and is stored as 0. -/
theorem main_flag_outside_int :
    main env_ok 2 (some (manifest_file 1 [4294967296] []))
      = { status := ExitCode.EXIT_SUCCESS, spawned := [⟨0, 0⟩], reports := [],
          joined := true } ∧
    (4294967296 : Int) ≠ 0 := by
  decide

/-- C17, amended: for every well-formed manifest whose integers fit an `int` (an
integer `M` followed by at least `M` integer flags, the first `M` of them being
`flags`, so that `M ≥ 0`), when the allocations and `pthread_create` succeed, `main`
creates exactly `M` clients in file order and joins them; the `i`-th (from 0) has id
`i`, so all ids are distinct, and its class is VIP (`isvip = 1`) exactly when the
`i`-th flag is non-zero and normal (`isvip = 0`) exactly when it is 0. -/
theorem main_creates_clients (env : Env) (ht : env.malloc_threads_ok = true)
    (hm : ∀ i, env.malloc_arg_ok i = true) (hp : ∀ i, env.pthread_create_ok i = true)
    (M : Int) (flags : List Int) (rest : List Token)
    (hlen : (flags.length : Int) = M) (hM : M < 2147483648)
    (hflags : ∀ f ∈ flags, -2147483648 ≤ f ∧ f < 2147483648) :
    0 ≤ M ∧
    (main env 2 (some (manifest_file M flags rest))).status = ExitCode.EXIT_SUCCESS ∧
    (main env 2 (some (manifest_file M flags rest))).joined = true ∧
    ((main env 2 (some (manifest_file M flags rest))).spawned.length : Int) = M ∧
    (main env 2 (some (manifest_file M flags rest))).spawned.map client_arg_t.id
      = List.range flags.length ∧
    ((main env 2 (some (manifest_file M flags rest))).spawned.map client_arg_t.id).Nodup ∧
    (∀ k f, flags[k]? = some f →
      ∃ c : client_arg_t,
        (main env 2 (some (manifest_file M flags rest))).spawned[k]? = some c ∧
        c.id = k ∧ (c.isvip = 1 ↔ f ≠ 0) ∧ (c.isvip = 0 ↔ f = 0)) := by
  rw [main_well_formed env ht hm hp M flags rest hlen hM]
  have hids := clients_from_ids flags 0
  refine ⟨by omega, rfl, rfl, ?_, ?_, ?_, ?_⟩
  · simp only [clients_from_length]
    exact hlen
  · simp only [hids, List.range_eq_range']
  · simp only [hids]
    exact List.nodup_range' 0 flags.length
  · intro k f hk
    have hf := hflags f (List.mem_iff_getElem?.2 ⟨k, hk⟩)
    have hsf : scanf_d f = f := scanf_d_of_int f hf.1 hf.2
    refine ⟨client_of_flag k f, ?_, rfl, ?_, ?_⟩
    · have := clients_from_get flags 0 k f hk
      simpa using this
    · simp only [client_of_flag, hsf]
      split_ifs with h <;> simp [h]
    · simp only [client_of_flag, hsf]
      split_ifs with h
      · simp [h]
      · simp [not_not.mp h]

theorem main_creates_clients_witness :
    (main env_ok 2 (some (manifest_file 3 [1, 0, 7] [Token.int 1]))).spawned
      = [⟨0, 1⟩, ⟨1, 0⟩, ⟨2, 1⟩] ∧
    (main env_ok 2 (some (manifest_file 3 [1, 0, 7] [Token.int 1]))).status
      = ExitCode.EXIT_SUCCESS :=
  ⟨by decide, (main_creates_clients env_ok rfl (fun _ => rfl) (fun _ => rfl) 3
    [1, 0, 7] [Token.int 1] rfl (by decide) (by decide)).2.1⟩

theorem spawn_loop_short_fails (env : Env) (flags : List Int) :
    ∀ (n i : Nat) (rest : List Token) (spawned : List client_arg_t) (reports : List Report),
      flags.length < n → fscanf_int rest = none →
      (spawn_loop env n i (flags.map Token.int ++ rest) spawned reports).status
          = ExitCode.EXIT_FAILURE ∧
      (spawn_loop env n i (flags.map Token.int ++ rest) spawned reports).joined = false ∧
      (spawn_loop env n i (flags.map Token.int ++ rest) spawned reports).reports ≠ [] := by
  induction flags with
  | nil =>
    intro n i rest spawned reports hn hr
    cases n with
    | zero => simp at hn
    | succ n => simp [spawn_loop, hr]
  | cons f fs ih =>
    intro n i rest spawned reports hn hr
    cases n with
    | zero => simp at hn
    | succ n =>
      simp only [List.length_cons, Nat.add_lt_add_iff_right] at hn
      simp only [List.map_cons, List.cons_append, spawn_loop, fscanf_int]
      by_cases hm : env.malloc_arg_ok i = true
      · by_cases hp : env.pthread_create_ok i = true
        · simp only [hm, hp, if_true]
          exact ih n (i + 1) rest _ _ hn hr
        · simp only [hm, hp, if_true, if_false]
          exact ih n (i + 1) rest _ _ hn hr
      · simp [hm]

/-- C18, as stated, fails: for the manifest `3 1 0` (count 3, only two flags), `main`
has already created clients 0 and 1 when it finds entry 2 missing; it then reports
the failure and returns `EXIT_FAILURE` without joining them.  And for the manifest
`4294967297 1`, whose count does not fit an `int`, `main` reads the count as 1,
creates and joins one client and returns `EXIT_SUCCESS`. -/
theorem main_spawns_before_missing_entry :
    main env_ok 2 (some (manifest_file 3 [1, 0] []))
      = { status := ExitCode.EXIT_FAILURE, spawned := [⟨0, 1⟩, ⟨1, 0⟩],
          reports := [Report.missing_entry 2], joined := false } ∧
    main env_ok 2 (some (manifest_file 4294967297 [1] []))
      = { status := ExitCode.EXIT_SUCCESS, spawned := [⟨0, 1⟩], reports := [],
          joined := true } := by
  decide

/-- C18, amended: for every malformed manifest whose count, if there is one, fits an
`int`, `main` reports the failure and returns `EXIT_FAILURE` without reaching the join
loop.  When the count is missing or not an integer, no client has been created.  When
only `k < N` flags follow the count `N`, the failure is detected at entry `k`, after
the clients for the flags present have been created (all `k` of them, ids
`0 .. k-1`, when the allocations and `pthread_create` succeed). -/
theorem main_malformed (env : Env) :
    (∀ file, fscanf_int file = none →
      main env 2 (some file)
        = { status := ExitCode.EXIT_FAILURE, spawned := [], reports := [Report.bad_format],
            joined := false }) ∧
    (∀ (N : Int) (flags : List Int) (rest : List Token),
      (flags.length : Int) < N → N < 2147483648 → fscanf_int rest = none →
      (main env 2 (some (manifest_file N flags rest))).status = ExitCode.EXIT_FAILURE ∧
      (main env 2 (some (manifest_file N flags rest))).joined = false ∧
      (main env 2 (some (manifest_file N flags rest))).reports ≠ [] ∧
      (env.malloc_threads_ok = true → (∀ i, env.malloc_arg_ok i = true) →
        (∀ i, env.pthread_create_ok i = true) →
        (main env 2 (some (manifest_file N flags rest))).spawned = clients_from 0 flags ∧
        (main env 2 (some (manifest_file N flags rest))).reports
          = [Report.missing_entry flags.length])) := by
  constructor
  · intro file hf
    simp only [main, hf, ne_eq, not_true_eq_false, if_false]
  · intro N flags rest hlen hint hr
    have hN : flags.length < N.toNat := by omega
    have hN1 : scanf_d N = N := scanf_d_of_int N (by omega) hint
    simp only [main, manifest_file, fscanf_int, hN1, ne_eq, not_true_eq_false, if_false]
    cases ht : env.malloc_threads_ok with
    | false => simp
    | true =>
      simp only [if_true]
      obtain ⟨h1, h2, h3⟩ := spawn_loop_short_fails env flags N.toNat 0 rest [] [] hN hr
      refine ⟨h1, h2, h3, ?_⟩
      intro _ hm hp
      rw [spawn_loop_short env hm hp flags N.toNat 0 rest [] [] hN hr]
      simp

theorem main_malformed_witness :
    (main env_ok 2 (some (manifest_file 3 [1, 0] []))).status = ExitCode.EXIT_FAILURE ∧
    (main env_ok 2 (some (manifest_file 3 [1, 0] []))).spawned = clients_from 0 [1, 0] ∧
    main env_ok 2 (some [Token.junk])
      = { status := ExitCode.EXIT_FAILURE, spawned := [], reports := [Report.bad_format],
          joined := false } :=
  ⟨((main_malformed env_ok).2 3 [1, 0] [] (by decide) (by decide) rfl).1,
    (((main_malformed env_ok).2 3 [1, 0] [] (by decide) (by decide) rfl).2.2.2 rfl
      (fun _ => rfl) (fun _ => rfl)).1,
    (main_malformed env_ok).1 [Token.junk] rfl⟩

theorem countP_movedAt (q : Thread → Bool) {i : Nat} {ts ts1 : List Thread} {a b : Thread}
    (h : MovedAt i ts ts1 a b) :
    ts1.countP q + (if q a = true then 1 else 0) = ts.countP q + (if q b = true then 1 else 0) := by
  obtain ⟨h1, h2, _⟩ := h
  subst h2
  induction ts generalizing i with
  | nil => simp at h1
  | cons y ys ih =>
    cases i with
    | zero =>
      simp at h1
      subst h1
      simp only [List.set_cons_zero, List.countP_cons]
      omega
    | succ j =>
      simp at h1
      have := ih h1
      simp only [List.set_cons_succ, List.countP_cons]
      omega

theorem signal_pending (c : Cond) (w : Nat) (ts ts1 : List Thread)
    (h : pthread_cond_signal c w ts = some ts1) : pending ts1 = pending ts := by
  rcases signal_cases c w ts ts1 h with ⟨hsame, _⟩ | hm
  · rw [hsame]
  · have := countP_movedAt unfinished hm
    simpa [unfinished, pending] using this

theorem deliver_pending (w : Nat) (cs : List Cond) :
    ∀ ts ts1 : List Thread, deliver w cs ts = some ts1 → pending ts1 = pending ts := by
  induction cs with
  | nil =>
    intro ts ts1 h
    simp only [deliver, Option.some.injEq] at h
    rw [h]
  | cons c cs ih =>
    intro ts ts1 h
    simp only [deliver] at h
    split at h
    · rename_i ts2 h2
      rw [ih ts2 ts1 h, signal_pending c w ts ts2 h2]
    · exact Option.noConfusion h

/-- Where a critical section can lead, by the control point it starts from. -/
theorem client_pc_cases {CAPACITY : Int} {id : Nat} {v : Bool} {p : Pc} {g : Gate}
    {r : Outcome} (h : client CAPACITY id v p g = some r) :
    (p = Pc.start ∧ (r.pc = Pc.blocked ∨ r.pc = Pc.inside)) ∨
    (p = Pc.woken ∧ (r.pc = Pc.blocked ∨ r.pc = Pc.inside)) ∨
    (p = Pc.inside ∧ r.pc = Pc.done) := by
  cases p <;> cases v <;>
    simp only [client, enter_vip_client, enter_normal_client, vip_loop, normal_loop,
      disco_exit, Option.some.injEq, Bool.false_eq_true, if_false, if_true] at h <;>
    first
      | exact Option.noConfusion h
      | (split_ifs at h <;> subst h <;> simp)

/-- No step increases the number of unfinished clients, and a `disco_exit` lowers it. -/
theorem pending_step {CAPACITY : Int} {s s1 : Sys} {a : Act}
    (h : step CAPACITY s a = some s1) :
    pending s1.threads ≤ pending s.threads ∧
    (∀ i w v, a = Act.run i w → s.threads[i]? = some ⟨v, Pc.inside⟩ →
      pending s1.threads < pending s.threads) := by
  cases a with
  | spurious i =>
    obtain ⟨v, _, hm, _, _⟩ := step_spurious_inv CAPACITY s s1 i h
    have := countP_movedAt unfinished hm
    simp only [unfinished] at this
    refine ⟨?_, ?_⟩
    · simp only [pending, unfinished]
      simp at this
      omega
    · intro j w v' ha
      cases ha
  | run i w =>
    obtain ⟨t, r, mid, ht, hr, hm, hd, _, _⟩ := step_run_inv CAPACITY s s1 i w h
    have hmid := countP_movedAt unfinished hm
    have hdel := deliver_pending w r.signals mid s1.threads hd
    rw [hdel]
    simp only [pending]
    rcases t with ⟨v, p⟩
    rcases client_pc_cases hr with ⟨hp, hq⟩ | ⟨hp, hq⟩ | ⟨hp, hq⟩
    · subst hp
      refine ⟨?_, ?_⟩
      · rcases hq with hq | hq <;> rw [hq] at hmid <;> simp [unfinished] at hmid <;> omega
      · intro j w' v' ha hj
        cases ha
        rw [ht] at hj
        simp at hj
    · subst hp
      refine ⟨?_, ?_⟩
      · rcases hq with hq | hq <;> rw [hq] at hmid <;> simp [unfinished] at hmid <;> omega
      · intro j w' v' ha hj
        cases ha
        rw [ht] at hj
        simp at hj
    · subst hp
      rw [hq] at hmid
      simp [unfinished] at hmid
      refine ⟨by omega, ?_⟩
      intro j w' v' _ _
      omega

theorem execution_inv {CAPACITY : Int} {manifest : List Bool} {state : Nat → Sys}
    {act : Nat → Option Act} (hex : Execution CAPACITY manifest state act) :
    ∀ n, Inv CAPACITY manifest (state n) := by
  intro n
  induction n with
  | zero =>
    rw [hex.start]
    exact inv_init CAPACITY manifest
  | succ n ih =>
    have hn := hex.next n
    unfold Next at hn
    split at hn
    · exact inv_step ih hn
    · rw [hn]; exact ih

/-- What an instant does to thread `k`: nothing; or it is released from its wait; or
it is the thread that runs its next critical section. -/
theorem next_thread_cases {CAPACITY : Int} {s s1 : Sys} {a : Option Act}
    (h : Next CAPACITY s a s1) (k : Nat) :
    s1.threads[k]? = s.threads[k]? ∨
    (∃ v, s.threads[k]? = some ⟨v, Pc.blocked⟩ ∧ s1.threads[k]? = some ⟨v, Pc.woken⟩) ∨
    (∃ w t r, a = some (Act.run k w) ∧ s.threads[k]? = some t ∧
      client CAPACITY k t.isvip t.pc s.gate = some r ∧ s1.gate = r.gate ∧
      s1.threads[k]? = some ⟨t.isvip, r.pc⟩) := by
  unfold Next at h
  split at h
  · rename_i a0
    rcases step_thread_cases h k with e | e | ⟨w, t, r, ha, e⟩
    · exact Or.inl e
    · exact Or.inr (Or.inl e)
    · exact Or.inr (Or.inr ⟨w, t, r, by rw [ha], e⟩)
  · left; rw [h]

theorem next_pending {CAPACITY : Int} {s s1 : Sys} {a : Option Act}
    (h : Next CAPACITY s a s1) : pending s1.threads ≤ pending s.threads := by
  unfold Next at h
  split at h
  · exact (pending_step h).1
  · rw [h]

/-- A thread that is not blocked stays where it is until it runs: if it runs at some
later instant, then there is an instant at which it runs from where it stands now. -/
theorem waits_its_turn {CAPACITY : Int} {state : Nat → Sys} {act : Nat → Option Act}
    (hnext : ∀ n, Next CAPACITY (state n) (act n) (state (n + 1)))
    (j : Nat) (t : Thread) (ht : t.pc ≠ Pc.blocked) :
    ∀ (d n m w : Nat), m = n + d → (state n).threads[j]? = some t →
      act m = some (Act.run j w) →
      ∃ m1 w1, n ≤ m1 ∧ act m1 = some (Act.run j w1) ∧ (state m1).threads[j]? = some t := by
  intro d
  induction d with
  | zero =>
    intro n m w hm hj ha
    simp only [Nat.add_zero] at hm
    subst hm
    exact ⟨m, w, Nat.le_refl _, ha, hj⟩
  | succ d ih =>
    intro n m w hm hj ha
    rcases next_thread_cases (hnext n) j with e | ⟨v, e, _⟩ | ⟨w1, _, _, ha1, _⟩
    · rw [hj] at e
      obtain ⟨m1, w1, h1, h2, h3⟩ := ih (n + 1) m w (by omega) e ha
      exact ⟨m1, w1, by omega, h2, h3⟩
    · rw [hj, Option.some.injEq] at e
      rw [e] at ht
      exact absurd rfl ht
    · exact ⟨n, w1, Nat.le_refl _, ha1, hj⟩

theorem eventually_const (f : Nat → Nat) (h : ∀ n, f (n + 1) ≤ f n) :
    ∃ N, ∀ n, N ≤ n → f n = f N := by
  classical
  have hanti : Antitone f := antitone_nat_of_succ_le h
  have hex : ∃ v, ∃ n, f n = v := ⟨f 0, 0, rfl⟩
  obtain ⟨N, hN⟩ := Nat.find_spec hex
  refine ⟨N, fun n hn => ?_⟩
  have h1 : f n ≤ f N := hanti hn
  have h2 : Nat.find hex ≤ f n := Nat.find_min' hex ⟨n, rfl⟩
  omega

theorem init_thread (manifest : List Bool) (i : Nat) (t : Thread)
    (h : (init manifest).threads[i]? = some t) : t.pc = Pc.start := by
  simp only [init, List.getElem?_map] at h
  cases hm : manifest[i]? with
  | none => rw [hm] at h; simp at h
  | some v =>
    rw [hm] at h
    simp only [Option.map_some', Option.some.injEq] at h
    rw [← h]

/-- A finished client was inside at some earlier instant. -/
theorem done_was_inside {CAPACITY : Int} {manifest : List Bool} {state : Nat → Sys}
    {act : Nat → Option Act} (hex : Execution CAPACITY manifest state act) (i : Nat)
    (v : Bool) :
    ∀ n, (state n).threads[i]? = some ⟨v, Pc.done⟩ →
      ∃ m, (state m).threads[i]? = some ⟨v, Pc.inside⟩ := by
  intro n
  induction n with
  | zero =>
    intro h
    rw [hex.start] at h
    have := init_thread manifest i _ h
    simp at this
  | succ n ih =>
    intro h
    rcases next_thread_cases (hex.next n) i with e | ⟨v1, _, e⟩ | ⟨w, t, r, _, ht, hr, _, e⟩
    · rw [e] at h
      exact ih h
    · rw [e] at h
      simp at h
    · rw [e, Option.some.injEq, Thread.mk.injEq] at h
      rcases t with ⟨tv, tp⟩
      rcases client_pc_cases hr with ⟨_, hq⟩ | ⟨_, hq⟩ | ⟨hp, _⟩
      · rcases hq with hq | hq <;> rw [hq] at h <;> simp at h
      · rcases hq with hq | hq <;> rw [hq] at h <;> simp at h
      · simp only at hp h
        subst hp
        exact ⟨n, by rw [ht, ← h.1]⟩

/-- A VIP released from its wait after the instant from which nobody is inside any
more is admitted when it re-tests. -/
theorem woken_vip_admitted {CAPACITY : Int} (hcap : 0 < CAPACITY) {state : Nat → Sys}
    {act : Nat → Option Act}
    (hnext : ∀ n, Next CAPACITY (state n) (act n) (state (n + 1)))
    (hfair : Fair state act) (N : Nat)
    (hempty : ∀ n, N ≤ n → (state n).gate.inside_count = 0)
    (n : Nat) (hn : N ≤ n) (j : Nat) (hj : (state n).threads[j]? = some ⟨true, Pc.woken⟩) :
    ∃ m, N ≤ m ∧ (state m).threads[j]? = some ⟨true, Pc.inside⟩ := by
  obtain ⟨m, w, hm, ham⟩ := hfair n j _ hj (Or.inr rfl)
  obtain ⟨m1, w1, hm1, ham1, hj1⟩ :=
    waits_its_turn hnext j ⟨true, Pc.woken⟩ (by decide) (m - n) n m w (by omega) hj ham
  have hstep := hnext m1
  rw [ham1] at hstep
  obtain ⟨t, r, mid, ht, hr, hmv, hd, _, _⟩ := step_run_inv CAPACITY _ _ j w1 hstep
  rw [hj1, Option.some.injEq] at ht
  subst ht
  have h0 := hempty m1 (by omega)
  have hlt : ¬ (state m1).gate.inside_count ≥ CAPACITY := by omega
  simp only [client, vip_loop, if_true, hlt, if_false, Option.some.injEq] at hr
  subst hr
  simp only [deliver_nil, Option.some.injEq] at hd
  refine ⟨m1 + 1, by omega, ?_⟩
  rw [← hd]
  exact hmv.get_same

/-- C20: liveness.  When `CAPACITY > 0`, in every unbounded execution in which every
admitted client eventually calls `disco_exit` and every client released from its wait
eventually re-tests its loop condition, every VIP client that has called
`enter_vip_client` is admitted at some instant, whatever the number of normal clients in
the manifest. -/
theorem vip_eventually_admitted (CAPACITY : Int) (hcap : 0 < CAPACITY)
    (manifest : List Bool) (state : Nat → Sys) (act : Nat → Option Act)
    (hex : Execution CAPACITY manifest state act) (hfair : Fair state act)
    (i n0 : Nat) (p : Pc) (hi : (state n0).threads[i]? = some ⟨true, p⟩)
    (hp : p ≠ Pc.start) :
    ∃ n, (state n).threads[i]? = some ⟨true, Pc.inside⟩ := by
  by_contra hnot
  simp only [not_exists] at hnot
  -- from some instant on nobody leaves any more
  obtain ⟨N, hN⟩ := eventually_const (fun n => pending (state n).threads)
    (fun n => next_pending (hex.next n))
  -- so from then on nobody is inside
  have noInside : ∀ n, N ≤ n → ∀ (j : Nat) (v : Bool),
      (state n).threads[j]? ≠ some (⟨v, Pc.inside⟩ : Thread) := by
    intro n hn j v hj
    obtain ⟨m, w, hm, ham⟩ := hfair n j _ hj (Or.inl rfl)
    obtain ⟨m1, w1, hm1, ham1, hj1⟩ :=
      waits_its_turn hex.next j ⟨v, Pc.inside⟩ (by simp) (m - n) n m w (by omega) hj ham
    have hstep := hex.next m1
    rw [ham1] at hstep
    have hlt := (pending_step hstep).2 j w1 v rfl hj1
    have e1 := hN m1 (by omega)
    have e2 := hN (m1 + 1) (by omega)
    omega
  have hempty : ∀ n, N ≤ n → (state n).gate.inside_count = 0 := by
    intro n hn
    have hI := execution_inv hex n
    have z : ∀ v, cnt (state n).threads v Pc.inside = 0 := by
      intro v
      by_contra hne
      have hm := (cnt_pos_iff _ _ _).mp (Nat.pos_of_ne_zero hne)
      obtain ⟨j, hj⟩ := List.mem_iff_getElem?.mp hm
      exact noInside n hn j v hj
    rw [hI.inside_eq, z true, z false]
    rfl
  -- the VIP keeps waiting
  have hp2 : p = Pc.blocked ∨ p = Pc.woken := by
    cases p
    · exact absurd rfl hp
    · exact Or.inl rfl
    · exact Or.inr rfl
    · exact absurd hi (hnot n0)
    · obtain ⟨m, hm⟩ := done_was_inside hex i true n0 hi
      exact absurd hm (hnot m)
  have hwait : ∀ k, ∃ q, (q = Pc.blocked ∨ q = Pc.woken) ∧
      (state (n0 + k)).threads[i]? = some ⟨true, q⟩ := by
    intro k
    induction k with
    | zero => exact ⟨p, hp2, hi⟩
    | succ k ih =>
      obtain ⟨q, hq, hiq⟩ := ih
      rcases next_thread_cases (hex.next (n0 + k)) i with e | ⟨v, _, e⟩ |
          ⟨w, t, r, _, ht, hr, _, e⟩
      · exact ⟨q, hq, by rw [← hiq]; exact e⟩
      · rw [hiq] at *
        rename_i hb
        simp only [Option.some.injEq, Thread.mk.injEq] at hb
        exact ⟨Pc.woken, Or.inr rfl, by rw [← hb.1] at e; exact e⟩
      · rw [hiq, Option.some.injEq] at ht
        subst ht
        rcases client_pc_cases hr with ⟨hs, _⟩ | ⟨_, hr2⟩ | ⟨hs, _⟩
        · simp only at hs
          rcases hq with hq | hq <;> rw [hq] at hs <;> simp at hs
        · rcases hr2 with hr2 | hr2
          · exact ⟨Pc.blocked, Or.inl rfl, by rw [hr2] at e; exact e⟩
          · rw [hr2] at e
            exact absurd e (hnot (n0 + k + 1))
        · simp only at hs
          rcases hq with hq | hq <;> rw [hq] at hs <;> simp at hs
  obtain ⟨q, hq, hiq⟩ := hwait N
  rcases hq with hq | hq
  · -- blocked: some VIP has been released and will take the free place
    subst hq
    have hI := execution_inv hex (n0 + N)
    have hpos : 0 < cnt (state (n0 + N)).threads true Pc.blocked :=
      (cnt_pos_iff _ _ _).mpr (List.mem_iff_getElem?.mpr ⟨i, hiq⟩)
    have hl := hI.vip_live hpos
    rw [hempty (n0 + N) (by omega)] at hl
    have hw : 0 < cnt (state (n0 + N)).threads true Pc.woken := by omega
    obtain ⟨j, hj⟩ := List.mem_iff_getElem?.mp ((cnt_pos_iff _ _ _).mp hw)
    obtain ⟨m, hm, hin⟩ :=
      woken_vip_admitted hcap hex.next hfair N hempty (n0 + N) (by omega) j hj
    exact noInside m hm j true hin
  · subst hq
    obtain ⟨m, _, hin⟩ :=
      woken_vip_admitted hcap hex.next hfair N hempty (n0 + N) (by omega) i hiq
    exact hnot m hin

theorem handoff_state_rest (k : Nat) :
    handoff_state (k + 5) = outcome 1 scenarioB sched_handoff_full := by
  unfold handoff_state
  rw [List.take_of_length_le]
  simp [sched_handoff_full]

theorem handoff_act_rest (k : Nat) : handoff_act (k + 5) = none := by
  unfold handoff_act
  rw [List.getElem?_eq_none]
  simp [sched_handoff_full]

theorem handoff_execution : Execution 1 scenarioB handoff_state handoff_act := by
  constructor
  · rfl
  · intro n
    match n with
    | 0 => exact (rfl : step 1 (handoff_state 0) (Act.run 0 0) = some (handoff_state 1))
    | 1 => exact (rfl : step 1 (handoff_state 1) (Act.run 1 0) = some (handoff_state 2))
    | 2 => exact (rfl : step 1 (handoff_state 2) (Act.run 0 1) = some (handoff_state 3))
    | 3 => exact (rfl : step 1 (handoff_state 3) (Act.run 1 0) = some (handoff_state 4))
    | 4 => exact (rfl : step 1 (handoff_state 4) (Act.run 1 0) = some (handoff_state 5))
    | k + 5 =>
      unfold Next
      rw [handoff_act_rest k, handoff_state_rest k]
      exact handoff_state_rest (k + 1)

theorem handoff_fair : Fair handoff_state handoff_act := by
  intro n i t ht hpc
  match n with
  | 0 =>
    rw [show (handoff_state 0).threads = [⟨false, Pc.start⟩, ⟨true, Pc.start⟩] from rfl] at ht
    match i with
    | 0 => simp at ht; subst ht; simp at hpc
    | 1 => simp at ht; subst ht; simp at hpc
    | j + 2 => simp at ht
  | 1 =>
    rw [show (handoff_state 1).threads = [⟨false, Pc.inside⟩, ⟨true, Pc.start⟩] from rfl] at ht
    match i with
    | 0 => exact ⟨2, 1, by decide, rfl⟩
    | 1 => simp at ht; subst ht; simp at hpc
    | j + 2 => simp at ht
  | 2 =>
    rw [show (handoff_state 2).threads = [⟨false, Pc.inside⟩, ⟨true, Pc.blocked⟩] from rfl] at ht
    match i with
    | 0 => exact ⟨2, 1, by decide, rfl⟩
    | 1 => simp at ht; subst ht; simp at hpc
    | j + 2 => simp at ht
  | 3 =>
    rw [show (handoff_state 3).threads = [⟨false, Pc.done⟩, ⟨true, Pc.woken⟩] from rfl] at ht
    match i with
    | 0 => simp at ht; subst ht; simp at hpc
    | 1 => exact ⟨3, 0, by decide, rfl⟩
    | j + 2 => simp at ht
  | 4 =>
    rw [show (handoff_state 4).threads = [⟨false, Pc.done⟩, ⟨true, Pc.inside⟩] from rfl] at ht
    match i with
    | 0 => simp at ht; subst ht; simp at hpc
    | 1 => exact ⟨4, 0, by decide, rfl⟩
    | j + 2 => simp at ht
  | k + 5 =>
    rw [handoff_state_rest k, show (outcome 1 scenarioB sched_handoff_full).threads
      = [⟨false, Pc.done⟩, ⟨true, Pc.done⟩] from rfl] at ht
    match i with
    | 0 => simp at ht; subst ht; simp at hpc
    | 1 => simp at ht; subst ht; simp at hpc
    | j + 2 => simp at ht

theorem vip_eventually_admitted_witness :
    (handoff_state 2).threads[1]? = some ⟨true, Pc.blocked⟩ ∧
    (handoff_state 4).threads[1]? = some ⟨true, Pc.inside⟩ ∧
    ∃ n, (handoff_state n).threads[1]? = some ⟨true, Pc.inside⟩ :=
  ⟨rfl, rfl, vip_eventually_admitted 1 (by decide) scenarioB handoff_state handoff_act
    handoff_execution handoff_fair 1 2 Pc.blocked rfl (by decide)⟩

/-- C24: for every value `r ≥ 0` returned by `rand()`, `dance` sleeps `(r mod 3) + 1`
seconds, which is 1, 2 or 3. -/
theorem dance_bounded (r : Int) (hr : 0 ≤ r) :
    dance r = r % 3 + 1 ∧ (dance r = 1 ∨ dance r = 2 ∨ dance r = 3) := by
  have h : Int.tmod r 3 = r % 3 := Int.tmod_eq_emod hr (by decide)
  unfold dance
  rw [h]
  refine ⟨rfl, ?_⟩
  omega

theorem dance_bounded_witness : dance 2147483647 = 2 ∧ dance 5 = 3 :=
  ⟨by
    have h := (dance_bounded 2147483647 (by decide)).1
    rw [h]
    decide, by decide⟩

theorem occupancy_events_append (l1 l2 : List Event) :
    occupancy_events (l1 ++ l2) = occupancy_events l1 ++ occupancy_events l2 := by
  simp [occupancy_events, List.filter_append]

/-- The occupancy lines a critical section prints: none, and `inside_count` is
unchanged; or one 'entering' line with the incremented counter; or one 'leaving' line
with the decremented counter. -/
theorem client_value_cases {CAPACITY : Int} {id : Nat} {v : Bool} {p : Pc} {g : Gate}
    {r : Outcome} (h : client CAPACITY id v p g = some r) :
    (occupancy_events r.events = [] ∧ r.gate.inside_count = g.inside_count) ∨
    (∃ e, occupancy_events r.events = [e] ∧ e.kind = EventKind.entering ∧
      e.value = g.inside_count + 1 ∧ r.gate.inside_count = g.inside_count + 1 ∧
      g.inside_count < CAPACITY) ∨
    (∃ e, occupancy_events r.events = [e] ∧ e.kind = EventKind.leaving ∧
      e.value = g.inside_count - 1 ∧ r.gate.inside_count = g.inside_count - 1 ∧
      p = Pc.inside) := by
  cases p <;> cases v <;>
    simp only [client, enter_vip_client, enter_normal_client, vip_loop, normal_loop,
      disco_exit, Option.some.injEq, Bool.false_eq_true, if_false, if_true] at h
  · split_ifs at h with hc <;> subst h
    · left; exact ⟨rfl, rfl⟩
    · right; left
      push_neg at hc
      exact ⟨_, rfl, rfl, rfl, rfl, hc.1⟩
  · split_ifs at h with hc <;> subst h
    · left; exact ⟨rfl, rfl⟩
    · right; left
      exact ⟨_, rfl, rfl, rfl, rfl, not_le.mp hc⟩
  · exact Option.noConfusion h
  · exact Option.noConfusion h
  · split_ifs at h with hc <;> subst h
    · left; exact ⟨rfl, rfl⟩
    · right; left
      push_neg at hc
      exact ⟨_, rfl, rfl, rfl, rfl, hc.1⟩
  · split_ifs at h with hc <;> subst h
    · left; exact ⟨rfl, rfl⟩
    · right; left
      exact ⟨_, rfl, rfl, rfl, rfl, not_le.mp hc⟩
  · subst h
    right; right
    exact ⟨_, rfl, rfl, rfl, rfl, rfl⟩
  · subst h
    right; right
    exact ⟨_, rfl, rfl, rfl, rfl, rfl⟩
  · exact Option.noConfusion h
  · exact Option.noConfusion h

theorem valueInv_init (CAPACITY : Int) (manifest : List Bool) :
    ValueInv CAPACITY (init manifest) := by
  constructor <;> simp [init, occupancy_events]

/-- Appending one occupancy line that continues from the current counter. -/
theorem valueInv_snoc {CAPACITY : Int} {s s1 : Sys} (e : Event)
    (hV : ValueInv CAPACITY s) (hlog : occupancy_events s1.log = occupancy_events s.log ++ [e])
    (hval : e.value = s1.gate.inside_count)
    (hrange : (e.kind = EventKind.entering → 1 ≤ e.value ∧ e.value ≤ CAPACITY) ∧
      (e.kind = EventKind.leaving → 0 ≤ e.value ∧ e.value ≤ CAPACITY - 1))
    (hfol : ∀ a, a.value = s.gate.inside_count → Follows a e) : ValueInv CAPACITY s1 := by
  obtain ⟨h1, h2, h3⟩ := hV
  constructor
  · intro x hx
    rw [hlog, List.mem_append, List.mem_singleton] at hx
    rcases hx with hx | hx
    · exact h1 x hx
    · rw [hx]; exact hrange
  · rw [hlog, List.chain'_append]
    refine ⟨h2, List.chain'_singleton e, ?_⟩
    intro a ha y hy
    simp only [List.head?_cons, Option.mem_def, Option.some.injEq] at hy
    rw [← hy]
    exact hfol a (h3 a ha)
  · intro x hx
    rw [hlog, List.getLast?_append, List.getLast?_singleton] at hx
    simp only [Option.or, Option.mem_def, Option.some.injEq] at hx
    rw [← hx]
    exact hval

theorem valueInv_step {CAPACITY : Int} {manifest : List Bool} {s s1 : Sys} {a : Act}
    (hcap : 1 ≤ CAPACITY) (hI : Inv CAPACITY manifest s) (hV : ValueInv CAPACITY s)
    (h : step CAPACITY s a = some s1) : ValueInv CAPACITY s1 := by
  have hle := hI.le_cap (by omega)
  have hnn : 0 ≤ s.gate.inside_count := by rw [hI.inside_eq]; omega
  cases a with
  | spurious i =>
    obtain ⟨_, _, _, hg, hl⟩ := step_spurious_inv CAPACITY s s1 i h
    obtain ⟨h1, h2, h3⟩ := hV
    constructor
    · rw [hl]; exact h1
    · rw [hl]; exact h2
    · rw [hl, hg]; exact h3
  | run i w =>
    obtain ⟨t, r, mid, ht, hr, _, _, hg, hl⟩ := step_run_inv CAPACITY s s1 i w h
    have hlog : occupancy_events s1.log
        = occupancy_events s.log ++ occupancy_events r.events := by
      rw [hl, occupancy_events_append]
    rcases client_value_cases hr with ⟨he, hic⟩ | ⟨e, he, hk, hv, hic, hlt⟩ |
        ⟨e, he, hk, hv, hic, hp⟩
    · rw [he, List.append_nil] at hlog
      obtain ⟨h1, h2, h3⟩ := hV
      constructor
      · rw [hlog]; exact h1
      · rw [hlog]; exact h2
      · rw [hlog, hg, hic]; exact h3
    · rw [he] at hlog
      refine valueInv_snoc e hV hlog (by rw [hg, hic, hv]) ?_ ?_
      · constructor
        · intro _; omega
        · intro hk2; rw [hk] at hk2; cases hk2
      · intro a ha
        left
        exact ⟨hk, by rw [hv, ha]⟩
    · rw [he] at hlog
      have hpos : 1 ≤ s.gate.inside_count := by
        rcases t with ⟨tv, tp⟩
        simp only at hp
        subst hp
        have hc := (cnt_pos_iff s.threads tv Pc.inside).mpr
          (List.mem_iff_getElem?.mpr ⟨i, ht⟩)
        rw [hI.inside_eq]
        cases tv <;> omega
      refine valueInv_snoc e hV hlog (by rw [hg, hic, hv]) ?_ ?_
      · constructor
        · intro hk2; rw [hk] at hk2; cases hk2
        · intro _; omega
      · intro a ha
        right
        exact ⟨hk, by rw [hv, ha]⟩

theorem exec_valueInv {CAPACITY : Int} {manifest : List Bool} (hcap : 1 ≤ CAPACITY)
    (sched : List Act) :
    ∀ s s1 : Sys, Inv CAPACITY manifest s → ValueInv CAPACITY s →
      exec CAPACITY s sched = some s1 → ValueInv CAPACITY s1 := by
  induction sched with
  | nil =>
    intro s s1 _ hV h
    simp only [exec, Option.some.injEq] at h
    exact h ▸ hV
  | cons a as ih =>
    intro s s1 hI hV h
    simp only [exec] at h
    split at h
    · rename_i s2 hs2
      exact ih s2 s1 (inv_step hI hs2) (valueInv_step hcap hI hV hs2) h
    · exact Option.noConfusion h

theorem reachable_valueInv {CAPACITY : Int} {manifest : List Bool} {s : Sys}
    (hcap : 1 ≤ CAPACITY) (h : Reachable CAPACITY manifest s) : ValueInv CAPACITY s := by
  obtain ⟨sched, hs⟩ := h
  exact exec_valueInv hcap sched _ _ (inv_init CAPACITY manifest)
    (valueInv_init CAPACITY manifest) hs

/-- C23: in every execution (capacity at least 1), every 'entering' line reports an
occupancy in `1..CAPACITY`, every 'leaving' line one in `0..CAPACITY-1`, and of two
consecutive entering/leaving lines of the log the second reports one more than the
first if it is an 'entering' line and one less if it is a 'leaving' line, so the two
values differ by exactly 1. -/
theorem reported_occupancy (CAPACITY : Int) (hcap : 1 ≤ CAPACITY) (manifest : List Bool)
    (s : Sys) (h : Reachable CAPACITY manifest s) :
    (∀ e ∈ s.log, e.kind = EventKind.entering → 1 ≤ e.value ∧ e.value ≤ CAPACITY) ∧
    (∀ e ∈ s.log, e.kind = EventKind.leaving → 0 ≤ e.value ∧ e.value ≤ CAPACITY - 1) ∧
    (∀ pre a b post, occupancy_events s.log = pre ++ a :: b :: post →
      Follows a b ∧ (b.value - a.value).natAbs = 1) := by
  obtain ⟨h1, h2, _⟩ := reachable_valueInv hcap h
  have hmem : ∀ e ∈ s.log, e.kind = EventKind.entering ∨ e.kind = EventKind.leaving →
      e ∈ occupancy_events s.log := by
    intro e he hk
    simp only [occupancy_events, List.mem_filter, Bool.or_eq_true, beq_iff_eq]
    exact ⟨he, hk⟩
  refine ⟨?_, ?_, ?_⟩
  · intro e he hk
    exact (h1 e (hmem e he (Or.inl hk))).1 hk
  · intro e he hk
    exact (h1 e (hmem e he (Or.inr hk))).2 hk
  · intro pre a b post hsplit
    rw [hsplit, List.chain'_append_cons_cons] at h2
    refine ⟨h2.2.1, ?_⟩
    rcases h2.2.1 with ⟨_, hv⟩ | ⟨_, hv⟩ <;> rw [hv] <;> simp

theorem reported_occupancy_witness :
    (occupancy_events (outcome 2 scenarioA sched_complete).log).map Event.value
      = [1, 2, 1, 2, 1, 0] ∧
    ∀ e ∈ (outcome 2 scenarioA sched_complete).log,
      e.kind = EventKind.entering → 1 ≤ e.value ∧ e.value ≤ 2 :=
  ⟨rfl, (reported_occupancy 2 (by decide) scenarioA _ reach_complete).1⟩

/-! ## Building executions step by step -/

theorem get_set_of_get {l : List Thread} {i : Nat} {a : Thread} (b : Thread)
    (h : l[i]? = some a) (j : Nat) :
    (l.set i b)[j]? = if j = i then some b else l[j]? := by
  have hlt : i < l.length := by
    rcases Nat.lt_or_ge i l.length with hl | hl
    · exact hl
    · rw [List.getElem?_eq_none hl] at h
      exact Option.noConfusion h
  by_cases hj : j = i
  · subst hj
    simp [hlt]
  · have hj2 : i ≠ j := fun e => hj e.symm
    simp [List.getElem?_set, hj, hj2]

theorem exec_cons_of_step {CAPACITY : Int} {s s1 : Sys} {a : Act} (as : List Act)
    (h : step CAPACITY s a = some s1) : exec CAPACITY s (a :: as) = exec CAPACITY s1 as := by
  simp only [exec, h]

theorem exec_append {CAPACITY : Int} (as bs : List Act) :
    ∀ s s1 : Sys, exec CAPACITY s as = some s1 →
      exec CAPACITY s (as ++ bs) = exec CAPACITY s1 bs := by
  induction as with
  | nil =>
    intro s s1 h
    simp only [exec, Option.some.injEq] at h
    rw [h]
    rfl
  | cons a as ih =>
    intro s s1 h
    have hcons : (a :: as) ++ bs = a :: (as ++ bs) := rfl
    rw [hcons]
    cases hs : step CAPACITY s a with
    | none => simp [exec, hs] at h
    | some s2 =>
      rw [exec_cons_of_step _ hs] at h ⊢
      exact ih s2 s1 h

/-- A VIP arriving while there is room is admitted at once. -/
theorem run_vip_arrive_admit {C : Int} {s : Sys} {i : Nat} (w : Nat)
    (h : s.threads[i]? = some ⟨true, Pc.start⟩) (hc : s.gate.inside_count < C) :
    ∃ s1, step C s (Act.run i w) = some s1 ∧
      s1.gate = ⟨s.gate.inside_count + 1, s.gate.waiting_vip, s.gate.waiting_normal⟩ ∧
      ∀ j, s1.threads[j]? = if j = i then some ⟨true, Pc.inside⟩ else s.threads[j]? := by
  have hn : ¬ s.gate.inside_count ≥ C := by omega
  refine ⟨_, by simp only [step, h, client, enter_vip_client, vip_loop, if_true, hn, if_false,
    deliver_nil]; rfl, ?_, ?_⟩
  · simp
  · intro j
    exact get_set_of_get _ h j

/-- A VIP arriving while the place is full registers and waits. -/
theorem run_vip_arrive_block {C : Int} {s : Sys} {i : Nat} (w : Nat)
    (h : s.threads[i]? = some ⟨true, Pc.start⟩) (hc : C ≤ s.gate.inside_count) :
    ∃ s1, step C s (Act.run i w) = some s1 ∧
      s1.gate = ⟨s.gate.inside_count, s.gate.waiting_vip + 1, s.gate.waiting_normal⟩ ∧
      ∀ j, s1.threads[j]? = if j = i then some ⟨true, Pc.blocked⟩ else s.threads[j]? := by
  have hn : s.gate.inside_count ≥ C := hc
  refine ⟨_, by simp only [step, h, client, enter_vip_client, vip_loop, if_true, hn,
    deliver_nil]; rfl, rfl, ?_⟩
  intro j
  exact get_set_of_get _ h j

/-- A normal client arriving while the place is full or a VIP waits registers and
waits. -/
theorem run_normal_arrive_block {C : Int} {s : Sys} {i : Nat} (w : Nat)
    (h : s.threads[i]? = some ⟨false, Pc.start⟩)
    (hc : C ≤ s.gate.inside_count ∨ 0 < s.gate.waiting_vip) :
    ∃ s1, step C s (Act.run i w) = some s1 ∧
      s1.gate = ⟨s.gate.inside_count, s.gate.waiting_vip, s.gate.waiting_normal + 1⟩ ∧
      ∀ j, s1.threads[j]? = if j = i then some ⟨false, Pc.blocked⟩ else s.threads[j]? := by
  have hn : s.gate.inside_count ≥ C ∨ s.gate.waiting_vip > 0 := hc
  refine ⟨_, by simp only [step, h, client, enter_normal_client, normal_loop,
    Bool.false_eq_true, if_false, hn, if_true, deliver_nil]; rfl, rfl, ?_⟩
  intro j
  exact get_set_of_get _ h j

/-- A released VIP that finds room on its re-test is admitted. -/
theorem run_vip_recheck_admit {C : Int} {s : Sys} {i : Nat} (w : Nat)
    (h : s.threads[i]? = some ⟨true, Pc.woken⟩) (hc : s.gate.inside_count < C) :
    ∃ s1, step C s (Act.run i w) = some s1 ∧
      s1.gate = ⟨s.gate.inside_count + 1, s.gate.waiting_vip - 1, s.gate.waiting_normal⟩ ∧
      ∀ j, s1.threads[j]? = if j = i then some ⟨true, Pc.inside⟩ else s.threads[j]? := by
  have hn : ¬ s.gate.inside_count ≥ C := by omega
  refine ⟨_, by simp only [step, h, client, vip_loop, if_true, hn, if_false, deliver_nil]; rfl,
    rfl, ?_⟩
  intro j
  exact get_set_of_get _ h j

/-- A client leaving while a VIP waits signals `vip_cond`; if thread `w` is a blocked
VIP, it is released. -/
theorem run_exit_wake_vip {C : Int} {s : Sys} {i w : Nat} {v : Bool}
    (h : s.threads[i]? = some ⟨v, Pc.inside⟩) (hwv : 0 < s.gate.waiting_vip)
    (hw : s.threads[w]? = some ⟨true, Pc.blocked⟩) :
    ∃ s1, step C s (Act.run i w) = some s1 ∧
      s1.gate = ⟨s.gate.inside_count - 1, s.gate.waiting_vip, s.gate.waiting_normal⟩ ∧
      ∀ j, s1.threads[j]? = if j = w then some ⟨true, Pc.woken⟩
        else if j = i then some ⟨v, Pc.done⟩ else s.threads[j]? := by
  have hiw : w ≠ i := by
    intro e
    rw [e, h] at hw
    simp at hw
  have hmid : (s.threads.set i ⟨v, Pc.done⟩)[w]? = some ⟨true, Pc.blocked⟩ := by
    rw [get_set_of_get _ h w, if_neg hiw]
    exact hw
  have hany : (s.threads.set i ⟨v, Pc.done⟩).any (blockedOn Cond.vip_cond) = true :=
    List.any_eq_true.mpr ⟨_, List.mem_iff_getElem?.mpr ⟨w, hmid⟩, rfl⟩
  have hgt : s.gate.waiting_vip > 0 := hwv
  refine ⟨_, by simp only [step, h, client, disco_exit, hgt, if_true, deliver,
    pthread_cond_signal, hany, hmid, blockedOn, beq_self_eq_true, Bool.and_self]; rfl, rfl, ?_⟩
  intro j
  simp only
  rw [get_set_of_get _ hmid j]
  by_cases hj : j = w
  · simp [hj]
  · simp only [hj, if_false]
    exact get_set_of_get _ h j

/-- A client leaving while a VIP is registered but no VIP is blocked (the waiting VIP
has already been released): the signal on `vip_cond` is lost. -/
theorem run_exit_signal_lost {C : Int} {s : Sys} {i : Nat} {v : Bool} (w : Nat)
    (h : s.threads[i]? = some ⟨v, Pc.inside⟩) (hwv : 0 < s.gate.waiting_vip)
    (hnone : ∀ j : Nat, s.threads[j]? ≠ some (⟨true, Pc.blocked⟩ : Thread)) :
    ∃ s1, step C s (Act.run i w) = some s1 ∧
      s1.gate = ⟨s.gate.inside_count - 1, s.gate.waiting_vip, s.gate.waiting_normal⟩ ∧
      ∀ j, s1.threads[j]? = if j = i then some ⟨v, Pc.done⟩ else s.threads[j]? := by
  have hany : (s.threads.set i ⟨v, Pc.done⟩).any (blockedOn Cond.vip_cond) = false := by
    rw [Bool.eq_false_iff]
    intro hc
    obtain ⟨t, hm, hb⟩ := List.any_eq_true.mp hc
    obtain ⟨j, hj⟩ := List.mem_iff_getElem?.mp hm
    rw [get_set_of_get _ h j] at hj
    rcases t with ⟨tv, tp⟩
    simp only [blockedOn, beq_self_eq_true, Bool.and_eq_true, beq_iff_eq] at hb
    obtain ⟨hb1, hb2⟩ := hb
    subst hb1
    by_cases hji : j = i
    · simp [hji] at hj
    · simp only [hji, if_false] at hj
      apply hnone j
      rw [hj, hb2]
  have hgt : s.gate.waiting_vip > 0 := hwv
  refine ⟨_, by simp only [step, h, client, disco_exit, hgt, if_true, deliver,
    pthread_cond_signal, hany, Bool.false_eq_true, if_false]; rfl, rfl, ?_⟩
  intro j
  exact get_set_of_get _ h j

/-- Admitting `n` VIPs that arrive one after the other while there is room for all. -/
theorem run_each_admits {C : Int} (n : Nat) :
    ∀ (s : Sys) (b : Nat),
      (∀ j, b ≤ j → j < b + n → s.threads[j]? = some ⟨true, Pc.start⟩) →
      s.gate.inside_count + n ≤ C →
      ∃ s1, exec C s (run_each b n) = some s1 ∧
        s1.gate = ⟨s.gate.inside_count + n, s.gate.waiting_vip, s.gate.waiting_normal⟩ ∧
        ∀ j, s1.threads[j]? =
          if b ≤ j ∧ j < b + n then some ⟨true, Pc.inside⟩ else s.threads[j]? := by
  induction n with
  | zero =>
    intro s b _ _
    refine ⟨s, rfl, by simp, ?_⟩
    intro j
    have : ¬ (b ≤ j ∧ j < b + 0) := by omega
    simp only [this, if_false]
  | succ n ih =>
    intro s b hst hroom
    obtain ⟨s1, h1, g1, t1⟩ := run_vip_arrive_admit (C := C) 0
      (hst b (Nat.le_refl _) (by omega)) (by omega)
    have hst1 : ∀ j, b + 1 ≤ j → j < b + 1 + n → s1.threads[j]? = some ⟨true, Pc.start⟩ := by
      intro j hj1 hj2
      rw [t1 j, if_neg (by omega)]
      exact hst j (by omega) (by omega)
    have hroom1 : s1.gate.inside_count + n ≤ C := by
      rw [g1]
      simp only
      push_cast at hroom
      omega
    obtain ⟨s2, h2, g2, t2⟩ := ih s1 (b + 1) hst1 hroom1
    refine ⟨s2, ?_, ?_, ?_⟩
    · have hr : run_each b (n + 1) = Act.run b 0 :: run_each (b + 1) n := by
        simp [run_each, List.range'_succ]
      rw [hr, exec_cons_of_step _ h1]
      exact h2
    · rw [g2, g1]
      simp only [Gate.mk.injEq, and_true]
      push_cast
      omega
    · intro j
      rw [t2 j, t1 j]
      by_cases hj : b + 1 ≤ j ∧ j < b + 1 + n
      · have : b ≤ j ∧ j < b + (n + 1) := by omega
        simp only [hj, this, and_self, if_true]
      · by_cases hjb : j = b
        · have : b ≤ j ∧ j < b + (n + 1) := by omega
          simp only [hj, if_false, hjb, if_true, this, and_self]
          simp
        · have : ¬ (b ≤ j ∧ j < b + (n + 1)) := by omega
          simp only [hj, if_false, hjb, this]

theorem init_gate (manifest : List Bool) : (init manifest).gate = ⟨0, 0, 0⟩ := rfl

theorem init_get (manifest : List Bool) (j : Nat) :
    (init manifest).threads[j]? = (manifest[j]?).map (fun v => ⟨v, Pc.start⟩) := by
  simp [init]

/-- A blocked normal client stays blocked until a `disco_exit` signals `normal_cond`
and the signal goes to it, or it wakes up spuriously. -/
theorem blocked_normal_release {CAPACITY : Int} {s s1 : Sys} {a : Act} {i : Nat}
    (h : step CAPACITY s a = some s1) (hi : s.threads[i]? = some ⟨false, Pc.blocked⟩) :
    s1.threads[i]? = some ⟨false, Pc.blocked⟩ ∨
    (s1.threads[i]? = some ⟨false, Pc.woken⟩ ∧
      (a = Act.spurious i ∨
        ∃ j v, a = Act.run j i ∧ s.threads[j]? = some ⟨v, Pc.inside⟩ ∧
          (disco_exit j v s.gate).signals = [Cond.normal_cond])) := by
  cases a with
  | spurious k =>
    obtain ⟨v, hk, hm, _, _⟩ := step_spurious_inv CAPACITY s s1 k h
    by_cases hki : k = i
    · subst hki
      right
      rw [hi, Option.some.injEq, Thread.mk.injEq] at hk
      refine ⟨?_, Or.inl rfl⟩
      rw [hm.get_same, ← hk.1]
    · left
      rw [hm.get_other hki]
      exact hi
  | run j w =>
    obtain ⟨t, r, mid, ht, hr, hm, hd, _, _⟩ := step_run_inv CAPACITY s s1 j w h
    have hji : j ≠ i := by
      intro e
      subst e
      rw [hi, Option.some.injEq] at ht
      subst ht
      simp [client] at hr
    have hmid : mid[i]? = some ⟨false, Pc.blocked⟩ := by
      rw [hm.get_other hji]
      exact hi
    rcases t with ⟨v, p⟩
    rcases client_signals hr with hs | hs
    · left
      rw [hs, deliver_nil, Option.some.injEq] at hd
      rw [← hd]
      exact hmid
    · rcases client_pc_cases hr with ⟨_, hq⟩ | ⟨_, hq⟩ | ⟨hp, _⟩
      · rcases hq with hq | hq <;> rw [hq] at hs <;> cases hs
      · rcases hq with hq | hq <;> rw [hq] at hs <;> cases hs
      · simp only at hp
        subst hp
        simp only [client, Option.some.injEq] at hr
        subst hr
        by_cases h1 : s.gate.waiting_vip > 0
        · have hsig : (disco_exit j v s.gate).signals = [Cond.vip_cond] := by
            simp [disco_exit, h1]
          rw [hsig, deliver_single] at hd
          left
          rcases signal_vip_cases _ _ _ hd with ⟨hsame, _⟩ | hmv
          · rw [hsame]; exact hmid
          · by_cases hwi : w = i
            · subst hwi
              have := hmv.1
              rw [hmid] at this
              simp at this
            · rw [hmv.get_other hwi]
              exact hmid
        · by_cases h2 : s.gate.waiting_normal > 0
          · have hsig : (disco_exit j v s.gate).signals = [Cond.normal_cond] := by
              simp [disco_exit, h1, h2]
            rw [hsig, deliver_single] at hd
            rcases signal_normal_cases _ _ _ hd with ⟨hsame, _⟩ | hmv
            · left; rw [hsame]; exact hmid
            · by_cases hwi : w = i
              · subst hwi
                right
                exact ⟨hmv.get_same, Or.inr ⟨j, v, rfl, ht, hsig⟩⟩
              · left
                rw [hmv.get_other hwi]
                exact hmid
          · have hsig : (disco_exit j v s.gate).signals = [] := by
              simp [disco_exit, h1, h2]
            rw [hsig, deliver_nil, Option.some.injEq] at hd
            left
            rw [← hd]
            exact hmid

theorem lost_signal_init (c j : Nat) :
    (init (lost_signal_manifest c)).threads[j]? =
      if j = 0 then some ⟨true, Pc.start⟩
      else if j = 1 then some ⟨false, Pc.start⟩
      else if j < c + 2 then some ⟨true, Pc.start⟩ else none := by
  rw [init_get]
  match j with
  | 0 => rfl
  | 1 => simp [lost_signal_manifest]
  | k + 2 =>
    simp only [lost_signal_manifest, List.getElem?_cons_succ, List.getElem?_replicate]
    by_cases hk : k < c
    · have : k + 2 < c + 2 := by omega
      simp [hk, this]
    · have : ¬ k + 2 < c + 2 := by omega
      simp [hk, this]

/-- The execution that loses a signal, for any capacity `c ≥ 2`. -/
theorem lost_signal_reached (c : Nat) (hc : 2 ≤ c) :
    ∃ s, exec c (init (lost_signal_manifest c)) (lost_signal_sched c) = some s ∧
      s.gate = ⟨(c : Int) - 1, 0, 1⟩ ∧
      s.threads[0]? = some ⟨true, Pc.inside⟩ ∧
      s.threads[1]? = some ⟨false, Pc.blocked⟩ := by
  have t0 := lost_signal_init c
  -- the c VIPs fill the place
  obtain ⟨sA, hA, gA, tA⟩ := run_each_admits (C := (c : Int)) c
    (init (lost_signal_manifest c)) 2
    (by
      intro j h1 h2
      rw [t0 j]
      have e1 : j ≠ 0 := by omega
      have e2 : j ≠ 1 := by omega
      have e3 : j < c + 2 := by omega
      simp only [e1, e2, e3, if_false, if_true])
    (by simp [init_gate])
  have gA2 : sA.gate = ⟨(c : Int), 0, 0⟩ := by rw [gA]; simp [init_gate]
  -- the VIP arrives and waits
  obtain ⟨sB, hB, gB, tB⟩ := run_vip_arrive_block (C := (c : Int)) (s := sA) (i := 0) 0
    (by rw [tA 0, t0 0]; simp) (by rw [gA2])
  have gB2 : sB.gate = ⟨(c : Int), 1, 0⟩ := by rw [gB, gA2]; simp
  -- the normal client arrives and waits
  obtain ⟨sC, hC, gC, tC⟩ := run_normal_arrive_block (C := (c : Int)) (s := sB)
    (i := 1) 0 (by rw [tB 1, tA 1, t0 1]; simp) (by rw [gB2]; left; exact Int.le_refl _)
  have gC2 : sC.gate = ⟨(c : Int), 1, 1⟩ := by rw [gC, gB2]; simp
  -- thread 2 leaves and releases the VIP
  obtain ⟨sD, hD, gD, tD⟩ := run_exit_wake_vip (C := (c : Int)) (s := sC) (i := 2)
    (w := 0) (v := true)
    (by
      rw [tC 2, tB 2, tA 2]
      have : 2 ≤ 2 ∧ 2 < 2 + c := by omega
      simp [this])
    (by rw [gC2]; simp)
    (by rw [tC 0, tB 0]; simp)
  have gD2 : sD.gate = ⟨(c : Int) - 1, 1, 1⟩ := by rw [gD, gC2]
  -- thread 3 leaves: its signal finds no blocked VIP
  obtain ⟨sE, hE, gE, tE⟩ := run_exit_signal_lost (C := (c : Int)) (s := sD) (i := 3)
    (v := true) 0
    (by
      rw [tD 3, tC 3, tB 3, tA 3]
      have : 2 ≤ 3 ∧ 3 < 2 + c := by omega
      simp [this])
    (by rw [gD2]; simp)
    (by
      intro j
      rw [tD j, tC j, tB j, tA j, t0 j]
      by_cases h0 : j = 0
      · simp [h0]
      · by_cases h2 : j = 2
        · simp [h2]
        · by_cases h1 : j = 1
          · simp [h1]
          · by_cases h3 : 2 ≤ j ∧ j < 2 + c
            · simp [h0, h1, h2, h3]
            · have : ¬ j < c + 2 := by omega
              simp [h0, h1, h2, h3, this])
  have gE2 : sE.gate = ⟨(c : Int) - 1 - 1, 1, 1⟩ := by rw [gE, gD2]
  -- the VIP re-tests and enters
  obtain ⟨sF, hF, gF, tF⟩ := run_vip_recheck_admit (C := (c : Int)) (s := sE) (i := 0) 0
    (by rw [tE 0, tD 0]; simp) (by rw [gE2]; simp only; omega)
  refine ⟨sF, ?_, ?_, ?_, ?_⟩
  · unfold lost_signal_sched
    rw [exec_append _ _ _ _ hA, exec_cons_of_step _ hB, exec_cons_of_step _ hC,
      exec_cons_of_step _ hD, exec_cons_of_step _ hE, exec_cons_of_step _ hF]
    rfl
  · rw [gF, gE2]
    simp only [Gate.mk.injEq, and_true]
    omega
  · rw [tF 0]; simp
  · rw [tF 1, tE 1, tD 1, tC 1]; simp

/-- C22: a free slot can stay idle while a normal client that satisfies its predicate
sleeps.  For every `CAPACITY ≥ 2` there is a reachable state (two exits signal
`vip_cond` for the same single waiting VIP) in which a normal client is blocked on
`normal_cond`, not released by any signal, while `inside_count < CAPACITY` and
`waiting_vip = 0`, so that its loop test would let it in.  And in every step a
blocked normal client stays blocked unless it wakes up spuriously or a `disco_exit`
signals `normal_cond` and releases it; only then can it re-test and be admitted. -/
theorem idle_slot_while_normal_sleeps (CAPACITY : Int) (hcap : 2 ≤ CAPACITY) :
    (∃ manifest s, Reachable CAPACITY manifest s ∧
      s.threads[1]? = some ⟨false, Pc.blocked⟩ ∧
      s.gate.inside_count < CAPACITY ∧ s.gate.waiting_vip = 0 ∧
      (normal_loop CAPACITY 1 s.gate).pc = Pc.inside) ∧
    (∀ (s s1 : Sys) (a : Act) (i : Nat), step CAPACITY s a = some s1 →
      s.threads[i]? = some ⟨false, Pc.blocked⟩ →
      client CAPACITY i false Pc.blocked s.gate = none ∧
      (s1.threads[i]? = some ⟨false, Pc.blocked⟩ ∨
        (s1.threads[i]? = some ⟨false, Pc.woken⟩ ∧
          (a = Act.spurious i ∨
            ∃ j v, a = Act.run j i ∧ s.threads[j]? = some ⟨v, Pc.inside⟩ ∧
              (disco_exit j v s.gate).signals = [Cond.normal_cond])))) := by
  obtain ⟨c, rfl⟩ : ∃ c : Nat, CAPACITY = c := ⟨CAPACITY.toNat, by omega⟩
  have hc : 2 ≤ c := by omega
  constructor
  · obtain ⟨s, hs, hg, _, h1⟩ := lost_signal_reached c hc
    refine ⟨lost_signal_manifest c, s, ⟨_, hs⟩, h1, ?_, ?_, ?_⟩
    · rw [hg]; simp
    · rw [hg]
    · rw [hg]
      simp [normal_loop]
  · intro s s1 a i hstep hi
    exact ⟨rfl, blocked_normal_release hstep hi⟩

theorem idle_slot_while_normal_sleeps_witness :
    view (outcome 2 (lost_signal_manifest 2) (lost_signal_sched 2))
      = (⟨1, 0, 1⟩, [⟨true, Pc.inside⟩, ⟨false, Pc.blocked⟩, ⟨true, Pc.done⟩,
          ⟨true, Pc.done⟩]) ∧
    ∃ manifest s, Reachable 2 manifest s ∧
      s.threads[1]? = some ⟨false, Pc.blocked⟩ ∧
      s.gate.inside_count < 2 ∧ s.gate.waiting_vip = 0 ∧
      (normal_loop 2 1 s.gate).pc = Pc.inside :=
  ⟨rfl, (idle_slot_while_normal_sleeps 2 (by decide)).1⟩

/-- One round of overtaking: with the place full, VIP `x` arrives and waits, client
`y` leaves and releases it, and `x` is admitted. -/
theorem overtake_round_runs {C : Int} {s : Sys} {x y : Nat} {v : Bool} {n : Int}
    (hg : s.gate = ⟨C, 0, n⟩) (hx : s.threads[x]? = some ⟨true, Pc.start⟩)
    (hy : s.threads[y]? = some ⟨v, Pc.inside⟩) :
    ∃ s1, exec C s [Act.run x 0, Act.run y x, Act.run x 0] = some s1 ∧
      s1.gate = ⟨C, 0, n⟩ ∧
      ∀ i, s1.threads[i]? = if i = x then some ⟨true, Pc.inside⟩
        else if i = y then some ⟨v, Pc.done⟩ else s.threads[i]? := by
  have hyx : y ≠ x := by
    intro e
    rw [e, hx] at hy
    simp at hy
  obtain ⟨sB, hB, gB, tB⟩ := run_vip_arrive_block (C := C) 0 hx
    (by rw [hg])
  have gB2 : sB.gate = ⟨C, 1, n⟩ := by rw [gB, hg]; simp
  obtain ⟨sD, hD, gD, tD⟩ := run_exit_wake_vip (C := C) (s := sB) (i := y)
    (w := x) (v := v) (by rw [tB y, if_neg hyx]; exact hy) (by rw [gB2]; simp)
    (by rw [tB x]; simp)
  have gD2 : sD.gate = ⟨C - 1, 1, n⟩ := by rw [gD, gB2]
  obtain ⟨sF, hF, gF, tF⟩ := run_vip_recheck_admit (C := C) (s := sD) (i := x) 0
    (by rw [tD x]; simp) (by rw [gD2]; simp)
  refine ⟨sF, ?_, ?_, ?_⟩
  · rw [exec_cons_of_step _ hB, exec_cons_of_step _ hD, exec_cons_of_step _ hF]
    rfl
  · rw [gF, gD2]
    simp
  · intro i
    rw [tF i, tD i, tB i]
    by_cases h1 : i = x
    · simp [h1]
    · by_cases h2 : i = y
      · simp [h2, hyx]
      · simp [h1, h2]

theorem overtake_init (c k j : Nat) :
    (init (overtake_manifest c k)).threads[j]? =
      if j = 0 then some ⟨false, Pc.start⟩
      else if j ≤ c + k then some ⟨true, Pc.start⟩ else none := by
  rw [init_get]
  match j with
  | 0 => simp [overtake_manifest]
  | i + 1 =>
    simp only [overtake_manifest, List.getElem?_cons_succ, List.getElem?_replicate]
    by_cases hi : i < c + k
    · have : i + 1 ≤ c + k := by omega
      simp [hi, this]
    · have : ¬ i + 1 ≤ c + k := by omega
      simp [hi, this]

/-- After the start the place is full and the normal client waits. -/
theorem overtake_start_runs (c k : Nat) (hc : 1 ≤ c) :
    ∃ s, exec c (init (overtake_manifest c k)) (overtake_start c) = some s ∧
      s.gate = ⟨(c : Int), 0, 1⟩ ∧ ∀ i, s.threads[i]? = overtake_threads c k 0 i := by
  have t0 := overtake_init c k
  obtain ⟨sA, hA, gA, tA⟩ := run_each_admits (C := (c : Int)) c
    (init (overtake_manifest c k)) 1
    (by
      intro j h1 h2
      rw [t0 j]
      have e1 : j ≠ 0 := by omega
      have e2 : j ≤ c + k := by omega
      simp only [e1, e2, if_false, if_true])
    (by simp [init_gate])
  have gA2 : sA.gate = ⟨(c : Int), 0, 0⟩ := by rw [gA]; simp [init_gate]
  obtain ⟨sC, hC, gC, tC⟩ := run_normal_arrive_block (C := (c : Int)) (s := sA)
    (i := 0) 0 (by rw [tA 0, t0 0]; simp) (by rw [gA2]; left; exact Int.le_refl _)
  refine ⟨sC, ?_, ?_, ?_⟩
  · unfold overtake_start
    rw [exec_append _ _ _ _ hA, exec_cons_of_step _ hC]
    rfl
  · rw [gC, gA2]; simp
  · intro i
    rw [tC i, tA i, t0 i]
    unfold overtake_threads
    by_cases h0 : i = 0
    · simp [h0]
    · by_cases h1 : 1 ≤ i ∧ i < 1 + c
      · have e1 : ¬ i ≤ 0 := by omega
        have e2 : i ≤ c := by omega
        simp [h0, h1, e2]
      · have e1 : ¬ i ≤ 0 := by omega
        have e2 : ¬ i ≤ c := by omega
        simp [h0, h1, e2]

/-- The rounds of overtaking, one VIP admitted per round. -/
theorem overtake_rounds_run (c k : Nat) (hc : 1 ≤ c) (s0 : Sys)
    (hg0 : s0.gate = ⟨(c : Int), 0, 1⟩) (ht0 : ∀ i, s0.threads[i]? = overtake_threads c k 0 i) :
    ∀ j, j ≤ k → ∃ s, exec c s0 (overtake_rounds c j) = some s ∧
      s.gate = ⟨(c : Int), 0, 1⟩ ∧ ∀ i, s.threads[i]? = overtake_threads c k j i := by
  intro j
  induction j with
  | zero =>
    intro _
    exact ⟨s0, rfl, hg0, ht0⟩
  | succ j ih =>
    intro hj
    obtain ⟨s, hs, hg, ht⟩ := ih (by omega)
    obtain ⟨s1, h1, g1, t1⟩ := overtake_round_runs (C := (c : Int)) (s := s)
      (x := c + (j + 1)) (y := j + 1) (v := true) (n := 1) hg
      (by
        rw [ht]
        unfold overtake_threads
        have e0 : c + (j + 1) ≠ 0 := by omega
        have e1 : ¬ c + (j + 1) ≤ j := by omega
        have e2 : ¬ c + (j + 1) ≤ c + j := by omega
        have e3 : c + (j + 1) ≤ c + k := by omega
        simp only [e0, e1, e2, e3, if_false, if_true])
      (by
        rw [ht]
        unfold overtake_threads
        have e0 : j + 1 ≠ 0 := by omega
        have e1 : ¬ j + 1 ≤ j := by omega
        have e2 : j + 1 ≤ c + j := by omega
        simp only [e0, e1, e2, if_false, if_true])
    refine ⟨s1, ?_, g1, ?_⟩
    · simp only [overtake_rounds]
      rw [exec_append _ _ _ _ hs]
      exact h1
    · intro i
      rw [t1 i, ht i]
      unfold overtake_threads
      by_cases h0 : i = 0
      · have : ¬ (0 = c + (j + 1)) := by omega
        simp [h0, this]
      · by_cases hx : i = c + (j + 1)
        · have e1 : ¬ c + (j + 1) ≤ j + 1 := by omega
          simp [hx, e1]
        · by_cases hy : i = j + 1
          · have e1 : ¬ (j + 1 = c + (j + 1)) := by omega
            simp [hy, e1]
          · by_cases a1 : i ≤ j
            · have a2 : i ≤ j + 1 := by omega
              simp [h0, hx, hy, a1, a2]
            · have a2 : ¬ i ≤ j + 1 := by omega
              by_cases a3 : i ≤ c + j
              · have a4 : i ≤ c + (j + 1) := by omega
                simp [h0, hx, hy, a1, a2, a3, a4]
              · have a4 : ¬ i ≤ c + (j + 1) := by omega
                simp [h0, hx, hy, a1, a2, a3, a4]

/-- C21: normal clients can be overtaken without bound.  For every capacity of at
least one and every `k` there is an execution in which a normal client has registered
and waits while `k` VIPs have not yet arrived, and which continues to a state where
all `k` of those VIPs have been admitted and the normal client is still waiting. -/
theorem normal_overtaken_without_bound (CAPACITY : Int) (hcap : 1 ≤ CAPACITY) (k : Nat) :
    ∃ (manifest : List Bool) (sched1 sched2 : List Act) (s1 s2 : Sys) (n b : Nat),
      exec CAPACITY (init manifest) sched1 = some s1 ∧
      exec CAPACITY s1 sched2 = some s2 ∧
      s1.threads[n]? = some ⟨false, Pc.blocked⟩ ∧
      0 < s1.gate.waiting_normal ∧
      s2.threads[n]? = some ⟨false, Pc.blocked⟩ ∧
      ∀ j, b ≤ j → j < b + k →
        s1.threads[j]? = some ⟨true, Pc.start⟩ ∧
        (s2.threads[j]? = some ⟨true, Pc.inside⟩ ∨
          s2.threads[j]? = some ⟨true, Pc.done⟩) := by
  obtain ⟨c, rfl⟩ := Int.eq_ofNat_of_zero_le (by omega : 0 ≤ CAPACITY)
  have hc : 1 ≤ c := by exact_mod_cast hcap
  obtain ⟨s1, h1, g1, t1⟩ := overtake_start_runs c k hc
  obtain ⟨s2, h2, _, t2⟩ := overtake_rounds_run c k hc s1 g1 t1 k (Nat.le_refl k)
  refine ⟨overtake_manifest c k, overtake_start c, overtake_rounds c k, s1, s2, 0, c + 1,
    h1, h2, ?_, ?_, ?_, ?_⟩
  · rw [t1]; rfl
  · rw [g1]; exact Int.one_pos
  · rw [t2]; rfl
  · intro j hb hj
    rw [t1, t2]
    unfold overtake_threads
    have e0 : j ≠ 0 := by omega
    have e1 : ¬ j ≤ 0 := by omega
    have e2 : ¬ j ≤ c + 0 := by omega
    have e3 : j ≤ c + k := by omega
    refine ⟨by simp only [e0, e1, e2, e3, if_false, if_true], ?_⟩
    by_cases a : j ≤ k
    · right
      simp only [e0, a, if_false, if_true]
    · left
      simp only [e0, a, e3, if_false, if_true]

theorem normal_overtaken_without_bound_witness :
    view (outcome 1 (overtake_manifest 1 2) (overtake_start 1 ++ overtake_rounds 1 2))
      = (⟨1, 0, 1⟩, [⟨false, Pc.blocked⟩, ⟨true, Pc.done⟩, ⟨true, Pc.done⟩,
          ⟨true, Pc.inside⟩]) ∧
    ∃ (manifest : List Bool) (sched1 sched2 : List Act) (s1 s2 : Sys) (n b : Nat),
      exec 1 (init manifest) sched1 = some s1 ∧
      exec 1 s1 sched2 = some s2 ∧
      s1.threads[n]? = some ⟨false, Pc.blocked⟩ ∧
      0 < s1.gate.waiting_normal ∧
      s2.threads[n]? = some ⟨false, Pc.blocked⟩ ∧
      ∀ j, b ≤ j → j < b + 2 →
        s1.threads[j]? = some ⟨true, Pc.start⟩ ∧
        (s2.threads[j]? = some ⟨true, Pc.inside⟩ ∨
          s2.threads[j]? = some ⟨true, Pc.done⟩) :=
  ⟨rfl, normal_overtaken_without_bound 1 (by decide) 2⟩

/-! ## `espacio` -/

/-- The ceiling of `blocks * 512 / 1024` is `(blocks + 1) / 2` in exact arithmetic. -/
theorem ceil_kilobytes_eq (b : Nat) : ceil_kilobytes b = (b + 1) / 2 := by
  unfold ceil_kilobytes
  rcases Nat.even_or_odd' b with ⟨m, rfl | rfl⟩
  · have e : (2 * m + 1) / 2 = m := by omega
    rw [e]
    have : (((2 * m : Nat) : ℚ) * 512) / 1024 = (m : ℚ) := by
      push_cast; ring
    rw [this, Nat.ceil_natCast]
  · have e : (2 * m + 1 + 1) / 2 = m + 1 := by omega
    rw [e, Nat.ceil_eq_iff (by omega)]
    constructor
    · have : m + 1 - 1 = m := by omega
      rw [this]
      push_cast
      linarith
    · push_cast
      linarith

/-- The one value where the `size_t` addition wraps: at the largest `size_t` value the
program would print 0.  A sum of `st_blocks` values does not reach it. -/
theorem kbytes_at_size_max (w : Nat) (hw : 1 ≤ w) :
    kbytes w (2 ^ w - 1) = 0 ∧ ceil_kilobytes (2 ^ w - 1) = 2 ^ (w - 1) := by
  have hpos : 0 < 2 ^ w := Nat.pos_pow_of_pos w (by decide)
  obtain ⟨v, rfl⟩ : ∃ v, w = v + 1 := ⟨w - 1, by omega⟩
  have h2 : 2 ^ (v + 1) = 2 * 2 ^ v := by rw [pow_succ]; ring
  refine ⟨?_, ?_⟩
  · unfold kbytes
    have : 2 ^ (v + 1) - 1 + 1 = 2 ^ (v + 1) := by omega
    rw [this, Nat.mod_self]
  · rw [ceil_kilobytes_eq]
    have : v + 1 - 1 = v := by omega
    rw [this]
    omega

/-- C27: for every total block count `b` below the largest `size_t` value, of any
width, the size `espacio` prints, `(b + 1) / 2` computed in `size_t` arithmetic, is
the ceiling of `b * 512 / 1024`. -/
theorem kbytes_is_ceiling (w b : Nat) (hb : b < 2 ^ w - 1) :
    kbytes w b = ceil_kilobytes b := by
  rw [ceil_kilobytes_eq]
  unfold kbytes
  rw [Nat.mod_eq_of_lt (by omega)]

theorem kbytes_is_ceiling_witness :
    (kbytes 64 7 = 4 ∧ kbytes 64 8 = 4 ∧ kbytes 64 0 = 0 ∧
      kbytes 64 18446744073709551614 = 9223372036854775807) ∧
    kbytes 64 18446744073709551614 = ceil_kilobytes 18446744073709551614 :=
  ⟨by decide, kbytes_is_ceiling 64 18446744073709551614 (by decide)⟩

/-! ## The string file round trip -/

theorem count_loop_string (s post : List Nat) (h : ∀ c ∈ s, c ≠ 0) :
    ∀ l, count_loop (s ++ 0 :: post) l = some (l + s.length + 1) := by
  induction s with
  | nil => intro l; simp [count_loop]
  | cons c s ih =>
    intro l
    have hc : c ≠ 0 := h c (List.mem_cons_self _ _)
    have ih2 := ih (fun d hd => h d (List.mem_cons_of_mem _ hd)) (l + 1)
    have e : count_loop (c :: (s ++ 0 :: post)) l = count_loop (s ++ 0 :: post) (l + 1) := by
      simp [count_loop, hc]
    rw [List.cons_append, e, ih2, List.length_cons]
    congr 1
    omega

theorem takeWhile_string (s post : List Nat) (h : ∀ c ∈ s, c ≠ 0) :
    (s ++ 0 :: post).takeWhile (fun c => c != 0) = s := by
  induction s with
  | nil => simp
  | cons c s ih =>
    have hc : c ≠ 0 := h c (List.mem_cons_self _ _)
    simp [List.takeWhile_cons, hc, ih (fun d hd => h d (List.mem_cons_of_mem _ hd))]

/-- On a file that holds a NUL-free string and its terminator at the read position,
`loadstr` returns the string with its terminator and stops right after it. -/
theorem loadstr_at (pre s post : List Nat) (h : ∀ c ∈ s, c ≠ 0) :
    loadstr ⟨pre ++ (s ++ 0 :: post), pre.length⟩ =
      (Loaded.buffer (s ++ [0]), ⟨pre ++ (s ++ 0 :: post), pre.length + (s.length + 1)⟩) := by
  have hget : ∃ ch, (pre ++ (s ++ 0 :: post))[pre.length]? = some ch := by
    rw [List.getElem?_append_right (Nat.le_refl _), Nat.sub_self]
    cases s with
    | nil => exact ⟨0, by simp⟩
    | cons c s => exact ⟨c, by simp⟩
  obtain ⟨ch, hch⟩ := hget
  have hcount := count_loop_string s post h 0
  have htake : List.take (s.length + 1) (s ++ 0 :: post) = s ++ [0] := by
    have : s ++ 0 :: post = (s ++ [0]) ++ post := by simp
    rw [this, List.take_left']
    simp
  simp only [loadstr, fgetc, hch, ungetc, ftell, fseek, fread, Nat.add_sub_cancel,
    List.drop_left, hcount, Nat.zero_add, htake, List.length_append, List.length_singleton,
    lt_self_iff_false, if_false]

theorem loadstr_eof (data : List Nat) :
    loadstr ⟨data, data.length⟩ = (Loaded.null, ⟨data, data.length⟩) := by
  simp [loadstr, fgetc]

theorem string_file_cons (s : List Nat) (rest : List (List Nat)) :
    string_file (s :: rest) = s ++ 0 :: string_file rest := by
  simp [string_file]

theorem string_file_append (a b : List (List Nat)) :
    string_file (a ++ b) = string_file a ++ string_file b := by
  simp [string_file]

theorem read_loop_strings (strs : List (List Nat)) :
    ∀ (pre out : List Nat) (fuel : Nat), (∀ s ∈ strs, ∀ c ∈ s, c ≠ 0) → strs.length < fuel →
      read_loop fuel ⟨pre ++ string_file strs, pre.length⟩ out = some (0, out ++ lines_of strs) := by
  induction strs with
  | nil =>
    intro pre out fuel _ hf
    obtain ⟨n, rfl⟩ : ∃ n, fuel = n + 1 := ⟨fuel - 1, by simp at hf; omega⟩
    have : pre ++ string_file [] = pre := by simp [string_file]
    rw [this]
    simp [read_loop, loadstr_eof, lines_of]
  | cons s rest ih =>
    intro pre out fuel h hf
    obtain ⟨n, rfl⟩ : ∃ n, fuel = n + 1 := ⟨fuel - 1, by simp at hf; omega⟩
    have hs : ∀ c ∈ s, c ≠ 0 := h s (List.mem_cons_self _ _)
    have hl := loadstr_at pre s (string_file rest) hs
    rw [string_file_cons]
    simp only [read_loop, hl]
    have e1 : pre ++ (s ++ 0 :: string_file rest) = (pre ++ (s ++ [0])) ++ string_file rest := by
      simp
    have e2 : pre.length + (s.length + 1) = (pre ++ (s ++ [0])).length := by simp
    rw [e1, e2, ih (pre ++ (s ++ [0])) _ n (fun t ht => h t (List.mem_cons_of_mem _ ht))
      (by simp at hf; omega)]
    have e3 : printf_line (s ++ [0]) = s ++ [10] := by
      unfold printf_line
      rw [takeWhile_string s [] hs]
    rw [e3]
    simp [lines_of]

theorem write_loop_strings (strs : List (List Nat)) :
    ∀ (out : List Nat), (∀ s ∈ strs, ∀ c ∈ s, c ≠ 0) →
      strs.foldl (fun out arg =>
        let len := strlen (c_string arg) + 1
        out ++ (c_string arg).take len) out = out ++ string_file strs := by
  induction strs with
  | nil => intro out _; simp [string_file]
  | cons s rest ih =>
    intro out h
    have hs : ∀ c ∈ s, c ≠ 0 := h s (List.mem_cons_self _ _)
    have e1 : strlen (c_string s) = s.length := by
      unfold strlen c_string
      rw [takeWhile_string s [] hs]
    have e2 : List.take (s.length + 1) (c_string s) = s ++ [0] := by
      unfold c_string
      rw [List.take_of_length_le (by simp)]
    simp only [List.foldl_cons, e1, e2]
    rw [ih _ (fun t ht => h t (List.mem_cons_of_mem _ ht)), string_file_cons]
    simp

/-- C25: round trip of the string file format.  For NUL-free strings, `write_strings`
writes each string followed by one NUL byte; on that file successive calls of `loadstr`
return the strings in order (with their terminators) and then NULL, and `read_strings`
ends successfully having printed each string on a line of its own. -/
theorem string_file_round_trip (prog name : List Nat) (strs : List (List Nat))
    (h : ∀ s ∈ strs, ∀ c ∈ s, c ≠ 0) :
    write_strings (prog :: name :: strs) = some (string_file strs) ∧
    (∀ k (hk : k < strs.length),
      loadstr ⟨string_file strs, (string_file (strs.take k)).length⟩ =
        (Loaded.buffer (strs[k] ++ [0]),
          ⟨string_file strs, (string_file (strs.take (k + 1))).length⟩)) ∧
    loadstr ⟨string_file strs, (string_file strs).length⟩ =
      (Loaded.null, ⟨string_file strs, (string_file strs).length⟩) ∧
    ∀ fuel, strs.length < fuel →
      read_strings fuel (string_file strs) = some (0, lines_of strs) := by
  refine ⟨?_, ?_, loadstr_eof _, ?_⟩
  · have := write_loop_strings strs [] h
    simp only [write_strings, List.length_cons, List.drop_succ_cons, List.drop_zero]
    rw [if_neg (by omega), this]
    simp
  · intro k hk
    have hsplit : strs = strs.take k ++ strs[k] :: strs.drop (k + 1) := by
      rw [List.getElem_cons_drop _ _ hk, List.take_append_drop]
    have hk1 : strs.take (k + 1) = strs.take k ++ [strs[k]] := by
      rw [List.take_succ, List.getElem?_eq_getElem hk]
      rfl
    have hfile : string_file strs =
        string_file (strs.take k) ++ (strs[k] ++ 0 :: string_file (strs.drop (k + 1))) := by
      conv_lhs => rw [hsplit]
      rw [string_file_append, string_file_cons]
    have hlen : (string_file (strs.take (k + 1))).length =
        (string_file (strs.take k)).length + (strs[k].length + 1) := by
      rw [hk1, string_file_append, string_file_cons]
      simp [string_file]
    rw [hlen]
    conv_lhs => rw [hfile]
    rw [loadstr_at _ _ _ (h _ (List.getElem_mem _)), ← hfile]
  · intro fuel hf
    have := read_loop_strings strs [] [] fuel h hf
    simpa [read_strings] using this

theorem string_file_round_trip_witness :
    (write_strings [[119], [102], [104, 105], [], [97]] = some [104, 105, 0, 0, 97, 0] ∧
      read_strings 4 [104, 105, 0, 0, 97, 0] = some (0, [104, 105, 10, 10, 97, 10])) ∧
    (write_strings ([119] :: [102] :: [[104, 105], [], [97]])
        = some (string_file [[104, 105], [], [97]]) ∧
    (∀ k (hk : k < [[104, 105], [], [97]].length),
      loadstr ⟨string_file [[104, 105], [], [97]],
          (string_file ([[104, 105], [], [97]].take k)).length⟩ =
        (Loaded.buffer ([[104, 105], [], [97]][k] ++ [0]),
          ⟨string_file [[104, 105], [], [97]],
            (string_file ([[104, 105], [], [97]].take (k + 1))).length⟩)) ∧
    loadstr ⟨string_file [[104, 105], [], [97]], (string_file [[104, 105], [], [97]]).length⟩ =
      (Loaded.null, ⟨string_file [[104, 105], [], [97]],
        (string_file [[104, 105], [], [97]]).length⟩) ∧
    ∀ fuel, [[104, 105], [], [97]].length < fuel →
      read_strings fuel (string_file [[104, 105], [], [97]])
        = some (0, lines_of [[104, 105], [], [97]])) :=
  ⟨by decide, string_file_round_trip [119] [102] [[104, 105], [], [97]] (by decide)⟩

/-! ## Mode B: the final file in any order of the writes -/

theorem length_pwrite (file buf : List Nat) (offset : Nat) :
    (pwrite file buf offset).length =
      if buf.length = 0 then file.length else max file.length (offset + buf.length) := by
  unfold pwrite
  split_ifs <;> simp

theorem byte_at_of_le {file : List Nat} {k : Nat} (h : file.length ≤ k) : byte_at file k = 0 := by
  unfold byte_at
  rw [List.getElem?_eq_none h]
  rfl

theorem byte_at_pwrite (file buf : List Nat) (offset k : Nat) :
    byte_at (pwrite file buf offset) k =
      if offset ≤ k ∧ k < offset + buf.length then byte_at buf (k - offset)
      else byte_at file k := by
  unfold pwrite
  by_cases hb : buf.length = 0
  · rw [if_pos hb, if_neg (by omega)]
  · rw [if_neg hb]
    by_cases hk : k < max file.length (offset + buf.length)
    · conv_lhs => unfold byte_at
      rw [List.getElem?_map, List.getElem?_range hk]
      rfl
    · rw [byte_at_of_le (by simpa using hk)]
      have h1 : ¬ (offset ≤ k ∧ k < offset + buf.length) := by
        intro h
        apply hk
        exact lt_of_lt_of_le h.2 (le_max_right _ _)
      rw [if_neg h1, byte_at_of_le]
      exact le_trans (le_max_left _ _) (not_lt.mp hk)

theorem ext_byte_at {a b : List Nat} (hl : a.length = b.length)
    (h : ∀ k, byte_at a k = byte_at b k) : a = b := by
  apply List.ext_getElem hl
  intro k h1 h2
  have := h k
  unfold byte_at at this
  rw [List.getElem?_eq_getElem h1, List.getElem?_eq_getElem h2] at this
  simpa using this

/-- Writes to disjoint ranges commute. -/
theorem pwrite_comm (file : List Nat) (a b : Write) (h : disjoint_writes a b) :
    pwrite (pwrite file a.buf a.offset) b.buf b.offset =
      pwrite (pwrite file b.buf b.offset) a.buf a.offset := by
  unfold disjoint_writes at h
  apply ext_byte_at
  · simp only [length_pwrite]
    split_ifs <;> omega
  · intro k
    simp only [byte_at_pwrite]
    split_ifs <;> first | rfl | omega

theorem modo_B_writes_disjoint :
    ∀ x ∈ modo_B_writes, ∀ y ∈ modo_B_writes, x = y ∨ disjoint_writes x y := by
  decide

theorem run_writes_perm (order : List Write) (h : order.Perm modo_B_writes) :
    run_writes order = run_writes modo_B_writes := by
  unfold run_writes
  apply List.Perm.foldl_eq' h
  intro x hx y hy z
  rcases modo_B_writes_disjoint x (h.subset hx) y (h.subset hy) with e | e
  · rw [e]
  · exact pwrite_comm z x y e

set_option maxRecDepth 100000 in
theorem run_writes_program_order : run_writes modo_B_writes = modo_B_expected := by
  decide

set_option maxRecDepth 100000 in
theorem modo_B_writes_pairwise : modo_B_writes.Pairwise disjoint_writes := by
  decide

theorem modo_B_writes_sizes : ∀ w ∈ modo_B_writes, w.buf.length = 5 := by
  decide

set_option maxRecDepth 100000 in
theorem modo_B_expected_blocks :
    modo_B_expected.length = 90 ∧
    ∀ j, j < 9 →
      (modo_B_expected.drop (10 * j)).take 5 = List.replicate 5 48 ∧
      (modo_B_expected.drop (10 * j + 5)).take 5 = List.replicate 5 (48 + (j + 1)) := by
  decide

/-- C28: mode B of the fixed-offset writer.  Every interleaving of the parent and its
nine children performs the eighteen writes of `modo_B_writes` in some order.  In any
order the writes are to pairwise disjoint ranges of five bytes, and the final file is
90 bytes long: block `2j` (for `j = 0..8`) is `"00000"` and block `2j+1` is five
copies of the digit `j+1`. -/
theorem modo_B_output (order : List Write) (h : order.Perm modo_B_writes) :
    order.Pairwise disjoint_writes ∧
    (∀ w ∈ order, w.buf.length = 5) ∧
    run_writes order = modo_B_expected ∧
    (run_writes order).length = 90 ∧
    ∀ j, j < 9 →
      ((run_writes order).drop (10 * j)).take 5 = List.replicate 5 48 ∧
      ((run_writes order).drop (10 * j + 5)).take 5 = List.replicate 5 (48 + (j + 1)) := by
  have e : run_writes order = modo_B_expected := by
    rw [run_writes_perm order h, run_writes_program_order]
  refine ⟨?_, fun w hw => modo_B_writes_sizes w (h.subset hw), e, ?_⟩
  · refine (List.Perm.pairwise_iff ?_ h).2 modo_B_writes_pairwise
    intro x y hxy
    exact Or.symm hxy
  · rw [e]
    exact modo_B_expected_blocks

theorem modo_B_output_witness :
    modo_B_writes.reverse.Perm modo_B_writes ∧
    (modo_B_writes.reverse.Pairwise disjoint_writes ∧
    (∀ w ∈ modo_B_writes.reverse, w.buf.length = 5) ∧
    run_writes modo_B_writes.reverse = modo_B_expected ∧
    (run_writes modo_B_writes.reverse).length = 90 ∧
    ∀ j, j < 9 →
      ((run_writes modo_B_writes.reverse).drop (10 * j)).take 5 = List.replicate 5 48 ∧
      ((run_writes modo_B_writes.reverse).drop (10 * j + 5)).take 5
        = List.replicate 5 (48 + (j + 1))) :=
  ⟨List.reverse_perm _, modo_B_output _ (List.reverse_perm _)⟩

/-! ## `parse_command`: tokens and array bounds -/

theorem skip_spaces_length_le (l : List Nat) : (skip_spaces l).length ≤ l.length := by
  induction l with
  | nil => simp [skip_spaces]
  | cons c r ih =>
    unfold skip_spaces
    split_ifs
    · exact Nat.le_succ_of_le ih
    · exact Nat.le_refl _

theorem skip_spaces_mem (l : List Nat) : ∀ c ∈ skip_spaces l, c ∈ l := by
  induction l with
  | nil => simp [skip_spaces]
  | cons d r ih =>
    intro c hc
    unfold skip_spaces at hc
    split_ifs at hc
    · exact List.mem_cons_of_mem _ (ih c hc)
    · exact hc

/-- After the skip the string is at its end or at a character that is not a space. -/
theorem skip_spaces_head (l : List Nat) (h : ∀ c ∈ l, c ≠ 0) :
    skip_spaces l = [] ∨ ∃ c r, skip_spaces l = c :: r ∧ isspace c = false := by
  induction l with
  | nil => left; rfl
  | cons d r ih =>
    unfold skip_spaces
    by_cases hd : d ≠ 0 ∧ isspace d = true
    · rw [if_pos hd]
      exact ih (fun c hc => h c (List.mem_cons_of_mem _ hc))
    · rw [if_neg hd]
      right
      refine ⟨d, r, rfl, ?_⟩
      have h0 : d ≠ 0 := h d (List.mem_cons_self _ _)
      cases hs : isspace d
      · rfl
      · exact absurd ⟨h0, hs⟩ hd

theorem maximal_runs_nil : maximal_runs [] = [] := by
  simp [maximal_runs]

theorem maximal_runs_space (d : Nat) (r : List Nat) (hd : isspace d = true) :
    maximal_runs (d :: r) = maximal_runs r := by
  simp [maximal_runs, hd]

theorem maximal_runs_skip (l : List Nat) (h : ∀ c ∈ l, c ≠ 0) :
    maximal_runs (skip_spaces l) = maximal_runs l := by
  induction l with
  | nil => rfl
  | cons d r ih =>
    unfold skip_spaces
    by_cases hd : d ≠ 0 ∧ isspace d = true
    · rw [if_pos hd, ih (fun c hc => h c (List.mem_cons_of_mem _ hc)),
        maximal_runs_space d r hd.2]
    · rw [if_neg hd]

theorem token_end_append (l : List Nat) : (token_end l).1 ++ (token_end l).2 = l := by
  induction l with
  | nil => rfl
  | cons c r ih =>
    unfold token_end
    split_ifs
    · simp [ih]
    · rfl

theorem token_end_nospace (l : List Nat) : ∀ c ∈ (token_end l).1, isspace c = false := by
  induction l with
  | nil => simp [token_end]
  | cons d r ih =>
    intro c hc
    unfold token_end at hc
    split_ifs at hc with hd
    · rcases List.mem_cons.1 hc with e | e
      · rw [e]; exact hd.2
      · exact ih c e
    · simp at hc

/-- The scan stops at the end of the string or at a space. -/
theorem token_end_rest (l : List Nat) (h : ∀ c ∈ l, c ≠ 0) :
    (token_end l).2 = [] ∨ ∃ d r, (token_end l).2 = d :: r ∧ isspace d = true := by
  induction l with
  | nil => left; rfl
  | cons c r ih =>
    unfold token_end
    by_cases hc : c ≠ 0 ∧ isspace c = false
    · rw [if_pos hc]
      exact ih (fun d hd => h d (List.mem_cons_of_mem _ hd))
    · rw [if_neg hc]
      right
      refine ⟨c, r, rfl, ?_⟩
      have h0 : c ≠ 0 := h c (List.mem_cons_self _ _)
      cases hs : isspace c
      · exact absurd ⟨h0, hs⟩ hc
      · rfl

theorem token_end_ne_nil (c : Nat) (r : List Nat) (h0 : c ≠ 0) (hs : isspace c = false) :
    (token_end (c :: r)).1 ≠ [] := by
  unfold token_end
  rw [if_pos ⟨h0, hs⟩]
  simp

/-- The token the scan passes over is the first maximal run, and the other runs are
those of what follows. -/
theorem maximal_runs_token (c : Nat) (r : List Nat) (h : ∀ d ∈ c :: r, d ≠ 0)
    (hs : isspace c = false) :
    maximal_runs (c :: r) = (token_end (c :: r)).1 :: maximal_runs (token_end (c :: r)).2 := by
  have happ := token_end_append (c :: r)
  have hne := token_end_ne_nil c r (h c (List.mem_cons_self _ _)) hs
  have hns := token_end_nospace (c :: r)
  have hns2 : ∀ x ∈ (token_end (c :: r)).1, ¬ isspace x = true := by
    intro x hx
    rw [hns x hx]
    simp
  rcases token_end_rest (c :: r) h with e | ⟨d, t, e, hd⟩
  · rw [e, List.append_nil] at happ
    rw [e, maximal_runs_nil]
    conv_lhs => rw [← happ]
    unfold maximal_runs
    rw [List.splitOnP_eq_single _ _ hns2]
    simp [hne]
  · rw [e] at happ
    rw [e, maximal_runs_space d t hd]
    conv_lhs => rw [← happ]
    unfold maximal_runs
    rw [List.splitOnP_first _ _ hns2 d hd]
    simp [hne]

theorem token_end_length (c : Nat) (r : List Nat) (h0 : c ≠ 0) (hs : isspace c = false) :
    (token_end (c :: r)).2.length < (c :: r).length := by
  have happ := congrArg List.length (token_end_append (c :: r))
  have hne := token_end_ne_nil c r h0 hs
  have : 0 < (token_end (c :: r)).1.length := List.length_pos.2 hne
  rw [List.length_append] at happ
  omega

theorem maximal_runs_spec (l : List Nat) :
    ∀ t ∈ maximal_runs l, t ≠ [] ∧ ∀ c ∈ t, isspace c = false := by
  intro t ht
  unfold maximal_runs at ht
  rw [List.mem_filter] at ht
  refine ⟨by simpa using ht.2, ?_⟩
  have key : ∀ (l : List Nat), ∀ t ∈ l.splitOnP isspace, ∀ c ∈ t, isspace c = false := by
    intro l
    induction l with
    | nil => simp
    | cons d r ih =>
      intro t ht c hc
      rw [List.splitOnP_cons] at ht
      by_cases hd : isspace d = true
      · rw [if_pos hd] at ht
        rcases List.mem_cons.1 ht with e | e
        · rw [e] at hc; simp at hc
        · exact ih t e c hc
      · rw [if_neg hd] at ht
        cases hsp : List.splitOnP isspace r with
        | nil => rw [hsp] at ht; simp at ht
        | cons a as =>
          rw [hsp, List.modifyHead_cons] at ht
          rcases List.mem_cons.1 ht with e | e
          · rw [e] at hc
            rcases List.mem_cons.1 hc with e2 | e2
            · rw [e2]; simpa using hd
            · exact ih a (by rw [hsp]; exact List.mem_cons_self _ _) c e2
          · exact ih t (by rw [hsp]; exact List.mem_cons_of_mem _ e) c hc
  exact key l t ht.1

theorem maximal_runs_all_space (l : List Nat) (h : ∀ c ∈ l, isspace c = true) :
    maximal_runs l = [] := by
  induction l with
  | nil => exact maximal_runs_nil
  | cons d r ih =>
    rw [maximal_runs_space d r (h d (List.mem_cons_self _ _))]
    exact ih (fun c hc => h c (List.mem_cons_of_mem _ hc))
theorem int32_of_small (x : Int) (h0 : 0 ≤ x) (h1 : x < 2147483648) : int32 x = x := by
  unfold int32
  omega

theorem length_realloc (argv : List Slot) (n : Nat) (h : argv.length ≤ n) :
    (realloc argv n).length = n := by
  unfold realloc
  simp
  omega

theorem realloc_keeps (argv : List Slot) (n k : Nat) (hk : k < argv.length)
    (h : argv.length ≤ n) : (realloc argv n)[k]? = argv[k]? := by
  unfold realloc
  rw [List.getElem?_take_of_lt (by omega), List.getElem?_append_left hk]

theorem store_lt (argv : List Slot) (n : Nat) (x : Slot) (h : n < argv.length) :
    store argv (n : Int) x = some (argv.set n x) := by
  simp [store, h]

/-- One round of the main loop: the token at `start` is stored at index `count`,
inside the array, which has been doubled first if `count` had reached its last
entry. -/
theorem parse_loop_step (fuel : Nat) (c : Nat) (r : List Nat) (argv_size : Nat)
    (argv : List Slot) (n : Nat) (writes : List (Int × Nat))
    (h0 : c ≠ 0) (hlen : argv.length = argv_size) (hn : n < argv_size)
    (hsize : argv_size ≤ 10 ∨ argv_size ≤ 2 * n) (hsmall : n + (c :: r).length < 1073741824) :
    ∃ (size1 : Nat) (argv2 : List Slot),
      parse_loop (fuel + 1) (c :: r) argv_size argv (n : Int) writes =
        parse_loop fuel (skip_spaces (token_end (c :: r)).2) size1 argv2 ((n + 1 : Nat) : Int)
          (writes ++ [((n : Int), size1)]) ∧
      argv2.length = size1 ∧ n + 1 < size1 ∧ (size1 ≤ 10 ∨ size1 ≤ 2 * (n + 1)) ∧
      (∀ k, k < n → argv2[k]? = argv[k]?) ∧
      argv2[n]? = some (Slot.str ((token_end (c :: r)).1 ++ [0])) := by
  have hl : 1 ≤ (c :: r).length := by simp
  have hint1 : int32 (argv_size : Int) = argv_size := int32_of_small _ (by omega) (by omega)
  have hint2 : int32 ((argv_size : Int) - 1) = (argv_size : Int) - 1 :=
    int32_of_small _ (by omega) (by omega)
  have hint3 : int32 ((n : Int) + 1) = ((n + 1 : Nat) : Int) := by
    rw [int32_of_small _ (by omega) (by omega)]
    push_cast
    rfl
  by_cases hg : (argv_size : Int) - 1 ≤ (n : Int)
  · have hsz : size_t (argv_size * 2) = argv_size * 2 := by
      unfold size_t
      omega
    have hst := store_lt (realloc argv (argv_size * 2)) n
      (Slot.str ((token_end (c :: r)).1 ++ [0]))
      (by rw [length_realloc _ _ (by omega)]; omega)
    refine ⟨argv_size * 2, (realloc argv (argv_size * 2)).set n
      (Slot.str ((token_end (c :: r)).1 ++ [0])), ?_, ?_, by omega, by omega, ?_, ?_⟩
    · rw [parse_loop, List.headD_cons, if_neg h0]
      dsimp only
      rw [hint1, hint2, decide_eq_true hg, if_pos rfl, if_pos rfl, hsz, hst, hint3]
    · rw [List.length_set, length_realloc _ _ (by omega)]
    · intro k hk
      rw [List.getElem?_set_ne (by omega), realloc_keeps _ _ _ (by omega) (by omega)]
    · rw [List.getElem?_set_self (by rw [length_realloc _ _ (by omega)]; omega)]
  · have hst := store_lt argv n (Slot.str ((token_end (c :: r)).1 ++ [0])) (by omega)
    refine ⟨argv_size, argv.set n (Slot.str ((token_end (c :: r)).1 ++ [0])), ?_, ?_,
      by omega, by omega, ?_, ?_⟩
    · rw [parse_loop, List.headD_cons, if_neg h0]
      dsimp only
      rw [hint1, hint2, decide_eq_false hg, if_neg (by decide), if_neg (by decide), hst, hint3]
    · rw [List.length_set, hlen]
    · intro k hk
      rw [List.getElem?_set_ne (by omega)]
    · rw [List.getElem?_set_self (by omega)]
/-- At the end of the string the loop stores `NULL` at index `count` and returns. -/
theorem parse_loop_end (fuel : Nat) (argv_size : Nat) (argv : List Slot) (n : Nat)
    (writes : List (Int × Nat)) (hlen : argv.length = argv_size) (hn : n < argv_size) :
    parse_loop (fuel + 1) [] argv_size argv (n : Int) writes =
      some (Parsed.ok (argv.set n Slot.null) (n : Int) (writes ++ [((n : Int), argv_size)])) := by
  rw [parse_loop, List.headD_nil, if_pos rfl, store_lt argv n Slot.null (by omega)]

/-- The main loop, from a position at the start of a token or at the end of the
string: with enough fuel it returns; the entries from `count` on hold the maximal
runs of the rest of the string, then `NULL`; and every index written is below
`argv_size`. -/
theorem parse_loop_spec : ∀ (fuel : Nat) (start : List Nat) (argv_size : Nat)
    (argv : List Slot) (n : Nat) (writes : List (Int × Nat)),
    start.length < fuel → (∀ c ∈ start, c ≠ 0) →
    (start = [] ∨ ∃ c r, start = c :: r ∧ isspace c = false) →
    argv.length = argv_size → n < argv_size → (argv_size ≤ 10 ∨ argv_size ≤ 2 * n) →
    n + start.length < 1073741824 →
    ∃ (argv1 : List Slot) (writes1 : List (Int × Nat)),
      parse_loop fuel start argv_size argv (n : Int) writes =
        some (Parsed.ok argv1 ((n + (maximal_runs start).length : Nat) : Int)
          (writes ++ writes1)) ∧
      (∀ k, k < n → argv1[k]? = argv[k]?) ∧
      (∀ k (hk : k < (maximal_runs start).length),
        argv1[n + k]? = some (Slot.str ((maximal_runs start)[k] ++ [0]))) ∧
      argv1[n + (maximal_runs start).length]? = some Slot.null ∧
      writes1.length = (maximal_runs start).length + 1 ∧
      (∀ w ∈ writes1, 0 ≤ w.1 ∧ w.1 < (w.2 : Int)) := by
  intro fuel
  induction fuel with
  | zero =>
    intro start argv_size argv n writes hf
    exact absurd hf (Nat.not_lt_zero _)
  | succ fuel ih =>
    intro start argv_size argv n writes hf hnul hready hlen hn hsize hsmall
    rcases hready with rfl | ⟨c, r, rfl, hs⟩
    · refine ⟨argv.set n Slot.null, [((n : Int), argv_size)], ?_, ?_, ?_, ?_, ?_, ?_⟩
      · rw [parse_loop_end fuel argv_size argv n writes hlen hn, maximal_runs_nil]
        rfl
      · intro k hk
        rw [List.getElem?_set_ne (by omega)]
      · intro k hk
        rw [maximal_runs_nil] at hk
        exact absurd hk (Nat.not_lt_zero _)
      · rw [maximal_runs_nil]
        exact List.getElem?_set_self (by rw [hlen]; exact hn)
      · rw [maximal_runs_nil]
        rfl
      · intro w hw
        rw [List.mem_singleton] at hw
        rw [hw]
        exact ⟨by omega, by simp only; omega⟩
    · have h0 : c ≠ 0 := hnul c (List.mem_cons_self _ _)
      obtain ⟨size1, argv2, hstep, hlen2, hn2, hsize2, hkeep, hat⟩ :=
        parse_loop_step fuel c r argv_size argv n writes h0 hlen hn hsize hsmall
      have hrestlen := token_end_length c r h0 hs
      have hskiplen := skip_spaces_length_le (token_end (c :: r)).2
      have hrestmem : ∀ d ∈ (token_end (c :: r)).2, d ≠ 0 := by
        intro d hd
        apply hnul d
        rw [← token_end_append (c :: r)]
        exact List.mem_append_right _ hd
      have hskipmem : ∀ d ∈ skip_spaces (token_end (c :: r)).2, d ≠ 0 :=
        fun d hd => hrestmem d (skip_spaces_mem _ d hd)
      have hruns : maximal_runs (c :: r) =
          (token_end (c :: r)).1 :: maximal_runs (skip_spaces (token_end (c :: r)).2) := by
        rw [maximal_runs_token c r hnul hs, maximal_runs_skip _ hrestmem]
      obtain ⟨argv1, writes1, hrun, hkeep1, htok1, hnull1, hwl1, hw1⟩ :=
        ih (skip_spaces (token_end (c :: r)).2) size1 argv2 (n + 1)
          (writes ++ [((n : Int), size1)])
          (by simp only [List.length_cons] at hf hrestlen; omega) hskipmem
          (skip_spaces_head _ hrestmem) hlen2 hn2 hsize2
          (by simp only [List.length_cons] at hsmall hrestlen ⊢; omega)
      refine ⟨argv1, ((n : Int), size1) :: writes1, ?_, ?_, ?_, ?_, ?_, ?_⟩
      · rw [hstep, hrun, hruns, List.length_cons, List.append_assoc]
        have e : n + 1 + (maximal_runs (skip_spaces (token_end (c :: r)).2)).length =
            n + ((maximal_runs (skip_spaces (token_end (c :: r)).2)).length + 1) := by omega
        rw [e]
        rfl
      · intro k hk
        rw [hkeep1 k (by omega), hkeep k hk]
      · intro k hk
        have hk2 : k < ((token_end (c :: r)).1 ::
            maximal_runs (skip_spaces (token_end (c :: r)).2)).length := by
          rw [← hruns]; exact hk
        have hget : (maximal_runs (c :: r))[k] = ((token_end (c :: r)).1 ::
            maximal_runs (skip_spaces (token_end (c :: r)).2))[k] := by
          simp only [hruns]
        rw [hget]
        cases k with
        | zero =>
          rw [Nat.add_zero, hkeep1 n (by omega), hat]
          rfl
        | succ j =>
          have hj : j < (maximal_runs (skip_spaces (token_end (c :: r)).2)).length := by
            simp only [List.length_cons] at hk2; omega
          have e : n + (j + 1) = n + 1 + j := by omega
          rw [e, htok1 j hj]
          rfl
      · rw [hruns, List.length_cons]
        have e : n + ((maximal_runs (skip_spaces (token_end (c :: r)).2)).length + 1) =
            n + 1 + (maximal_runs (skip_spaces (token_end (c :: r)).2)).length := by omega
        rw [e]
        exact hnull1
      · rw [hruns, List.length_cons, List.length_cons, hwl1]
      · intro w hw
        rcases List.mem_cons.1 hw with e | e
        · rw [e]
          exact ⟨by simp only; omega, by simp only; omega⟩
        · exact hw1 w e

/-- What `parse_command` returns on a string of fewer than 2^30 characters. -/
theorem parse_command_spec (cmd : List Nat) (hnul : ∀ c ∈ cmd, c ≠ 0)
    (hlen : cmd.length < 1073741824) (fuel : Nat) (hf : cmd.length < fuel) :
    ∃ (argv : List Slot) (writes : List (Int × Nat)),
      parse_command fuel cmd =
        some (Parsed.ok argv (((maximal_runs cmd).length : Nat) : Int) writes) ∧
      (∀ k (hk : k < (maximal_runs cmd).length),
        argv[k]? = some (Slot.str ((maximal_runs cmd)[k] ++ [0]))) ∧
      argv[(maximal_runs cmd).length]? = some Slot.null ∧
      writes.length = (maximal_runs cmd).length + 1 ∧
      (∀ w ∈ writes, 0 ≤ w.1 ∧ w.1 < (w.2 : Int)) := by
  have hskip := skip_spaces_length_le cmd
  obtain ⟨argv, writes, hrun, _, htok, hnull, hwl, hw⟩ :=
    parse_loop_spec fuel (skip_spaces cmd) 10 (List.replicate 10 Slot.garbage) 0 []
      (by omega) (fun c hc => hnul c (skip_spaces_mem _ c hc)) (skip_spaces_head cmd hnul)
      (by simp) (by omega) (Or.inl (Nat.le_refl _)) (by omega)
  rw [maximal_runs_skip cmd hnul] at hrun htok hnull hwl
  refine ⟨argv, writes, ?_, ?_, ?_, hwl, hw⟩
  · unfold parse_command
    rw [show ((0 : Nat) : Int) = 0 from rfl] at hrun
    rw [hrun, Nat.zero_add, List.nil_append]
  · intro k hk
    have := htok k hk
    rw [Nat.zero_add] at this
    simpa only [maximal_runs_skip cmd hnul] using this
  · rw [Nat.zero_add] at hnull
    exact hnull
/-- C26: `parse_command` returns the maximal runs of non-whitespace characters of `cmd`,
in order, as NUL-terminated copies; `*argc` is their number and `argv[*argc]` is
`NULL`; no token is empty or contains a whitespace character; and a `cmd` that is
empty or all whitespace gives `*argc = 0`.  (Strings of fewer than 2^30 characters,
where the `int` and `size_t` arithmetic of the function is exact.) -/
theorem parse_command_tokens (cmd : List Nat) (hnul : ∀ c ∈ cmd, c ≠ 0)
    (hlen : cmd.length < 1073741824) (fuel : Nat) (hf : cmd.length < fuel) :
    (∃ (argv : List Slot) (writes : List (Int × Nat)),
      parse_command fuel cmd =
        some (Parsed.ok argv (((maximal_runs cmd).length : Nat) : Int) writes) ∧
      (∀ k (hk : k < (maximal_runs cmd).length),
        argv[k]? = some (Slot.str ((maximal_runs cmd)[k] ++ [0]))) ∧
      argv[(maximal_runs cmd).length]? = some Slot.null) ∧
    (∀ t ∈ maximal_runs cmd, t ≠ [] ∧ ∀ c ∈ t, isspace c = false) ∧
    ((∀ c ∈ cmd, isspace c = true) →
      ∃ (argv : List Slot) (writes : List (Int × Nat)),
        parse_command fuel cmd = some (Parsed.ok argv 0 writes) ∧
        argv[0]? = some Slot.null) := by
  obtain ⟨argv, writes, hrun, htok, hnull, _, _⟩ := parse_command_spec cmd hnul hlen fuel hf
  refine ⟨⟨argv, writes, hrun, htok, hnull⟩, maximal_runs_spec cmd, ?_⟩
  intro hall
  have e := maximal_runs_all_space cmd hall
  rw [e] at hrun hnull
  exact ⟨argv, writes, hrun, hnull⟩

theorem parse_command_tokens_witness :
    parse_command 8 [32, 97, 98, 9, 9, 99, 32] =
      some (Parsed.ok
        [Slot.str [97, 98, 0], Slot.str [99, 0], Slot.null, Slot.garbage, Slot.garbage,
          Slot.garbage, Slot.garbage, Slot.garbage, Slot.garbage, Slot.garbage]
        2 [(0, 10), (1, 10), (2, 10)]) ∧
    maximal_runs [32, 97, 98, 9, 9, 99, 32] = [[97, 98], [99]] ∧
    (∃ (argv : List Slot) (writes : List (Int × Nat)),
      parse_command 8 [32, 97, 98, 9, 9, 99, 32] =
        some (Parsed.ok argv (((maximal_runs [32, 97, 98, 9, 9, 99, 32]).length : Nat) : Int)
          writes) ∧
      (∀ k (hk : k < (maximal_runs [32, 97, 98, 9, 9, 99, 32]).length),
        argv[k]? = some (Slot.str ((maximal_runs [32, 97, 98, 9, 9, 99, 32])[k] ++ [0]))) ∧
      argv[(maximal_runs [32, 97, 98, 9, 9, 99, 32]).length]? = some Slot.null) :=
  ⟨by decide, by decide,
    (parse_command_tokens [32, 97, 98, 9, 9, 99, 32] (by decide) (by decide) 8 (by decide)).1⟩

/-- C30: every index `parse_command` writes in its `argv` array, the final
`argv[count] = NULL` included, is below `argv_size` at the time of the write, so no
write falls outside the array.  (Strings of fewer than 2^30 characters, where the
`int` and `size_t` arithmetic of the function is exact.) -/
theorem parse_command_writes_in_bounds (cmd : List Nat) (hnul : ∀ c ∈ cmd, c ≠ 0)
    (hlen : cmd.length < 1073741824) (fuel : Nat) (hf : cmd.length < fuel) :
    ∃ (argv : List Slot) (argc : Nat) (writes : List (Int × Nat)),
      parse_command fuel cmd = some (Parsed.ok argv (argc : Int) writes) ∧
      writes.length = argc + 1 ∧
      (∀ w ∈ writes, 0 ≤ w.1 ∧ w.1 < (w.2 : Int)) ∧
      ∀ (i : Int) (size : Nat), parse_command fuel cmd ≠ some (Parsed.out_of_bounds i size) := by
  obtain ⟨argv, writes, hrun, _, _, hwl, hw⟩ := parse_command_spec cmd hnul hlen fuel hf
  refine ⟨argv, (maximal_runs cmd).length, writes, hrun, hwl, hw, ?_⟩
  intro i size h
  rw [hrun] at h
  simp at h

theorem parse_command_writes_in_bounds_witness :
    parse_command 24
        [97, 32, 98, 32, 99, 32, 100, 32, 101, 32, 102, 32, 103, 32, 104, 32, 105, 32, 106,
          32, 107, 32, 108] =
      some (Parsed.ok
        [Slot.str [97, 0], Slot.str [98, 0], Slot.str [99, 0], Slot.str [100, 0],
          Slot.str [101, 0], Slot.str [102, 0], Slot.str [103, 0], Slot.str [104, 0],
          Slot.str [105, 0], Slot.str [106, 0], Slot.str [107, 0], Slot.str [108, 0],
          Slot.null, Slot.garbage, Slot.garbage, Slot.garbage, Slot.garbage, Slot.garbage,
          Slot.garbage, Slot.garbage]
        12
        [(0, 10), (1, 10), (2, 10), (3, 10), (4, 10), (5, 10), (6, 10), (7, 10), (8, 10),
          (9, 20), (10, 20), (11, 20), (12, 20)]) ∧
    ∃ (argv : List Slot) (argc : Nat) (writes : List (Int × Nat)),
      parse_command 24
          [97, 32, 98, 32, 99, 32, 100, 32, 101, 32, 102, 32, 103, 32, 104, 32, 105, 32, 106,
            32, 107, 32, 108] = some (Parsed.ok argv (argc : Int) writes) ∧
      writes.length = argc + 1 ∧
      (∀ w ∈ writes, 0 ≤ w.1 ∧ w.1 < (w.2 : Int)) ∧
      ∀ (i : Int) (size : Nat),
        parse_command 24
          [97, 32, 98, 32, 99, 32, 100, 32, 101, 32, 102, 32, 103, 32, 104, 32, 105, 32, 106,
            32, 107, 32, 108] ≠ some (Parsed.out_of_bounds i size) :=
  ⟨by decide,
    parse_command_writes_in_bounds
      [97, 32, 98, 32, 99, 32, 100, 32, 101, 32, 102, 32, 103, 32, 104, 32, 105, 32, 106,
        32, 107, 32, 108] (by decide) (by decide) 24 (by decide)⟩

/-! ## The cook and the savages: the invariant -/

theorem count_set_move (l : List SavagePc) (i : Nat) (p q r : SavagePc)
    (h : l[i]? = some p) :
    (l.set i q).count r + (if p = r then 1 else 0) = l.count r + (if q = r then 1 else 0) := by
  induction l generalizing i with
  | nil => simp at h
  | cons a t ih =>
    cases i with
    | zero =>
      simp only [List.getElem?_cons_zero, Option.some.injEq] at h
      subst h
      simp only [List.set_cons_zero, List.count_cons, beq_iff_eq]
      omega
    | succ j =>
      simp only [List.getElem?_cons_succ] at h
      have := ih j h
      simp only [List.set_cons_succ, List.count_cons, beq_iff_eq]
      omega

/-- The six tallies after a savage has moved from statement `p` to statement `q`. -/
theorem count_set_all (l : List SavagePc) (i : Nat) (p q : SavagePc) (h : l[i]? = some p) :
    ((l.set i q).count SavagePc.wait_full + (if p = SavagePc.wait_full then 1 else 0)
      = l.count SavagePc.wait_full + (if q = SavagePc.wait_full then 1 else 0)) ∧
    ((l.set i q).count SavagePc.wait_mutex + (if p = SavagePc.wait_mutex then 1 else 0)
      = l.count SavagePc.wait_mutex + (if q = SavagePc.wait_mutex then 1 else 0)) ∧
    ((l.set i q).count SavagePc.decrement + (if p = SavagePc.decrement then 1 else 0)
      = l.count SavagePc.decrement + (if q = SavagePc.decrement then 1 else 0)) ∧
    ((l.set i q).count SavagePc.test_empty + (if p = SavagePc.test_empty then 1 else 0)
      = l.count SavagePc.test_empty + (if q = SavagePc.test_empty then 1 else 0)) ∧
    ((l.set i q).count SavagePc.post_empty + (if p = SavagePc.post_empty then 1 else 0)
      = l.count SavagePc.post_empty + (if q = SavagePc.post_empty then 1 else 0)) ∧
    ((l.set i q).count SavagePc.post_mutex + (if p = SavagePc.post_mutex then 1 else 0)
      = l.count SavagePc.post_mutex + (if q = SavagePc.post_mutex then 1 else 0)) :=
  ⟨count_set_move l i p q _ h, count_set_move l i p q _ h, count_set_move l i p q _ h,
    count_set_move l i p q _ h, count_set_move l i p q _ h, count_set_move l i p q _ h⟩

theorem potInv_init (M : Int) (hM : 0 ≤ M) (n : Nat) : PotInv M (pot_init n) := by
  have hc : ∀ p, p ≠ SavagePc.wait_full →
      (List.replicate n SavagePc.wait_full).count p = 0 := by
    intro p hp
    rw [List.count_eq_zero]
    intro hmem
    exact hp (List.eq_of_mem_replicate hmem)
  constructor <;>
    simp [pot_init, at_pc, to_post, cook_holds, cook_woken, hc, hM]

/-- A statement of the cook keeps the invariant. -/
theorem cook_step_inv (M : Int) (hM0 : 0 ≤ M) (hM1 : M < 2147483648) {s s1 : Pot}
    (h : PotInv M s) (hs : cook_step M s = some s1) : PotInv M s1 := by
  obtain ⟨hA, hI, hB, hE, hG1, hG2, hL⟩ := h
  obtain ⟨sv, mu, fu, em, fin, ck, svs⟩ := s
  simp only [at_pc] at hA hI hB hE hG1 hG2 hL
  cases ck with
  | loop_test =>
    simp only [cook_step, Option.some.injEq] at hs
    subst hs
    cases fin <;>
      constructor <;>
      simp only [at_pc, to_post, cook_holds, cook_woken, reduceCtorEq, false_or, or_false,
        IsEmpty.forall_iff, implies_true, Bool.false_eq_true, if_false, if_true,
        true_implies, forall_const] at * <;>
      omega
  | wait_empty =>
    simp only [cook_step] at hs
    split_ifs at hs with he
    simp only [Option.some.injEq] at hs
    subst hs
    cases fin <;>
      constructor <;>
      simp only [at_pc, to_post, cook_holds, cook_woken, reduceCtorEq, false_or, or_false,
        IsEmpty.forall_iff, implies_true, Bool.false_eq_true, if_false, if_true,
        true_implies, forall_const] at * <;>
      omega
  | check_finish =>
    simp only [cook_step, Option.some.injEq] at hs
    subst hs
    cases fin <;>
      constructor <;>
      simp only [at_pc, to_post, cook_holds, cook_woken, reduceCtorEq, false_or, or_false,
        IsEmpty.forall_iff, implies_true, Bool.false_eq_true, if_false, if_true,
        true_implies, forall_const, true_or, or_true] at * <;>
      omega
  | wait_mutex =>
    simp only [cook_step] at hs
    split_ifs at hs with he
    simp only [Option.some.injEq] at hs
    subst hs
    cases fin <;>
      constructor <;>
      simp only [at_pc, to_post, cook_holds, cook_woken, reduceCtorEq, false_or, or_false,
        IsEmpty.forall_iff, implies_true, Bool.false_eq_true, if_false, if_true,
        true_implies, forall_const, true_or, or_true] at * <;>
      omega
  | set_servings =>
    simp only [cook_step, Option.some.injEq] at hs
    subst hs
    cases fin <;>
      constructor <;>
      simp only [at_pc, to_post, cook_holds, cook_woken, reduceCtorEq, false_or, or_false,
        IsEmpty.forall_iff, implies_true, Bool.false_eq_true, if_false, if_true,
        true_implies, forall_const, true_or, or_true] at * <;>
      first | omega | (split_ifs at * <;> omega)
  | post_mutex =>
    simp only [cook_step, Option.some.injEq] at hs
    subst hs
    cases fin <;>
      constructor <;>
      simp only [at_pc, to_post, cook_holds, cook_woken, reduceCtorEq, false_or, or_false,
        IsEmpty.forall_iff, implies_true, Bool.false_eq_true, if_false, if_true,
        true_implies, forall_const, true_or, or_true, CookPc.post_full.injEq] at * <;>
      omega
  | post_full i =>
    have hi := hI i rfl
    simp only [cook_step] at hs
    split_ifs at hs with hlt
    · have e : int32 (i + 1) = i + 1 := by unfold int32; omega
      rw [e] at hs
      simp only [Option.some.injEq] at hs
      subst hs
      cases fin <;>
        constructor <;>
        simp only [at_pc, to_post, cook_holds, cook_woken, reduceCtorEq, false_or, or_false,
          IsEmpty.forall_iff, implies_true, Bool.false_eq_true, if_false, if_true,
          true_implies, forall_const, true_or, or_true, CookPc.post_full.injEq] at * <;>
        omega
    · simp only [Option.some.injEq] at hs
      subst hs
      cases fin <;>
        constructor <;>
        simp only [at_pc, to_post, cook_holds, cook_woken, reduceCtorEq, false_or, or_false,
          IsEmpty.forall_iff, implies_true, Bool.false_eq_true, if_false, if_true,
          true_implies, forall_const, true_or, or_true, CookPc.post_full.injEq] at * <;>
        omega
  | terminated =>
    simp [cook_step] at hs

/-- A statement of a savage keeps the invariant. -/
theorem savage_step_inv (M : Int) (hM0 : 0 ≤ M) (hM1 : M < 2147483648) {s s1 : Pot} {i : Nat}
    (h : PotInv M s) (hs : savage_step s i = some s1) : PotInv M s1 := by
  obtain ⟨hA, hI, hB, hE, hG1, hG2, hL⟩ := h
  obtain ⟨sv, mu, fu, em, fin, ck, svs⟩ := s
  simp only [at_pc] at hA hI hB hE hG1 hG2 hL
  simp only [savage_step] at hs
  have hto : 0 ≤ to_post M ck := by
    cases ck with
    | post_mutex => exact hM0
    | post_full j =>
      have := (hI j rfl).2
      simp only [to_post]
      omega
    | _ => exact Int.le_refl 0
  cases hp : svs[i]? with
  | none => simp [hp] at hs
  | some p =>
    rw [hp] at hs
    cases p with
    | wait_full =>
      obtain ⟨c1, c2, c3, c4, c5, c6⟩ := count_set_all svs i SavagePc.wait_full SavagePc.wait_mutex hp
      simp only [reduceCtorEq, if_false, if_true] at c1 c2 c3 c4 c5 c6
      simp only at hs
      split_ifs at hs with he
      simp only [Option.some.injEq] at hs
      subst hs
      cases fin <;>
      constructor <;>
      simp only [at_pc, reduceCtorEq, Bool.false_eq_true, IsEmpty.forall_iff, implies_true,
        true_implies, forall_const] at * <;>
      first
        | assumption
        | omega
        | (split_ifs at * <;> omega)
    | wait_mutex =>
      obtain ⟨c1, c2, c3, c4, c5, c6⟩ := count_set_all svs i SavagePc.wait_mutex SavagePc.decrement hp
      simp only [reduceCtorEq, if_false, if_true] at c1 c2 c3 c4 c5 c6
      simp only at hs
      split_ifs at hs with he
      simp only [Option.some.injEq] at hs
      subst hs
      cases fin <;>
      constructor <;>
      simp only [at_pc, reduceCtorEq, Bool.false_eq_true, IsEmpty.forall_iff, implies_true,
        true_implies, forall_const] at * <;>
      first
        | assumption
        | omega
        | (split_ifs at * <;> omega)
    | decrement =>
      obtain ⟨c1, c2, c3, c4, c5, c6⟩ := count_set_all svs i SavagePc.decrement SavagePc.test_empty hp
      simp only [reduceCtorEq, if_false, if_true] at c1 c2 c3 c4 c5 c6
      have e : int32 (sv - 1) = sv - 1 := by unfold int32; omega
      simp only [e, Option.some.injEq] at hs
      subst hs
      cases fin <;>
      constructor <;>
      simp only [at_pc, reduceCtorEq, Bool.false_eq_true, IsEmpty.forall_iff, implies_true,
        true_implies, forall_const] at * <;>
      first
        | assumption
        | omega
        | (intro hq; have := hB hq; omega)
        | (split_ifs at * <;> omega)
    | test_empty =>
      simp only at hs
      split_ifs at hs with h0
      · obtain ⟨c1, c2, c3, c4, c5, c6⟩ :=
          count_set_all svs i SavagePc.test_empty SavagePc.post_empty hp
        simp only [reduceCtorEq, if_false, if_true] at c1 c2 c3 c4 c5 c6
        simp only [Option.some.injEq] at hs
        subst hs
        cases fin <;>
        constructor <;>
        simp only [at_pc, reduceCtorEq, Bool.false_eq_true, IsEmpty.forall_iff, implies_true,
          true_implies, forall_const] at * <;>
        first
          | assumption
          | omega
          | (split_ifs at * ; omega)
      · obtain ⟨c1, c2, c3, c4, c5, c6⟩ :=
          count_set_all svs i SavagePc.test_empty SavagePc.post_mutex hp
        simp only [reduceCtorEq, if_false, if_true] at c1 c2 c3 c4 c5 c6
        simp only [Option.some.injEq] at hs
        subst hs
        cases fin <;>
        constructor <;>
        simp only [at_pc, reduceCtorEq, Bool.false_eq_true, IsEmpty.forall_iff, implies_true,
          true_implies, forall_const] at * <;>
        first
          | assumption
          | omega
          | (split_ifs at * ; omega)
    | post_empty =>
      obtain ⟨c1, c2, c3, c4, c5, c6⟩ := count_set_all svs i SavagePc.post_empty SavagePc.post_mutex hp
      simp only [reduceCtorEq, if_false, if_true] at c1 c2 c3 c4 c5 c6
      simp only [Option.some.injEq] at hs
      subst hs
      cases fin <;>
      constructor <;>
      simp only [at_pc, reduceCtorEq, Bool.false_eq_true, IsEmpty.forall_iff, implies_true,
        true_implies, forall_const] at * <;>
      first
        | assumption
        | omega
        | (split_ifs at * <;> omega)
    | post_mutex =>
      obtain ⟨c1, c2, c3, c4, c5, c6⟩ := count_set_all svs i SavagePc.post_mutex SavagePc.wait_full hp
      simp only [reduceCtorEq, if_false, if_true] at c1 c2 c3 c4 c5 c6
      simp only [Option.some.injEq] at hs
      subst hs
      cases fin <;>
      constructor <;>
      simp only [at_pc, reduceCtorEq, Bool.false_eq_true, IsEmpty.forall_iff, implies_true,
        true_implies, forall_const] at * <;>
      first
        | assumption
        | omega
        | (split_ifs at * <;> omega)

/-- Every step of the protocol keeps the invariant. -/
theorem pot_step_inv (M : Int) (hM0 : 0 ≤ M) (hM1 : M < 2147483648) {s s1 : Pot}
    {a : PotAct} (h : PotInv M s) (hs : pot_step M s a = some s1) : PotInv M s1 := by
  cases a with
  | cook => exact cook_step_inv M hM0 hM1 h hs
  | savage i => exact savage_step_inv M hM0 hM1 h hs
  | signal =>
    simp only [pot_step, handler, Option.some.injEq] at hs
    subst hs
    obtain ⟨hA, hI, hB, hE, hG1, hG2, hL⟩ := h
    constructor <;>
      simp only [at_pc, reduceCtorEq, IsEmpty.forall_iff] at * <;>
      assumption
  | interrupt =>
    obtain ⟨hA, hI, hB, hE, hG1, hG2, hL⟩ := h
    obtain ⟨sv, mu, fu, em, fin, ck, svs⟩ := s
    cases ck <;> simp only [pot_step, handler, Option.some.injEq, reduceCtorEq] at hs <;>
      subst hs <;>
      constructor <;>
      simp only [at_pc, to_post, reduceCtorEq, IsEmpty.forall_iff, implies_true, or_true,
        true_or, true_implies, forall_const, or_false, false_or] at * <;>
      assumption

theorem pot_exec_inv (M : Int) (hM0 : 0 ≤ M) (hM1 : M < 2147483648) :
    ∀ (sched : List PotAct) (s s1 : Pot), PotInv M s → pot_exec M s sched = some s1 →
      PotInv M s1 := by
  intro sched
  induction sched with
  | nil =>
    intro s s1 h hs
    simp only [pot_exec, Option.some.injEq] at hs
    rw [← hs]
    exact h
  | cons a as ih =>
    intro s s1 h hs
    simp only [pot_exec] at hs
    cases hstep : pot_step M s a with
    | none => rw [hstep] at hs; simp at hs
    | some s2 =>
      rw [hstep] at hs
      exact ih s2 s1 (pot_step_inv M hM0 hM1 h hstep) hs

/-- Every reachable state of the protocol satisfies the invariant. -/
theorem pot_reachable_inv (M : Int) (hM0 : 0 ≤ M) (hM1 : M < 2147483648) (n : Nat) (s : Pot)
    (hr : PotReachable M n s) : PotInv M s := by
  obtain ⟨sched, hs⟩ := hr
  exact pot_exec_inv M hM0 hM1 sched _ s (potInv_init M hM0 n) hs

theorem to_post_nonneg (M : Int) (hM0 : 0 ≤ M) (s : Pot) (h : PotInv M s) :
    0 ≤ to_post M s.cook := by
  cases hc : s.cook with
  | post_mutex => exact hM0
  | post_full j =>
    have := (h.iter j hc).2
    simp only [to_post]
    omega
  | _ => exact Int.le_refl 0

/-- C29: in the cook and savages protocol, from `servings = 0`, `mutex_sem = 1`,
`full_sem = 0`, `empty_sem = 1`, with one cook and any number of savages, every
reachable state has `0 ≤ servings ≤ M`; a savage about to execute `(*servings)--`
finds at least one serving, and the cook about to execute `*servings = count` finds
the pot empty. -/
theorem pot_servings_bounded (M : Int) (hM0 : 0 ≤ M) (hM1 : M < 2147483648) (n : Nat)
    (s : Pot) (hr : PotReachable M n s) :
    (0 ≤ s.servings ∧ s.servings ≤ M) ∧
    (∀ i, s.savages[i]? = some SavagePc.decrement →
      1 ≤ s.servings ∧
      ∃ s1, pot_step M s (PotAct.savage i) = some s1 ∧ s1.servings = s.servings - 1) ∧
    (s.cook = CookPc.set_servings →
      s.servings = 0 ∧ ∃ s1, pot_step M s PotAct.cook = some s1 ∧ s1.servings = M) := by
  have h := pot_reachable_inv M hM0 hM1 n s hr
  have hto := to_post_nonneg M hM0 s h
  have hA := h.tokens
  have hL := h.le_M
  refine ⟨⟨by omega, hL⟩, ?_, ?_⟩
  · intro i hi
    have hmem : SavagePc.decrement ∈ s.savages := List.mem_iff_getElem?.2 ⟨i, hi⟩
    have hpos : 0 < s.savages.count SavagePc.decrement := List.count_pos_iff.2 hmem
    simp only [at_pc] at hA
    have h1 : 1 ≤ s.servings := by omega
    refine ⟨h1, { s with servings := int32 (s.servings - 1),
                         savages := s.savages.set i SavagePc.test_empty }, ?_, ?_⟩
    · simp only [pot_step, savage_step, hi]
    · show int32 (s.servings - 1) = s.servings - 1
      unfold int32
      omega
  · intro hc
    refine ⟨h.empty_pot (Or.inr hc), { s with servings := M, cook := CookPc.post_mutex },
      ?_, rfl⟩
    simp only [pot_step, cook_step, hc]

theorem pot_servings_bounded_witness :
    pot_exec 10 (pot_init 2)
        [PotAct.cook, PotAct.cook, PotAct.cook, PotAct.cook, PotAct.cook, PotAct.cook,
          PotAct.cook, PotAct.savage 0, PotAct.savage 0] =
      some ⟨10, 0, 0, 0, false, CookPc.post_full 1,
        [SavagePc.decrement, SavagePc.wait_full]⟩ ∧
    ((0 ≤ (10 : Int) ∧ (10 : Int) ≤ 10) ∧
    (∀ i, [SavagePc.decrement, SavagePc.wait_full][i]? = some SavagePc.decrement →
      1 ≤ (10 : Int) ∧
      ∃ s1, pot_step 10 ⟨10, 0, 0, 0, false, CookPc.post_full 1,
          [SavagePc.decrement, SavagePc.wait_full]⟩ (PotAct.savage i) = some s1 ∧
        s1.servings = 10 - 1) ∧
    (CookPc.post_full 1 = CookPc.set_servings →
      (10 : Int) = 0 ∧ ∃ s1, pot_step 10 ⟨10, 0, 0, 0, false, CookPc.post_full 1,
          [SavagePc.decrement, SavagePc.wait_full]⟩ PotAct.cook = some s1 ∧
        s1.servings = 10)) :=
  ⟨by decide,
    pot_servings_bounded 10 (by decide) (by decide) 2
      ⟨10, 0, 0, 0, false, CookPc.post_full 1, [SavagePc.decrement, SavagePc.wait_full]⟩
      ⟨[PotAct.cook, PotAct.cook, PotAct.cook, PotAct.cook, PotAct.cook, PotAct.cook,
          PotAct.cook, PotAct.savage 0, PotAct.savage 0], by decide⟩⟩

/-! ## The mutex is held at every access to the counters -/

end Disco
